import Mathlib

/-!
# The `edit` code editor: syntax highlighter and editing reactions

A shallow embedding of `src/highlight.cpp` (`DraculaCppSyntaxHighlighter`) and of
`src/editor.cpp` (`AutoIndentTextEdit`: `keyPressEvent` with its line-comment toggle,
`insertCompletion`, `wheelEvent` and the candidate word list).

Modelling conventions.

* A `QString` is the list of its characters; one list element stands for one `QChar`
  (text of the Basic Multilingual Plane), so offsets are list indices.
* `int` values are `Int`; `-1` is the "not found" value of `indexOf` and `capturedStart`.
* A `QRegularExpression` is the syntax tree of its pattern string, interpreted by a
  backtracking matcher with the priorities of the library: greedy repetition, ordered
  alternation, leftmost start.
* The calls of `setFormat` made while one block is highlighted are recorded in call order.
* The document of the editor is its plain text, with the line feed between blocks; cursor
  positions are offsets into it, one per character. What `QTextEdit` and `QTextCursor` do on
  keys that the widget does not handle itself is a parameter (`Host`).
-/

namespace Edit

/-- Text of a block or of a pattern target: the sequence of its characters. -/
abbrev QString := List Char

/-! ## Regular expressions -/

/-- Set of characters written `[...]`, `[^...]`, `\s` or `.` in a pattern: a list of
inclusive ranges, possibly negated. -/
structure CharSet where
  negated : Bool
  ranges : List (Char × Char)
deriving DecidableEq, Repr

/-- Membership of a character in a character set. -/
def CharSet.contains (cs : CharSet) (c : Char) : Bool :=
  (cs.ranges.any fun r => decide (r.1.toNat ≤ c.toNat) && decide (c.toNat ≤ r.2.toNat)) != cs.negated

/-- Syntax of the patterns used by the highlighter. -/
inductive Regex where
  | epsilon
  | chr (c : Char)
  | set (cs : CharSet)
  | wordBoundary
  | seq (a b : Regex)
  | alt (a b : Regex)
  | star (a : Regex)
  | lookahead (a : Regex)
deriving DecidableEq, Repr

/-- The class `[A-Za-z0-9_]`, which is also the set of word characters of `\b`. -/
def wordSet : CharSet := ⟨false, [('A', 'Z'), ('a', 'z'), ('0', '9'), ('_', '_')]⟩

/-- The class `[A-Za-z_]`. -/
def identStartSet : CharSet := ⟨false, [('A', 'Z'), ('a', 'z'), ('_', '_')]⟩

/-- The class `[0-9]`. -/
def digitSet : CharSet := ⟨false, [('0', '9')]⟩

/-- The class `\s`: tab, line feed, vertical tab, form feed, carriage return, space. -/
def spaceSet : CharSet := ⟨false, [(Char.ofNat 9, Char.ofNat 13), (' ', ' ')]⟩

/-- The class `.`: every character but the line feed. -/
def dotSet : CharSet := ⟨true, [(Char.ofNat 10, Char.ofNat 10)]⟩

/-- The class `[^c]`. -/
def notChar (c : Char) : CharSet := ⟨true, [(c, c)]⟩

/-- Whether the character at offset `i` exists and is a word character. -/
def wordAt (text : QString) (i : Nat) : Bool :=
  match text[i]? with
  | some c => wordSet.contains c
  | none => false

/-- The assertion `\b` at offset `pos`: exactly one of the two neighbours is a word
character. -/
def atWordBoundary (text : QString) (pos : Nat) : Bool :=
  (if pos = 0 then false else wordAt text (pos - 1)) != wordAt text pos

/-- Greedy repetition. `step p` lists the offsets at which one iteration started at `p` can
end, in priority order; the result lists the offsets at which the repetition can end, longest
attempts first and the empty repetition last. An iteration that does not advance ends the
loop. -/
def starEnds (step : Nat → List Nat) : Nat → Nat → List Nat
  | 0, pos => [pos]
  | fuel + 1, pos =>
    ((step pos).filter fun e => decide (pos < e)).flatMap (starEnds step fuel) ++ [pos]

/-- The offsets at which a match of the pattern started at `pos` can end, in the order in
which the backtracking matcher tries them. -/
def Regex.ends (text : QString) : Regex → Nat → List Nat
  | .epsilon, pos => [pos]
  | .chr c, pos => if text[pos]? = some c then [pos + 1] else []
  | .set cs, pos =>
    match text[pos]? with
    | some c => if cs.contains c then [pos + 1] else []
    | none => []
  | .wordBoundary, pos => if atWordBoundary text pos then [pos] else []
  | .seq a b, pos => (a.ends text pos).flatMap (b.ends text)
  | .alt a b, pos => a.ends text pos ++ b.ends text pos
  | .star a, pos => starEnds (a.ends text) text.length pos
  | .lookahead a, pos => if (a.ends text pos).isEmpty then [] else [pos]

/-- The match found when the pattern is tried at offset `start` only: the end offset. -/
def Regex.matchAt (re : Regex) (text : QString) (start : Nat) : Option Nat :=
  (re.ends text start).head?

/-- Scan of the start offsets `s, s + 1, ...` (`n` of them) for the leftmost match. -/
def searchAux (re : Regex) (text : QString) : Nat → Nat → Option (Nat × Nat)
  | 0, _ => none
  | n + 1, s =>
    match re.matchAt text s with
    | some e => some (s, e)
    | none => searchAux re text n (s + 1)

/-- Result of `QRegularExpression::match`: start and end offset of the match, if any. -/
abbrev QRegularExpressionMatch := Option (Nat × Nat)

/-- The call `re.match(text, offset)` for `0 ≤ offset`: the leftmost match starting at or
after `offset`. -/
def Regex.matchFrom (re : Regex) (text : QString) (offset : Int) : QRegularExpressionMatch :=
  searchAux re text (text.length + 1 - offset.toNat) offset.toNat

/-- The accessor `capturedStart()`: `-1` when there is no match. -/
def capturedStart : QRegularExpressionMatch → Int
  | some (s, _) => (s : Int)
  | none => -1

/-- The accessor `capturedLength()`: `0` when there is no match. -/
def capturedLength : QRegularExpressionMatch → Int
  | some (s, e) => (e : Int) - (s : Int)
  | none => 0

/-- The call `text.indexOf(re, from)` for `0 ≤ from`: start of the leftmost match at or after
`from`, or `-1`. -/
def indexOf (text : QString) (re : Regex) (frm : Int) : Int :=
  capturedStart (re.matchFrom text frm)

/-- Successive matches of `re.globalMatch(text)`; `fuel` bounds the number of matches. After a
match ending at `e` the next search starts at `e` (one further when the match was empty). -/
def globalMatchAux (re : Regex) (text : QString) : Nat → Nat → List (Nat × Nat)
  | 0, _ => []
  | fuel + 1, offset =>
    match re.matchFrom text (offset : Int) with
    | none => []
    | some (s, e) => (s, e) :: globalMatchAux re text fuel (if e ≤ s then s + 1 else e)

/-- The matches iterated by `re.globalMatch(text)`, left to right. -/
def globalMatch (re : Regex) (text : QString) : List (Nat × Nat) :=
  globalMatchAux re text (text.length + 1) 0

/-! ## Pattern table of `DraculaCppSyntaxHighlighter` -/

/-- A literal run of characters. -/
def litChars : List Char → Regex
  | [] => .epsilon
  | [c] => .chr c
  | c :: cs => .seq (.chr c) (litChars cs)

/-- A literal word of a pattern. -/
def lit (s : String) : Regex := litChars s.toList

/-- Concatenation of the parts of a pattern, left to right. -/
def seqList : List Regex → Regex
  | [] => .epsilon
  | [a] => a
  | a :: as => .seq a (seqList as)

/-- Alternation `a|b|...`, tried left to right. -/
def altList : List Regex → Regex
  | [] => .epsilon
  | [a] => a
  | a :: as => .alt a (altList as)

/-- The repetition `a+`. -/
def plus (a : Regex) : Regex := .seq a (.star a)

/-- Words of `keywordPatterns`, in source order; the pattern of the word `w` is `\bw\b`. -/
def keywordWords : List String :=
  ["class", "const", "double", "enum", "explicit", "friend", "inline", "namespace",
   "operator", "private", "protected", "public", "short", "signals", "signed", "slots",
   "static", "struct", "template", "typedef", "typename", "union", "unsigned", "virtual",
   "void", "volatile", "bool", "true", "false", "for", "if", "else", "while", "return",
   "switch", "case", "default", "do", "break", "continue", "goto", "try", "catch", "throw",
   "const_cast", "dynamic_cast", "reinterpret_cast", "static_cast", "include", "define",
   "ifdef", "ifndef", "endif", "pragma", "error", "warning", "undef",
   "char", "int", "uint8_t", "uint16_t", "uint32_t", "uint64_t", "int8_t", "int16_t",
   "int32_t", "int64_t", "uint_fast8_t", "uint_fast16_t", "uint_fast32_t", "uint_fast64_t",
   "int_fast8_t", "int_fast16_t", "int_fast32_t", "int_fast64_t", "uint_least8_t",
   "uint_least16_t", "uint_least32_t", "uint_least64_t", "int_least8_t", "int_least16_t",
   "int_least32_t", "int_least64_t", "uintmax_t", "intmax_t", "size_t", "ptrdiff_t",
   "float", "double", "long double",
   "ptrdiff_t", "size_t", "max_align_t", "nullptr_t"]

/-- The pattern `\bw\b` of a keyword. -/
def keywordPattern (w : String) : Regex := seqList [.wordBoundary, lit w, .wordBoundary]

/-- The list `keywordPatterns` of the constructor. -/
def keywordPatterns : List Regex := keywordWords.map keywordPattern

/-- Words of `preprocessorPatterns`, in source order; the pattern of `w` is `#\s*w\b`. -/
def preprocessorWords : List String :=
  ["include", "define", "ifdef", "ifndef", "else", "elif", "endif", "pragma", "error",
   "warning", "undef"]

/-- The pattern `#\s*w\b` of a preprocessor directive. -/
def preprocessorPattern (w : String) : Regex :=
  seqList [.chr '#', .star (.set spaceSet), lit w, .wordBoundary]

/-- The list `preprocessorPatterns` of the constructor. -/
def preprocessorPatterns : List Regex := preprocessorWords.map preprocessorPattern

/-- Alternatives of the operator pattern, in source order:
`\+|\-|\*|\/|\%|\=|\==|\!=|\>|\<|\>=|\<=|\&|\||\^|\~|\!|\?|\:|\,|\;|\[|\]|\(|\)|\{|\}`. -/
def operatorTokens : List String :=
  ["+", "-", "*", "/", "%", "=", "==", "!=", ">", "<", ">=", "<=", "&", "|", "^", "~", "!",
   "?", ":", ",", ";", "[", "]", "(", ")", "\x7b", "\x7d"]

/-- The double quote character. -/
def dquote : Char := Char.ofNat 34

/-- Pattern of the operator rule. -/
def operatorPattern : Regex := altList (operatorTokens.map lit)

/-- Pattern `".*"|<.*>` of the string rule. -/
def stringPattern : Regex :=
  .alt (seqList [.chr dquote, .star (.set dotSet), .chr dquote])
       (seqList [.chr '<', .star (.set dotSet), .chr '>'])

/-- Pattern `\b[0-9]+\b` of the number rule. -/
def numberPattern : Regex := seqList [.wordBoundary, plus (.set digitSet), .wordBoundary]

/-- Pattern `\b[A-Za-z0-9_]+(?=\()` of the function call rule. -/
def functionPattern : Regex :=
  seqList [.wordBoundary, plus (.set wordSet), .lookahead (.chr '(')]

/-- Pattern `<[^>]+>|"[^"]+"` of the include rule. -/
def includePattern : Regex :=
  .alt (seqList [.chr '<', plus (.set (notChar '>')), .chr '>'])
       (seqList [.chr dquote, plus (.set (notChar dquote)), .chr dquote])

/-- Pattern `\b[A-Za-z0-9_]+\s*(?=\()` of the function definition rule. -/
def functionDefinitionPattern : Regex :=
  seqList [.wordBoundary, plus (.set wordSet), .star (.set spaceSet), .lookahead (.chr '(')]

/-- Pattern `\bclass\s+[A-Za-z0-9_]+` of the class rule. -/
def classPattern : Regex :=
  seqList [.wordBoundary, lit "class", plus (.set spaceSet), plus (.set wordSet)]

/-- The identifier `[A-Za-z_][A-Za-z0-9_]*`. -/
def identifier : Regex := .seq (.set identStartSet) (.star (.set wordSet))

/-- Pattern `\b[A-Za-z_][A-Za-z0-9_]*\s+(?=[A-Za-z_][A-Za-z0-9_]*\s*\()` of the argument
rule. -/
def argumentPattern : Regex :=
  seqList [.wordBoundary, identifier, plus (.set spaceSet),
           .lookahead (seqList [identifier, .star (.set spaceSet), .chr '('])]

/-- Pattern `\b[A-Za-z_][A-Za-z0-9_]*(?=\s+[A-Za-z_][A-Za-z0-9_]*\s*(?:=|;|\(|,))` of the
user-defined type rule. -/
def typePattern : Regex :=
  seqList [.wordBoundary, identifier,
           .lookahead (seqList [plus (.set spaceSet), identifier, .star (.set spaceSet),
                                altList [.chr '=', .chr ';', .chr '(', .chr ',']])]

/-- Pattern `\bnamespace\s+[A-Za-z_][A-Za-z0-9_]*` of the namespace rule. -/
def namespacePattern : Regex :=
  seqList [.wordBoundary, lit "namespace", plus (.set spaceSet), identifier]

/-- Pattern `\btemplate\s*<[^>]+>` of the template parameter rule. -/
def templateParameterPattern : Regex :=
  seqList [.wordBoundary, lit "template", .star (.set spaceSet), .chr '<',
           plus (.set (notChar '>')), .chr '>']

/-- Pattern `//[^\n]*` of the single-line comment rule. -/
def singleLineCommentPattern : Regex :=
  seqList [.chr '/', .chr '/', .star (.set (notChar (Char.ofNat 10)))]

/-! ## The highlighter object -/

/-- The properties of a `QTextCharFormat` that the highlighter sets: the foreground colour and
the bold font weight. The default format sets neither. -/
structure QTextCharFormat where
  foreground : Option String := none
  bold : Bool := false
deriving DecidableEq, Repr

/-- A rule of the table: `struct HighlightingRule`. -/
structure HighlightingRule where
  pattern : Regex
  format : QTextCharFormat
deriving DecidableEq, Repr

/-- Members of `DraculaCppSyntaxHighlighter`, with their default-constructed values. -/
structure DraculaCppSyntaxHighlighter where
  highlightingRules : List HighlightingRule := []
  commentStartExpression : Regex := .epsilon
  commentEndExpression : Regex := .epsilon
  multiLineCommentFormat : QTextCharFormat := {}
deriving DecidableEq, Repr

/-- The call `highlightingRules.append(rule)`. -/
def DraculaCppSyntaxHighlighter.append (h : DraculaCppSyntaxHighlighter)
    (rule : HighlightingRule) : DraculaCppSyntaxHighlighter :=
  { h with highlightingRules := h.highlightingRules ++ [rule] }

/-- Local `keywordFormat`: pink, bold. -/
def keywordFormat : QTextCharFormat := { foreground := some "#FF79C6", bold := true }

/-- Local `operatorFormat`: pink. -/
def operatorFormat : QTextCharFormat := { foreground := some "#FF79C6" }

/-- Local `stringFormat`: yellow. -/
def stringFormat : QTextCharFormat := { foreground := some "#F1FA8C" }

/-- Local `numberFormat`: purple. -/
def numberFormat : QTextCharFormat := { foreground := some "#BD93F9" }

/-- Local `functionFormat`: green. -/
def functionFormat : QTextCharFormat := { foreground := some "#50FA7B" }

/-- Local `includeFormat`: yellow. -/
def includeFormat : QTextCharFormat := { foreground := some "#F1FA8C" }

/-- Local `functionDefinitionFormat`: green. -/
def functionDefinitionFormat : QTextCharFormat := { foreground := some "#50FA7B" }

/-- Local `classFormat`: pink. -/
def classFormat : QTextCharFormat := { foreground := some "#FF79C6" }

/-- Local `argumentFormat`: orange. -/
def argumentFormat : QTextCharFormat := { foreground := some "#FFB86C" }

/-- Local `typeFormat`: sky blue. -/
def typeFormat : QTextCharFormat := { foreground := some "#8BE9FD" }

/-- Local `namespaceFormat`: purple. -/
def namespaceFormat : QTextCharFormat := { foreground := some "#BD93F9" }

/-- Local `templateParameterFormat`: orange. -/
def templateParameterFormat : QTextCharFormat := { foreground := some "#FFB86C" }

/-- Local `singleLineCommentFormat`: comment blue. -/
def singleLineCommentFormat : QTextCharFormat := { foreground := some "#6272A4" }

/-- Local `operatorRule`. -/
def operatorRule : HighlightingRule := ⟨operatorPattern, operatorFormat⟩

/-- Local `stringRule`. -/
def stringRule : HighlightingRule := ⟨stringPattern, stringFormat⟩

/-- Local `numberRule`. -/
def numberRule : HighlightingRule := ⟨numberPattern, numberFormat⟩

/-- Local `functionRule`. -/
def functionRule : HighlightingRule := ⟨functionPattern, functionFormat⟩

/-- Local `includeRule`. -/
def includeRule : HighlightingRule := ⟨includePattern, includeFormat⟩

/-- Local `functionDefinitionRule`. -/
def functionDefinitionRule : HighlightingRule :=
  ⟨functionDefinitionPattern, functionDefinitionFormat⟩

/-- Local `classRule`. -/
def classRule : HighlightingRule := ⟨classPattern, classFormat⟩

/-- Local `argumentRule`. -/
def argumentRule : HighlightingRule := ⟨argumentPattern, argumentFormat⟩

/-- Local `typeRule`. -/
def typeRule : HighlightingRule := ⟨typePattern, typeFormat⟩

/-- Local `namespaceRule`. -/
def namespaceRule : HighlightingRule := ⟨namespacePattern, namespaceFormat⟩

/-- Local `templateParameterRule`. -/
def templateParameterRule : HighlightingRule :=
  ⟨templateParameterPattern, templateParameterFormat⟩

/-- Local `singleLineCommentRule`. -/
def singleLineCommentRule : HighlightingRule :=
  ⟨singleLineCommentPattern, singleLineCommentFormat⟩

/-- Local `multiLineCommentFormat` of the last block of the constructor: gray (`Qt::gray`).
The local has the name of the member and hides it. -/
def multiLineCommentFormat : QTextCharFormat := { foreground := some "gray" }

/-- The constructor `DraculaCppSyntaxHighlighter::DraculaCppSyntaxHighlighter`, statement by
statement. Its last block declares a local `QTextCharFormat multiLineCommentFormat` and sets
the gray foreground on that local; the member of the same name is not assigned. -/
def DraculaCppSyntaxHighlighter.new : DraculaCppSyntaxHighlighter :=
  let h : DraculaCppSyntaxHighlighter := {}
  let h := preprocessorPatterns.foldl (fun h pattern => h.append ⟨pattern, keywordFormat⟩) h
  let h := keywordPatterns.foldl (fun h pattern => h.append ⟨pattern, keywordFormat⟩) h
  let h := h.append operatorRule
  let h := h.append stringRule
  let h := h.append numberRule
  let h := h.append functionRule
  let h := h.append includeRule
  let h := h.append functionDefinitionRule
  let h := h.append classRule
  let h := h.append argumentRule
  let h := h.append typeRule
  let h := h.append namespaceRule
  let h := h.append templateParameterRule
  let h := h.append singleLineCommentRule
  let _multiLineCommentFormat : QTextCharFormat := Edit.multiLineCommentFormat
  let h := { h with commentStartExpression := .seq (.chr '/') (.chr '*') }
  let h := { h with commentEndExpression := .seq (.chr '*') (.chr '/') }
  h

/-! ## `highlightBlock` -/

/-- One call `setFormat(start, count, format)`. -/
structure FormatRange where
  start : Int
  count : Int
  format : QTextCharFormat
deriving DecidableEq, Repr

/-- What one run of `highlightBlock` does to the current block: the calls of `setFormat` in
call order, and the block state last set. -/
structure BlockResult where
  formats : List FormatRange
  currentBlockState : Int
deriving DecidableEq, Repr

/-- The call `setFormat(start, count, format)`. -/
def setFormat (st : BlockResult) (start count : Int) (format : QTextCharFormat) : BlockResult :=
  { st with formats := st.formats ++ [⟨start, count, format⟩] }

/-- The call `setCurrentBlockState(newState)`. -/
def setCurrentBlockState (st : BlockResult) (newState : Int) : BlockResult :=
  { st with currentBlockState := newState }

/-- Inner loop of the rule pass: every match of one rule is given the format of the rule. -/
def applyRule (text : QString) (st : BlockResult) (rule : HighlightingRule) : BlockResult :=
  (globalMatch rule.pattern text).foldl
    (fun st m => setFormat st (capturedStart (some m)) (capturedLength (some m)) rule.format) st

/-- The loop `while (startIndex >= 0)` of `highlightBlock`. Each unit of `fuel` pays for one
run of the loop body; `none` means that the fuel ran out before the loop ended. -/
def commentLoop (self : DraculaCppSyntaxHighlighter) (text : QString) :
    Nat → Int → BlockResult → Option BlockResult
  | 0, startIndex, st => if startIndex ≥ 0 then none else some st
  | fuel + 1, startIndex, st =>
    if startIndex ≥ 0 then
      let m := self.commentEndExpression.matchFrom text startIndex
      let endIndex := capturedStart m
      let st1 := if endIndex = -1 then setCurrentBlockState st 1 else st
      let commentLength : Int :=
        if endIndex = -1 then (text.length : Int) - startIndex
        else endIndex - startIndex + capturedLength m
      let st2 := setFormat st1 startIndex commentLength self.multiLineCommentFormat
      commentLoop self text fuel
        (indexOf text self.commentStartExpression (startIndex + commentLength)) st2
    else some st

/-- The method `highlightBlock(text)`, run on a block that holds the state `currentBlockState`
before the run (the state left by an earlier run, or `-1`) and whose predecessor has state
`previousBlockState`. No format is set on the block when the run starts. -/
def DraculaCppSyntaxHighlighter.highlightBlockFrom (self : DraculaCppSyntaxHighlighter)
    (currentBlockState : Int) (text : QString) (previousBlockState : Int) :
    Option BlockResult :=
  let st : BlockResult := ⟨[], currentBlockState⟩
  let st := self.highlightingRules.foldl (applyRule text) st
  let st := setCurrentBlockState st 0
  let startIndex : Int :=
    if previousBlockState ≠ 1 then indexOf text self.commentStartExpression 0 else 0
  commentLoop self text (text.length + 1) startIndex st

/-- The method `highlightBlock(text)` on a block that was not highlighted before, so that its
state is `-1`, and whose predecessor has state `previousBlockState`. -/
def DraculaCppSyntaxHighlighter.highlightBlock (self : DraculaCppSyntaxHighlighter)
    (text : QString) (previousBlockState : Int) : Option BlockResult :=
  self.highlightBlockFrom (-1) text previousBlockState

/-- The highlighter installed on the editor document. -/
@[irreducible]
def highlighter : DraculaCppSyntaxHighlighter := DraculaCppSyntaxHighlighter.new

/-- The method `highlightBlock` of the installed highlighter. -/
def highlightBlock (text : QString) (previousBlockState : Int) : Option BlockResult :=
  highlighter.highlightBlock text previousBlockState

/-- The format ranges that the rule pass of `highlightBlock` sets on a text: rule after rule in
table order, and for each rule its matches on the whole text from left to right. -/
def ruleFormats (rules : List HighlightingRule) (text : QString) : List FormatRange :=
  rules.flatMap fun rule =>
    (globalMatch rule.pattern text).map fun m => ⟨(m.1 : Int), (m.2 : Int) - (m.1 : Int), rule.format⟩

/-- A comment span `(start, length)`, as the call of `setFormat` that applies it: the format is
the member `multiLineCommentFormat`. -/
def commentRange (self : DraculaCppSyntaxHighlighter) (span : Nat × Nat) : FormatRange :=
  ⟨(span.1 : Int), (span.2 : Int), self.multiLineCommentFormat⟩

/-- The call `setFormat(start, count, format)` covers offset `i`. -/
def FormatRange.covers (r : FormatRange) (i : Int) : Prop :=
  r.start ≤ i ∧ i < r.start + r.count

instance (r : FormatRange) (i : Int) : Decidable (r.covers i) := by
  unfold FormatRange.covers; infer_instance

/-- A highlighter object whose comment expressions are those set by the constructor. -/
def HasCommentTokens (self : DraculaCppSyntaxHighlighter) : Prop :=
  self.commentStartExpression = .seq (.chr '/') (.chr '*') ∧
    self.commentEndExpression = .seq (.chr '*') (.chr '/')

/-- Block states of the specification. -/
def NORMAL : Int := 0

/-- Block state of a block that ends inside a block comment. -/
def IN_BLOCK_COMMENT : Int := 1

/-! ## Reference notions for block comments -/

/-- The two-character token `a b` stands at offset `i` of the text. -/
def tokenAt (a b : Char) (text : QString) (i : Nat) : Prop :=
  text[i]? = some a ∧ text[i + 1]? = some b

instance (a b : Char) (text : QString) (i : Nat) : Decidable (tokenAt a b text i) := by
  unfold tokenAt; infer_instance

/-- Offset of the first occurrence of the token `a b` that starts at or after offset `k`. -/
def firstToken (a b : Char) : QString → Nat → Option Nat
  | [], _ => none
  | x :: rest, 0 =>
    if x = a ∧ rest.head? = some b then some 0 else (firstToken a b rest 0).map (· + 1)
  | _ :: rest, k + 1 => (firstToken a b rest k).map (· + 1)

/-- Reference scan for block comments, in the words of the specification: find the first
start token at or after the search offset; if an end token exists at or after that start, take
the nearest one, at offset `e`, emit the span from the start through `e + 1` inclusive and
resume at offset `e + 2`; if none exists, the span runs from the start token to the end of the
line and the line ends inside a comment. The result is the list of spans `(start, length)` and
whether every start token found had an end token. `none` means that the fuel ran out. -/
def referenceScan (text : QString) : Nat → Nat → Option (List (Nat × Nat) × Bool)
  | fuel, offset =>
    match firstToken '/' '*' text offset with
    | none => some ([], true)
    | some s =>
      match fuel with
      | 0 => none
      | fuel + 1 =>
        match firstToken '*' '/' text s with
        | some e => (referenceScan text fuel (e + 2)).map fun r => ((s, e + 2 - s) :: r.1, r.2)
        | none => some ([(s, text.length - s)], false)

/-! ## Documents -/

/-- Highlighting of the lines of a document in order: the first line with previous state
`previousBlockState`, each later line with the state set by its predecessor. -/
def highlightDocument : Int → List QString → Option (List BlockResult)
  | _, [] => some []
  | previousBlockState, text :: rest =>
    match highlightBlock text previousBlockState with
    | none => none
    | some r => (highlightDocument r.currentBlockState rest).map (r :: ·)

/-- The state carried into line `j` of a document whose lines before `j` have the results
`results`: the state of line `j - 1`, or the initial state for the first line. -/
def carriedState (initial : Int) (results : List BlockResult) : Nat → Option Int
  | 0 => some initial
  | j + 1 => results[j]?.map (·.currentBlockState)

/-! ## Painting -/

/-- Loop of `QSyntaxHighlighter::setFormat` over the per-character format vector, whose
remaining part starts at offset `i`. -/
def paintFrom (r : FormatRange) : Nat → List QTextCharFormat → List QTextCharFormat
  | _, [] => []
  | i, f :: fs =>
    (if r.start ≤ (i : Int) ∧ (i : Int) < r.start + r.count then r.format else f)
      :: paintFrom r (i + 1) fs

/-- Effect of one call of `setFormat` on the per-character format vector: nothing when `start`
is out of range, else the characters from `start` to `start + count` (cut at the end of the
text) take the format. -/
def paint (changes : List QTextCharFormat) (r : FormatRange) : List QTextCharFormat :=
  if r.start < 0 ∨ r.start ≥ (changes.length : Int) then changes else paintFrom r 0 changes

/-- The per-character formats of a block of `length` characters after the given calls of
`setFormat`, starting from the default format: the style of a character is the format of the
last call that covers it. -/
def formatChanges (length : Nat) (calls : List FormatRange) : List QTextCharFormat :=
  calls.foldl paint (List.replicate length {})

/-! ## Line comment toggle of `AutoIndentTextEdit::keyPressEvent` -/

/-- The test `QChar::isSpace`: space, the controls U+0009 to U+000D, U+0085, U+00A0 and the
characters of the Unicode separator categories. -/
def isSpace (c : Char) : Bool :=
  let u := c.toNat
  u == 0x20 || (decide (0x09 ≤ u) && decide (u ≤ 0x0d)) ||
    (decide (127 < u) &&
      (u == 0x85 || u == 0xa0 || u == 0x1680 || (decide (0x2000 ≤ u) && decide (u ≤ 0x200a)) ||
        u == 0x2028 || u == 0x2029 || u == 0x202f || u == 0x205f || u == 0x3000))

/-- The function `QString::trimmed`: whitespace removed from both ends. -/
def trimmed (s : QString) : QString :=
  (((s.dropWhile isSpace).reverse).dropWhile isSpace).reverse

/-- The function `QString::startsWith`. -/
def startsWith (s pat : QString) : Bool := pat.isPrefixOf s

/-- Search of `QString::indexOf(str)` over the rest of the text, which starts at offset `i`. -/
def indexOfStringAux (pat : QString) : QString → Nat → Int
  | [], i => if pat.isEmpty then (i : Int) else -1
  | c :: cs, i => if pat.isPrefixOf (c :: cs) then (i : Int) else indexOfStringAux pat cs (i + 1)

/-- The function `QString::indexOf(str)`: offset of the first occurrence, or `-1`. -/
def indexOfString (s pat : QString) : Int := indexOfStringAux pat s 0

/-- The loop `while (nonSpace < line.length() && line[nonSpace].isSpace()) nonSpace++`, run on
the rest of the line from offset `nonSpace`. -/
def skipSpacesAux : QString → Int → Int
  | [], nonSpace => nonSpace
  | c :: rest, nonSpace => if isSpace c then skipSpacesAux rest (nonSpace + 1) else nonSpace

/-- Value of `nonSpace` after the whitespace loop started with the given value. -/
def skipSpaces (line : QString) (nonSpace : Int) : Int :=
  skipSpacesAux (line.drop nonSpace.toNat) nonSpace

/-- A `QTextCursor` seen from the block it is in: the text of the block, and anchor and
position as offsets from `block().position()`. -/
structure QTextCursor where
  text : QString
  anchor : Nat
  position : Nat
deriving DecidableEq, Repr

/-- The move operations used by the toggle. -/
inductive MoveOperation where
  | StartOfBlock
  | EndOfBlock
  | NextCharacter
deriving DecidableEq, Repr

/-- The enumeration `QTextCursor::MoveMode`. -/
inductive MoveMode where
  | MoveAnchor
  | KeepAnchor
deriving DecidableEq, Repr

/-- Start of the selection. -/
def QTextCursor.selectionStart (c : QTextCursor) : Nat := min c.anchor c.position

/-- End of the selection. -/
def QTextCursor.selectionEnd (c : QTextCursor) : Nat := max c.anchor c.position

/-- The call `cursor.movePosition(op, mode, n)`, for moves that stay inside the block:
`NextCharacter` stops at the end of the text. -/
def QTextCursor.movePosition (c : QTextCursor) (op : MoveOperation) (mode : MoveMode)
    (n : Int) : QTextCursor :=
  let target : Nat :=
    match op with
    | .StartOfBlock => 0
    | .EndOfBlock => c.text.length
    | .NextCharacter => min (c.position + n.toNat) c.text.length
  match mode with
  | .MoveAnchor => { c with anchor := target, position := target }
  | .KeepAnchor => { c with position := target }

/-- The call `cursor.setPosition(pos)` with `pos` an offset from the start of the block; a
position outside the text leaves the cursor as it is. -/
def QTextCursor.setPosition (c : QTextCursor) (pos : Int) : QTextCursor :=
  if 0 ≤ pos ∧ pos ≤ (c.text.length : Int) then { c with anchor := pos.toNat, position := pos.toNat }
  else c

/-- The call `cursor.selectedText()`. -/
def QTextCursor.selectedText (c : QTextCursor) : QString :=
  (c.text.drop c.selectionStart).take (c.selectionEnd - c.selectionStart)

/-- The call `cursor.removeSelectedText()`. -/
def QTextCursor.removeSelectedText (c : QTextCursor) : QTextCursor :=
  { text := c.text.take c.selectionStart ++ c.text.drop c.selectionEnd,
    anchor := c.selectionStart, position := c.selectionStart }

/-- The call `cursor.deleteChar()`: removes the selection if there is one, else the character
at the cursor. -/
def QTextCursor.deleteChar (c : QTextCursor) : QTextCursor :=
  if c.anchor ≠ c.position then c.removeSelectedText
  else { c with text := c.text.take c.position ++ c.text.drop (c.position + 1) }

/-- The call `cursor.insertText(s)`: the selection, if any, is replaced by `s` and the cursor
stands after the inserted text. -/
def QTextCursor.insertText (c : QTextCursor) (s : QString) : QTextCursor :=
  let c := c.removeSelectedText
  { text := c.text.take c.position ++ s ++ c.text.drop c.position,
    anchor := c.position + s.length, position := c.position + s.length }

/-- The branch `Ctrl + /` of `keyPressEvent` up to `setTextCursor(cursor)`: comments or
uncomments the line of the cursor. The result is the cursor handed to `setTextCursor`, with
the new text of the block. The term `cursor.block().position()` is offset `0` here. -/
def toggleLineComment (textCursor : QTextCursor) : QTextCursor :=
  let cursor := textCursor
  let cursor := cursor.movePosition .StartOfBlock .MoveAnchor 1
  let cursor := cursor.movePosition .EndOfBlock .KeepAnchor 1
  let line := cursor.selectedText
  if startsWith (trimmed line) ['/', '/'] then
    let commentPos := indexOfString line ['/', '/']
    let cursor := cursor.setPosition (0 + commentPos)
    let nonSpace := skipSpaces line (commentPos + 2)
    let cursor := cursor.movePosition .NextCharacter .KeepAnchor (nonSpace - commentPos)
    let cursor := cursor.removeSelectedText
    if cursor.selectedText = [' '] then cursor.deleteChar else cursor
  else
    let nonSpace := skipSpaces line 0
    let cursor := cursor.setPosition (0 + nonSpace)
    cursor.insertText ['/', '/', ' ']

/-- The text of a line after the toggle, for a cursor at the start of the line. -/
def toggledLine (line : QString) : QString := (toggleLineComment ⟨line, 0, 0⟩).text

/-- The maximal leading whitespace run of a line. -/
def leadingWhitespace (line : QString) : QString := line.takeWhile isSpace

/-- The rest of a line after its leading whitespace run. -/
def afterWhitespace (line : QString) : QString := line.dropWhile isSpace

/-- Example document: an unterminated comment start, a line inside the comment, the end. -/
def exampleDocument : List QString :=
  ["/* a".toList, "b".toList, "c */ d".toList]

/-- The example document with another first line, which also leaves a comment open. -/
def exampleDocumentEdited : List QString :=
  ["x /* y".toList, "b".toList, "c */ d".toList]

/-- Results of highlighting `exampleDocument`. -/
def exampleResults : List BlockResult :=
  [⟨ruleFormats highlighter.highlightingRules "/* a".toList ++
      [commentRange highlighter (0, 4)], 1⟩,
   ⟨ruleFormats highlighter.highlightingRules "b".toList ++
      [commentRange highlighter (0, 1)], 1⟩,
   ⟨ruleFormats highlighter.highlightingRules "c */ d".toList ++
      [commentRange highlighter (0, 4)], 0⟩]

/-- Results of highlighting `exampleDocumentEdited`. -/
def exampleResultsEdited : List BlockResult :=
  [⟨ruleFormats highlighter.highlightingRules "x /* y".toList ++
      [commentRange highlighter (2, 4)], 1⟩,
   ⟨ruleFormats highlighter.highlightingRules "b".toList ++
      [commentRange highlighter (0, 1)], 1⟩,
   ⟨ruleFormats highlighter.highlightingRules "c */ d".toList ++
      [commentRange highlighter (0, 4)], 0⟩]

/-- The line `  int x = 5;` of the specification. -/
def intDeclarationLine : QString := "  int x = 5;".toList

/-- The calls of `setFormat` that `highlightBlock` makes on `intDeclarationLine`. -/
def intDeclarationFormats : List FormatRange :=
  [⟨2, 3, keywordFormat⟩, ⟨8, 1, operatorFormat⟩, ⟨11, 1, operatorFormat⟩,
   ⟨10, 1, numberFormat⟩, ⟨2, 3, typeFormat⟩]

/-- The structural rules that follow the keyword rules in the table, in source order. -/
def structuralRules : List HighlightingRule :=
  [operatorRule, stringRule, numberRule, functionRule, includeRule, functionDefinitionRule,
   classRule, argumentRule, typeRule, namespaceRule, templateParameterRule,
   singleLineCommentRule]

/-- Whether a keyword consists only of letters, digits and underscores. -/
def isPlainWord (w : String) : Bool := w.toList.all wordSet.contains

/-- The line made of the word `w` immediately followed by `(x)`. -/
def callLine (w : String) : QString := w.toList ++ "(x)".toList

/-- The final styles of the first `n` characters of a line after `highlightBlock`. -/
def finalStyles (text : QString) (previousBlockState : Int) (n : Nat) :
    Option (List QTextCharFormat) :=
  (highlightBlock text previousBlockState).map fun r =>
    (formatChanges text.length r.formats).take n

/-- What the specification says of uncommenting, as a function of the line: the first marker
`//` is removed together with exactly one space character after it, if there is one. -/
def removeMarkerAndOneSpace (line : QString) : QString :=
  let rest := (afterWhitespace line).drop 2
  leadingWhitespace line ++ (if rest.head? = some ' ' then rest.drop 1 else rest)

/-- A text that does not begin with a whitespace character. -/
def NoLeadingSpace (r : QString) : Prop := r.head?.map isSpace ≠ some true

instance (r : QString) : Decidable (NoLeadingSpace r) := by
  unfold NoLeadingSpace; infer_instance

/-- Whether the character at offset `i` exists and belongs to the character set. -/
def setAt (cs : CharSet) (text : QString) (i : Nat) : Bool :=
  match text[i]? with
  | some c => cs.contains c
  | none => false

/-- The rules of the table that are painted before the function definition rule. -/
def rulesBeforeFunctionDefinition : List HighlightingRule :=
  preprocessorPatterns.map (fun p => ⟨p, keywordFormat⟩) ++
    keywordPatterns.map (fun p => ⟨p, keywordFormat⟩) ++
    [operatorRule, stringRule, numberRule, functionRule, includeRule]

/-- The rules of the table that are painted after the function definition rule. -/
def rulesAfterFunctionDefinition : List HighlightingRule :=
  [classRule, argumentRule, typeRule, namespaceRule, templateParameterRule,
   singleLineCommentRule]

/-- The style of the character at offset `j` after the given calls of `setFormat`. -/
def styleAt (length : Nat) (calls : List FormatRange) (j : Nat) : Option QTextCharFormat :=
  (formatChanges length calls)[j]?

/-! ## The editor widget `AutoIndentTextEdit` -/

/-- The keys that `keyPressEvent` tells apart; every other key is `other` with its code. -/
inductive Key where
  | Key_Enter
  | Key_Return
  | Key_Escape
  | Key_Tab
  | Key_Backtab
  | Key_Slash
  | other (code : Nat)
deriving DecidableEq, Repr

/-- The flag `Qt::ControlModifier` of the modifier bit mask. -/
def ControlModifier : Nat := 0x04000000

/-- The flag `Qt::NoModifier`. -/
def NoModifier : Nat := 0

/-- A `QKeyEvent`: key, modifier bit mask and the text that the key produces. -/
structure QKeyEvent where
  key : Key
  modifiers : Nat
  text : QString
deriving DecidableEq, Repr

/-- The member `wordList` set by the constructor of `AutoIndentTextEdit`. -/
def wordList : List String :=
  ["auto", "break", "case", "char", "class", "const", "continue",
   "default", "delete", "do", "double", "else", "enum", "extern",
   "float", "for", "goto", "if", "inline", "int", "long",
   "namespace", "operator", "private", "protected", "public", "return", "short",
   "signed", "sizeof", "static", "struct", "switch", "template", "this",
   "throw", "try", "typedef", "union", "unsigned", "virtual", "void",
   "volatile", "while"]

/-- Case folding of a character for case-insensitive comparison (letters `A` to `Z`). -/
def toCaseFolded (c : Char) : Char := c.toLower

/-- Case folding of a text. -/
def foldCase (s : QString) : QString := s.map toCaseFolded

/-- Lexicographic order of two texts by character code: `QString::compare(a, b) < 0`. -/
def lexLt : QString → QString → Bool
  | [], [] => false
  | [], _ :: _ => true
  | _ :: _, [] => false
  | a :: as, b :: bs =>
    decide (a.toNat < b.toNat) || (decide (a.toNat = b.toNat) && lexLt as bs)

/-- Case-insensitive order: `QString::compare(a, b, Qt::CaseInsensitive) < 0`. -/
def lessCaseInsensitive (a b : String) : Bool := lexLt (foldCase a.toList) (foldCase b.toList)

/-- Whether a candidate starts with the prefix, case-insensitively: the filter of a
`QCompleter` with `Qt::CaseInsensitive`. -/
def matchesPrefix (completionPrefix : QString) (candidate : String) : Bool :=
  (foldCase completionPrefix).isPrefixOf (foldCase candidate.toList)

/-- The candidates that the completer offers for a prefix, in model order. -/
def completions (completionPrefix : QString) : List String :=
  wordList.filter (matchesPrefix completionPrefix)

/-- The call `completer->completionCount()`. -/
def completionCount (completionPrefix : QString) : Nat := (completions completionPrefix).length

/-- State of the widget: the plain text of the document, in which the line feed separates
blocks; anchor and position of the text cursor as offsets into that text; the prefix of the
completer, whether its popup is visible and which row of the popup is current; and the point
size of the font. -/
structure AutoIndentTextEdit where
  document : QString
  anchor : Nat
  position : Nat
  completionPrefix : QString
  popupVisible : Bool
  popupCurrentIndex : Option Nat
  fontPointSize : Int
deriving DecidableEq, Repr

/-- The line feed, which separates the blocks of a document. -/
def newline : Char := Char.ofNat 10

/-- Offset of the start of the block that contains offset `pos`. -/
def blockStart (document : QString) (pos : Nat) : Nat :=
  pos - (((document.take pos).reverse).takeWhile (fun c => c != newline)).length

/-- Offset of the end of the block that contains offset `pos`: the offset of its separator,
or the length of the document for the last block. -/
def blockEnd (document : QString) (pos : Nat) : Nat :=
  pos + ((document.drop pos).takeWhile (fun c => c != newline)).length

/-- The text `block().text()` of the block that contains offset `pos`. -/
def blockText (document : QString) (pos : Nat) : QString :=
  (document.drop (blockStart document pos)).take
    (blockEnd document pos - blockStart document pos)

/-- The move `movePosition(QTextCursor::PreviousBlock)`: to the start of the block before the
one of `pos`; in the first block the move fails and the position stays. -/
def previousBlock (document : QString) (pos : Nat) : Nat :=
  if blockStart document pos = 0 then pos else blockStart document (blockStart document pos - 1)

/-- The move `movePosition(QTextCursor::NextBlock)`: to the start of the block after the one of
`pos`; in the last block the move fails and the position stays. -/
def nextBlock (document : QString) (pos : Nat) : Nat :=
  if blockEnd document pos = document.length then pos else blockEnd document pos + 1

/-- The call `cursor.insertText(s)` on a cursor of the document: the selection, if any, is
replaced by `s`, and the cursor stands after the inserted text. -/
def AutoIndentTextEdit.insertText (w : AutoIndentTextEdit) (s : QString) : AutoIndentTextEdit :=
  let lo := min w.anchor w.position
  let hi := max w.anchor w.position
  { w with document := w.document.take lo ++ s ++ w.document.drop hi,
           anchor := lo + s.length, position := lo + s.length }

/-- What the widget takes from its host: the handler `QTextEdit::keyPressEvent` of the base
class for keys other than Return and Enter, as a function of document, anchor, position and
event, and the selection made by `QTextCursor::select(QTextCursor::WordUnderCursor)`, as the
start and end offset of the selected word for a document and a position. -/
structure Host where
  baseKeyPress : QString → Nat → Nat → QKeyEvent → QString × Nat × Nat
  selectWordUnderCursor : QString → Nat → Nat × Nat

/-- The handler `QTextEdit::keyPressEvent(event)`: Return and Enter insert a block separator at
the cursor, in place of the selection if there is one; other keys are the business of the
host. -/
def baseKeyPressEvent (host : Host) (w : AutoIndentTextEdit) (event : QKeyEvent) :
    AutoIndentTextEdit :=
  if event.key = Key.Key_Return ∨ event.key = Key.Key_Enter then w.insertText [newline]
  else
    let r := host.baseKeyPress w.document w.anchor w.position event
    { w with document := r.1, anchor := r.2.1, position := r.2.2 }

/-- The method `wordUnderCursor()`: the text selected by `select(WordUnderCursor)` on a copy
of the text cursor. -/
def wordUnderCursor (host : Host) (w : AutoIndentTextEdit) : QString :=
  let sel := host.selectWordUnderCursor w.document w.position
  (w.document.drop sel.1).take (sel.2 - sel.1)

/-- The call `completer->setCompletionPrefix(p)`: the prefix is stored and the completion model
is filtered anew, which resets the current row of the popup. -/
def setCompletionPrefix (w : AutoIndentTextEdit) (p : QString) : AutoIndentTextEdit :=
  { w with completionPrefix := p, popupCurrentIndex := none }

/-- The call `completer->complete(rect)`: the popup is shown when the completer has at least
one completion for its prefix, and hidden when it has none. -/
def complete (w : AutoIndentTextEdit) : AutoIndentTextEdit :=
  { w with popupVisible := decide (0 < completionCount w.completionPrefix) }

/-- The call `completer->popup()->hide()`. -/
def popupHide (w : AutoIndentTextEdit) : AutoIndentTextEdit :=
  { w with popupVisible := false }

/-- The call `completer->popup()->setCurrentIndex(completionModel()->index(0, 0))`. -/
def popupSelectFirst (w : AutoIndentTextEdit) : AutoIndentTextEdit :=
  { w with popupCurrentIndex := if 0 < completionCount w.completionPrefix then some 0 else none }

/-- The branch of `keyPressEvent` for Return and Enter. The local cursor is moved to the
previous block to read its text and moved back; after the base class has handled the key, the
cursor is fetched anew and the whitespace is inserted there. -/
def enterBranch (host : Host) (w : AutoIndentTextEdit) (event : QKeyEvent) :
    AutoIndentTextEdit :=
  let cursor := previousBlock w.document w.position
  let prevLine := blockText w.document cursor
  let leadingWhitespace := skipSpaces prevLine 0
  let _cursor := nextBlock w.document cursor
  let w := baseKeyPressEvent host w event
  w.insertText (prevLine.take leadingWhitespace.toNat)

/-- The branch of `keyPressEvent` for the Tab key. -/
def tabBranch (w : AutoIndentTextEdit) : AutoIndentTextEdit :=
  w.insertText [' ', ' ']

/-- The branch of `keyPressEvent` for `Ctrl + /`, on the block of the cursor; see
`toggleLineComment`. -/
def toggleBranch (w : AutoIndentTextEdit) : AutoIndentTextEdit :=
  let first := blockStart w.document w.position
  let last := blockEnd w.document w.position
  let cursor := toggleLineComment
    ⟨blockText w.document w.position, w.anchor - first, w.position - first⟩
  { w with document := w.document.take first ++ cursor.text ++ w.document.drop last,
           anchor := first + cursor.anchor, position := first + cursor.position }

/-- The structural part of `keyPressEvent`: the chain of branches on the key. -/
def structuralHandling (host : Host) (w : AutoIndentTextEdit) (event : QKeyEvent) :
    AutoIndentTextEdit :=
  if event.key = Key.Key_Return ∨ event.key = Key.Key_Enter then enterBranch host w event
  else if event.key = Key.Key_Tab then tabBranch w
  else if event.modifiers = ControlModifier ∧ event.key = Key.Key_Slash then toggleBranch w
  else baseKeyPressEvent host w event

/-- The first completion section of `keyPressEvent`, from the comment `Trigger completer after
relevant keystrokes`. -/
def firstRefresh (host : Host) (w : AutoIndentTextEdit) (event : QKeyEvent) :
    AutoIndentTextEdit :=
  if event.text.length ≥ 1 then
    let completionPrefix := wordUnderCursor host w
    if ¬ completionPrefix.isEmpty then
      let w := setCompletionPrefix w completionPrefix
      let w := if ¬ w.popupVisible then complete w else w
      if completionCount w.completionPrefix = 1 then popupSelectFirst w else w
    else w
  else popupHide w

/-- The second completion section of `keyPressEvent`, from the comment `if the user has type
at least one character` to the end. -/
def secondRefresh (host : Host) (w : AutoIndentTextEdit) (event : QKeyEvent) :
    AutoIndentTextEdit :=
  if event.text.isEmpty then w
  else
    let completionPrefix := wordUnderCursor host w
    if completionPrefix.isEmpty ∨ event.text.isEmpty then popupHide w
    else
      let w :=
        if completionPrefix ≠ w.completionPrefix then
          popupSelectFirst (setCompletionPrefix w completionPrefix)
        else w
      complete w

/-- The keys that the visible popup takes for itself. -/
def isPopupKey (key : Key) : Bool :=
  match key with
  | .Key_Enter | .Key_Return | .Key_Escape | .Key_Tab | .Key_Backtab => true
  | _ => false

/-- The method `keyPressEvent(event)`: the new state of the widget and whether the event is
still accepted (`event->ignore()` clears the flag). -/
def keyPressEvent (host : Host) (w : AutoIndentTextEdit) (event : QKeyEvent) :
    AutoIndentTextEdit × Bool :=
  if w.popupVisible ∧ isPopupKey event.key = true then (w, false)
  else
    let w := structuralHandling host w event
    let w := firstRefresh host w event
    let w := secondRefresh host w event
    (w, true)

/-- A `QWheelEvent`: modifier bit mask and vertical angle delta. -/
structure QWheelEvent where
  modifiers : Nat
  angleDeltaY : Int
deriving DecidableEq, Repr

/-- The largest value of the 32-bit type `int`. -/
def INT_MAX : Int := 2147483647

/-- Arithmetic of the 32-bit type `int`: the value that an `int` expression takes when its
mathematical result is `n`, with wrap-around outside `-2^31 .. 2^31 - 1`. -/
def wrapInt (n : Int) : Int := (n + 2147483648) % 4294967296 - 2147483648

/-- The call `font.setPointSize(n)`: a size of zero or less is refused. -/
def setPointSize (current n : Int) : Int := if n ≤ 0 then current else n

/-- The method `wheelEvent(event)`: the new point size of the font, and whether the event was
passed on to `QTextEdit::wheelEvent` for scrolling. The sums `font.pointSize() + 1` and
`font.pointSize() - 1` are `int` expressions. -/
def wheelEvent (w : AutoIndentTextEdit) (event : QWheelEvent) : AutoIndentTextEdit × Bool :=
  if event.modifiers = ControlModifier then
    if event.angleDeltaY > 0 then
      ({ w with fontPointSize := setPointSize w.fontPointSize (wrapInt (w.fontPointSize + 1)) },
        false)
    else
      let size :=
        if w.fontPointSize > 1 then setPointSize w.fontPointSize (wrapInt (w.fontPointSize - 1))
        else w.fontPointSize
      ({ w with fontPointSize := size }, false)
  else (w, true)

/-- A host for examples, after the specification: the word under the cursor is the maximal run
of letters, digits and underscores around the position, and a key that produces text inserts
that text at the cursor. -/
def exampleHost : Host where
  baseKeyPress := fun document anchor position event =>
    let lo := min anchor position
    let hi := max anchor position
    if event.text.isEmpty then (document, anchor, position)
    else (document.take lo ++ event.text ++ document.drop hi,
          lo + event.text.length, lo + event.text.length)
  selectWordUnderCursor := fun document position =>
    (position - (((document.take position).reverse).takeWhile wordSet.contains).length,
     position + ((document.drop position).takeWhile wordSet.contains).length)

/-- The document `a`, line break, `    foo();` with the caret at its end, popup hidden. -/
def twoLineEditor : AutoIndentTextEdit :=
  ⟨"a\n    foo();".toList, 12, 12, [], false, none, 12⟩

/-- The document `    foo();` with the caret at its end, popup hidden. -/
def oneLineEditor : AutoIndentTextEdit :=
  ⟨"    foo();".toList, 10, 10, [], false, none, 12⟩

/-- A press of the Return key. -/
def returnEvent : QKeyEvent := ⟨Key.Key_Return, NoModifier, [Char.ofNat 13]⟩

/-- A press of the Tab key. -/
def tabEvent : QKeyEvent := ⟨Key.Key_Tab, NoModifier, [Char.ofNat 9]⟩

/-- A press of the left arrow key (`Qt::Key_Left`), which produces no text. -/
def leftArrowEvent : QKeyEvent := ⟨Key.other 0x01000012, NoModifier, []⟩

/-- The document `vo` with the caret after it, the prefix `vo` and the popup visible, as
after typing `v` and `o`. -/
def typingEditor : AutoIndentTextEdit :=
  ⟨"vo".toList, 2, 2, "vo".toList, true, none, 12⟩

/-- A press of the space bar (`Qt::Key_Space`), which produces a blank. -/
def spaceEvent : QKeyEvent := ⟨Key.other 0x20, NoModifier, [' ']⟩

/-! ## Facts about the matcher on two-character tokens -/

theorem tokenAt_cons_succ (a b x : Char) (rest : QString) (i : Nat) :
    tokenAt a b (x :: rest) (i + 1) ↔ tokenAt a b rest i := by
  simp [tokenAt]

theorem tokenAt_lt_length {a b : Char} {text : QString} {i : Nat} (h : tokenAt a b text i) :
    i + 1 < text.length := by
  have h2 := h.2
  rcases Nat.lt_or_ge (i + 1) text.length with hlt | hge
  · exact hlt
  · rw [List.getElem?_eq_none hge] at h2
    cases h2

theorem matchAt_token (a b : Char) (text : QString) (s : Nat) :
    (Regex.seq (.chr a) (.chr b)).matchAt text s =
      if tokenAt a b text s then some (s + 2) else none := by
  unfold Regex.matchAt tokenAt
  simp only [Regex.ends]
  by_cases h1 : text[s]? = some a
  · by_cases h2 : text[s + 1]? = some b <;> simp [h1, h2]
  · simp [h1]

theorem searchAux_token_cons (a b x : Char) (rest : QString) (n s : Nat) :
    searchAux (.seq (.chr a) (.chr b)) (x :: rest) n (s + 1) =
      (searchAux (.seq (.chr a) (.chr b)) rest n s).map (fun p => (p.1 + 1, p.2 + 1)) := by
  induction n generalizing s with
  | zero => rfl
  | succ n ih =>
    simp only [searchAux, matchAt_token, tokenAt_cons_succ]
    by_cases h : tokenAt a b rest s
    · simp [h]
    · simp [h, ih]

theorem tokenAt_zero_cons (a b x : Char) (rest : QString) :
    tokenAt a b (x :: rest) 0 ↔ (x = a ∧ rest.head? = some b) := by
  cases rest <;> simp [tokenAt]

/-- The library search for a two-character pattern finds the first occurrence of the token. -/
theorem matchFrom_token (a b : Char) (text : QString) (k : Nat) :
    (Regex.seq (.chr a) (.chr b)).matchFrom text (k : Int) =
      (firstToken a b text k).map (fun i => (i, i + 2)) := by
  induction text generalizing k with
  | nil =>
    cases k with
    | zero => simp [Regex.matchFrom, searchAux, firstToken, matchAt_token, tokenAt]
    | succ k => simp [Regex.matchFrom, searchAux, firstToken]
  | cons x rest ih =>
    cases k with
    | zero =>
      have ih0 := ih 0
      simp only [Regex.matchFrom, Int.toNat_ofNat, Nat.sub_zero] at ih0
      simp only [Regex.matchFrom, firstToken, List.length_cons, Nat.cast_zero, Int.toNat_zero,
        Nat.sub_zero]
      rw [searchAux, matchAt_token]
      by_cases h : x = a ∧ rest.head? = some b
      · rw [if_pos ((tokenAt_zero_cons a b x rest).2 h), if_pos h]
        rfl
      · rw [if_neg (fun ht => h ((tokenAt_zero_cons a b x rest).1 ht)), if_neg h]
        simp only []
        rw [searchAux_token_cons, ih0]
        cases firstToken a b rest 0 <;> simp
    | succ k =>
      have ihk := ih k
      simp only [Regex.matchFrom, Int.toNat_ofNat] at ihk
      simp only [Regex.matchFrom, firstToken, List.length_cons, Int.toNat_ofNat]
      have hn : rest.length + 1 + 1 - (k + 1) = rest.length + 1 - k := by omega
      rw [hn, searchAux_token_cons, ihk]
      cases firstToken a b rest k <;> simp

theorem firstToken_eq_none_iff (a b : Char) (text : QString) (k : Nat) :
    firstToken a b text k = none ↔ ∀ j, k ≤ j → ¬ tokenAt a b text j := by
  induction text generalizing k with
  | nil => simp [firstToken, tokenAt]
  | cons x rest ih =>
    cases k with
    | zero =>
      simp only [firstToken]
      by_cases h : x = a ∧ rest.head? = some b
      · rw [if_pos h]
        constructor
        · intro h0; cases h0
        · intro hall
          exact absurd ((tokenAt_zero_cons a b x rest).2 h) (hall 0 (Nat.le_refl 0))
      · rw [if_neg h]
        simp only [Option.map_eq_none', ih 0]
        constructor
        · intro hall j _
          cases j with
          | zero => rw [tokenAt_zero_cons]; exact h
          | succ j => rw [tokenAt_cons_succ]; exact hall j (Nat.zero_le j)
        · intro hall j _
          have := hall (j + 1) (Nat.zero_le _)
          rwa [tokenAt_cons_succ] at this
    | succ k =>
      simp only [firstToken, Option.map_eq_none', ih k]
      constructor
      · intro hall j hj
        cases j with
        | zero => omega
        | succ j => rw [tokenAt_cons_succ]; exact hall j (by omega)
      · intro hall j hj
        have := hall (j + 1) (by omega)
        rwa [tokenAt_cons_succ] at this

theorem firstToken_eq_some_iff (a b : Char) (text : QString) (k i : Nat) :
    firstToken a b text k = some i ↔
      k ≤ i ∧ tokenAt a b text i ∧ ∀ j, k ≤ j → j < i → ¬ tokenAt a b text j := by
  induction text generalizing k i with
  | nil => simp [firstToken, tokenAt]
  | cons x rest ih =>
    cases k with
    | zero =>
      simp only [firstToken]
      by_cases h : x = a ∧ rest.head? = some b
      · rw [if_pos h]
        simp only [Option.some.injEq]
        constructor
        · intro h0
          subst h0
          exact ⟨Nat.le_refl 0, (tokenAt_zero_cons a b x rest).2 h, fun j _ hj => by omega⟩
        · rintro ⟨_, _, hall⟩
          rcases Nat.eq_zero_or_pos i with h0 | hpos
          · exact h0.symm
          · exact absurd ((tokenAt_zero_cons a b x rest).2 h) (hall 0 (Nat.le_refl 0) hpos)
      · rw [if_neg h]
        simp only [Option.map_eq_some']
        constructor
        · rintro ⟨i0, hi0, rfl⟩
          obtain ⟨_, htok, hall⟩ := (ih 0 i0).1 hi0
          refine ⟨Nat.zero_le _, (tokenAt_cons_succ a b x rest i0).2 htok, ?_⟩
          intro j _ hj
          cases j with
          | zero => rw [tokenAt_zero_cons]; exact h
          | succ j => rw [tokenAt_cons_succ]; exact hall j (Nat.zero_le j) (by omega)
        · rintro ⟨_, htok, hall⟩
          cases i with
          | zero => exact absurd ((tokenAt_zero_cons a b x rest).1 htok) h
          | succ i0 =>
            refine ⟨i0, (ih 0 i0).2 ⟨Nat.zero_le _, (tokenAt_cons_succ a b x rest i0).1 htok, ?_⟩, rfl⟩
            intro j _ hj
            have := hall (j + 1) (Nat.zero_le _) (by omega)
            rwa [tokenAt_cons_succ] at this
    | succ k =>
      simp only [firstToken, Option.map_eq_some']
      constructor
      · rintro ⟨i0, hi0, rfl⟩
        obtain ⟨hk, htok, hall⟩ := (ih k i0).1 hi0
        refine ⟨by omega, (tokenAt_cons_succ a b x rest i0).2 htok, ?_⟩
        intro j hj1 hj2
        cases j with
        | zero => omega
        | succ j => rw [tokenAt_cons_succ]; exact hall j (by omega) (by omega)
      · rintro ⟨hk, htok, hall⟩
        cases i with
        | zero => omega
        | succ i0 =>
          refine ⟨i0, (ih k i0).2 ⟨by omega, (tokenAt_cons_succ a b x rest i0).1 htok, ?_⟩, rfl⟩
          intro j hj1 hj2
          have := hall (j + 1) (by omega) (by omega)
          rwa [tokenAt_cons_succ] at this

/-! ## The rule pass -/

theorem foldl_setFormat (format : QTextCharFormat) (ms : List (Nat × Nat)) (st : BlockResult) :
    ms.foldl (fun st m => setFormat st (capturedStart (some m)) (capturedLength (some m)) format) st =
      ⟨st.formats ++ ms.map (fun m => ⟨(m.1 : Int), (m.2 : Int) - (m.1 : Int), format⟩),
        st.currentBlockState⟩ := by
  induction ms generalizing st with
  | nil => simp
  | cons m ms ih =>
    rw [List.foldl_cons, ih]
    simp [setFormat, capturedStart, capturedLength]

theorem foldl_applyRule (rules : List HighlightingRule) (text : QString) (st : BlockResult) :
    rules.foldl (applyRule text) st =
      ⟨st.formats ++ ruleFormats rules text, st.currentBlockState⟩ := by
  induction rules generalizing st with
  | nil => simp [ruleFormats]
  | cons rule rules ih =>
    rw [List.foldl_cons, ih]
    simp [applyRule, foldl_setFormat, ruleFormats]

theorem commentStartExpression_eq :
    highlighter.commentStartExpression = .seq (.chr '/') (.chr '*') := by
  unfold highlighter
  rfl

theorem commentEndExpression_eq :
    highlighter.commentEndExpression = .seq (.chr '*') (.chr '/') := by
  unfold highlighter
  rfl

theorem highlighter_hasCommentTokens : HasCommentTokens highlighter :=
  ⟨commentStartExpression_eq, commentEndExpression_eq⟩

/-- The search `text.indexOf(commentStartExpression, k)` finds the first start token. -/
theorem indexOf_commentStart {self : DraculaCppSyntaxHighlighter} (hself : HasCommentTokens self)
    (text : QString) (k : Nat) :
    indexOf text self.commentStartExpression (k : Int) =
      match firstToken '/' '*' text k with
      | some i => (i : Int)
      | none => -1 := by
  rw [indexOf, hself.1, matchFrom_token]
  cases firstToken '/' '*' text k <;> rfl

/-- The search `commentEndExpression.match(text, k)` finds the first end token. -/
theorem matchFrom_commentEnd {self : DraculaCppSyntaxHighlighter} (hself : HasCommentTokens self)
    (text : QString) (k : Nat) :
    self.commentEndExpression.matchFrom text (k : Int) =
      (firstToken '*' '/' text k).map (fun e => (e, e + 2)) := by
  rw [hself.2, matchFrom_token]

/-- A run of `highlightBlock` is the comment loop run after the rule pass, whatever state the
block held before. -/
theorem highlightBlockFrom_unfold (self : DraculaCppSyntaxHighlighter) (old : Int)
    (text : QString) (previousBlockState : Int) :
    self.highlightBlockFrom old text previousBlockState =
      commentLoop self text (text.length + 1)
        (if previousBlockState ≠ 1 then indexOf text self.commentStartExpression 0 else 0)
        ⟨ruleFormats self.highlightingRules text, 0⟩ := by
  unfold DraculaCppSyntaxHighlighter.highlightBlockFrom
  simp only [foldl_applyRule, setCurrentBlockState, List.nil_append]

/-- The method `highlightBlock` is the comment loop run after the rule pass. -/
theorem highlightBlock_unfold (self : DraculaCppSyntaxHighlighter) (text : QString)
    (previousBlockState : Int) :
    self.highlightBlock text previousBlockState =
      commentLoop self text (text.length + 1)
        (if previousBlockState ≠ 1 then indexOf text self.commentStartExpression 0 else 0)
        ⟨ruleFormats self.highlightingRules text, 0⟩ := by
  unfold DraculaCppSyntaxHighlighter.highlightBlock
  exact highlightBlockFrom_unfold self (-1) text previousBlockState

/-! ## The comment loop -/

theorem commentLoop_neg (self : DraculaCppSyntaxHighlighter) (text : QString) (fuel : Nat)
    (st : BlockResult) : commentLoop self text fuel (-1) st = some st := by
  cases fuel <;> simp [commentLoop]

theorem firstToken_length (a b : Char) (text : QString) :
    firstToken a b text text.length = none := by
  rw [firstToken_eq_none_iff]
  intro j hj htok
  have := tokenAt_lt_length htok
  omega

/-- One run of the loop body at a start index `s` without end token at or after it. -/
theorem commentLoop_open {self : DraculaCppSyntaxHighlighter} (hself : HasCommentTokens self)
    (text : QString) (fuel s : Nat) (st : BlockResult)
    (hend : firstToken '*' '/' text s = none) :
    commentLoop self text (fuel + 1) (s : Int) st =
      some ⟨st.formats ++ [⟨(s : Int), (text.length : Int) - (s : Int),
        self.multiLineCommentFormat⟩], 1⟩ := by
  have hidx : indexOf text self.commentStartExpression
      ((s : Int) + ((text.length : Int) - (s : Int))) = -1 := by
    have h1 : (s : Int) + ((text.length : Int) - (s : Int)) = ((text.length : Nat) : Int) := by
      omega
    rw [h1, indexOf_commentStart hself, firstToken_length]
  rw [commentLoop]
  simp only [matchFrom_commentEnd hself, hend, Option.map_none', capturedStart, capturedLength]
  simp only [if_true, ge_iff_le, Int.natCast_nonneg]
  rw [hidx, commentLoop_neg]
  rfl

/-- One run of the loop body at a start index `s` whose nearest end token is at `e`. -/
theorem commentLoop_closed {self : DraculaCppSyntaxHighlighter} (hself : HasCommentTokens self)
    (text : QString) (fuel s e : Nat) (st : BlockResult)
    (hend : firstToken '*' '/' text s = some e) :
    commentLoop self text (fuel + 1) (s : Int) st =
      commentLoop self text fuel
        (indexOf text self.commentStartExpression ((e + 2 : Nat) : Int))
        ⟨st.formats ++ [⟨(s : Int), ((e + 2 - s : Nat) : Int),
          self.multiLineCommentFormat⟩], st.currentBlockState⟩ := by
  have hse : s ≤ e := ((firstToken_eq_some_iff _ _ _ _ _).1 hend).1
  have hlen : (e : Int) - (s : Int) + (((e + 2 : Nat) : Int) - (e : Int)) =
      ((e + 2 - s : Nat) : Int) := by omega
  have hnext : (s : Int) + ((e + 2 - s : Nat) : Int) = ((e + 2 : Nat) : Int) := by omega
  have hne : ¬ ((e : Int) = -1) := by omega
  rw [commentLoop]
  simp only [matchFrom_commentEnd hself, hend, Option.map_some', capturedStart, capturedLength]
  simp only [if_true, ge_iff_le, Int.natCast_nonneg, hne, if_false, hlen, hnext]
  rfl

theorem indexOf_commentStart_zero {self : DraculaCppSyntaxHighlighter}
    (hself : HasCommentTokens self) (text : QString) :
    indexOf text self.commentStartExpression 0 =
      match firstToken '/' '*' text 0 with
      | some i => (i : Int)
      | none => -1 :=
  indexOf_commentStart hself text 0

/-- Enough fuel lets the reference scan finish. -/
theorem referenceScan_isSome (text : QString) :
    ∀ (fuel k : Nat), text.length < k + fuel → ∃ r, referenceScan text fuel k = some r := by
  intro fuel
  induction fuel with
  | zero =>
    intro k hk
    unfold referenceScan
    cases hs : firstToken '/' '*' text k with
    | none => exact ⟨_, rfl⟩
    | some s =>
      obtain ⟨hks, htok, _⟩ := (firstToken_eq_some_iff _ _ _ _ _).1 hs
      have := tokenAt_lt_length htok
      omega
  | succ fuel ih =>
    intro k hk
    unfold referenceScan
    cases hs : firstToken '/' '*' text k with
    | none => exact ⟨_, rfl⟩
    | some s =>
      obtain ⟨hks, _, _⟩ := (firstToken_eq_some_iff _ _ _ _ _).1 hs
      simp only []
      cases he : firstToken '*' '/' text s with
      | none => exact ⟨_, rfl⟩
      | some e =>
        obtain ⟨hse, _, _⟩ := (firstToken_eq_some_iff _ _ _ _ _).1 he
        obtain ⟨r, hr⟩ := ih (e + 2) (by omega)
        simp only [hr, Option.map_some']
        exact ⟨_, rfl⟩

/-- The comment loop entered through a search from offset `k` does what the reference scan
from `k` does. -/
theorem commentLoop_reference {self : DraculaCppSyntaxHighlighter}
    (hself : HasCommentTokens self) (text : QString) :
    ∀ (fuel k : Nat) (st : BlockResult) (spans : List (Nat × Nat)) (terminated : Bool),
      referenceScan text fuel k = some (spans, terminated) →
      commentLoop self text fuel (indexOf text self.commentStartExpression (k : Int)) st =
        some ⟨st.formats ++ spans.map (commentRange self),
          if terminated then st.currentBlockState else 1⟩ := by
  intro fuel
  induction fuel with
  | zero =>
    intro k st spans terminated h
    rw [indexOf_commentStart hself]
    unfold referenceScan at h
    cases hs : firstToken '/' '*' text k with
    | none =>
      rw [hs] at h
      simp only [Option.some.injEq, Prod.mk.injEq] at h
      obtain ⟨h1, h2⟩ := h
      subst h1; subst h2
      simp [commentLoop_neg]
    | some s =>
      rw [hs] at h
      simp at h
  | succ fuel ih =>
    intro k st spans terminated h
    rw [indexOf_commentStart hself]
    unfold referenceScan at h
    cases hs : firstToken '/' '*' text k with
    | none =>
      rw [hs] at h
      simp only [Option.some.injEq, Prod.mk.injEq] at h
      obtain ⟨h1, h2⟩ := h
      subst h1; subst h2
      simp [commentLoop_neg]
    | some s =>
      rw [hs] at h
      simp only at h
      obtain ⟨_, htok, _⟩ := (firstToken_eq_some_iff _ _ _ _ _).1 hs
      have hlen := tokenAt_lt_length htok
      cases he : firstToken '*' '/' text s with
      | none =>
        rw [he] at h
        simp only [Option.some.injEq, Prod.mk.injEq] at h
        obtain ⟨h1, h2⟩ := h
        subst h1; subst h2
        simp only [commentLoop_open hself text fuel s st he]
        have hc : (text.length : Int) - (s : Int) = ((text.length - s : Nat) : Int) := by omega
        simp [commentRange, hc]
      | some e =>
        rw [he] at h
        simp only [Option.map_eq_some'] at h
        obtain ⟨⟨spans0, term0⟩, hr, heq⟩ := h
        simp only [Prod.mk.injEq] at heq
        obtain ⟨h1, h2⟩ := heq
        subst h1; subst h2
        simp only [commentLoop_closed hself text fuel s e st he]
        rw [ih (e + 2) _ spans0 term0 hr]
        simp [commentRange]

/-- With a previous state other than `IN_BLOCK_COMMENT` the block comment spans are those of
the reference scan from offset `0`. -/
theorem highlightBlock_of_referenceScan (text : QString) (previousBlockState : Int)
    (hp : previousBlockState ≠ 1) (spans : List (Nat × Nat)) (terminated : Bool)
    (h : referenceScan text (text.length + 1) 0 = some (spans, terminated)) :
    highlightBlock text previousBlockState =
      some ⟨ruleFormats highlighter.highlightingRules text ++ spans.map (commentRange highlighter),
        if terminated then 0 else 1⟩ := by
  unfold highlightBlock
  rw [highlightBlock_unfold, if_pos hp]
  exact commentLoop_reference highlighter_hasCommentTokens text _ 0 _ spans terminated h

/-- With previous state `IN_BLOCK_COMMENT` and no end token on the line, the whole line is one
comment span and the state stays. -/
theorem highlightBlock_inside_open (text : QString)
    (hend : firstToken '*' '/' text 0 = none) :
    highlightBlock text 1 =
      some ⟨ruleFormats highlighter.highlightingRules text ++
        [commentRange highlighter (0, text.length)], 1⟩ := by
  unfold highlightBlock
  rw [highlightBlock_unfold, if_neg (by decide)]
  exact commentLoop_open highlighter_hasCommentTokens text text.length 0 _ hend

/-- With previous state `IN_BLOCK_COMMENT` and a first end token at `e`, the first comment span
runs from offset `0` through the end token, and the scan goes on from offset `e + 2`. -/
theorem highlightBlock_inside_closed (text : QString) (e : Nat)
    (hend : firstToken '*' '/' text 0 = some e) (spans : List (Nat × Nat)) (terminated : Bool)
    (h : referenceScan text text.length (e + 2) = some (spans, terminated)) :
    highlightBlock text 1 =
      some ⟨ruleFormats highlighter.highlightingRules text ++
        (commentRange highlighter (0, e + 2) :: spans.map (commentRange highlighter)),
        if terminated then 0 else 1⟩ := by
  unfold highlightBlock
  rw [highlightBlock_unfold, if_neg (by decide)]
  have hstep := commentLoop_closed highlighter_hasCommentTokens text text.length 0 e
    ⟨ruleFormats highlighter.highlightingRules text, 0⟩ hend
  have hloop := commentLoop_reference highlighter_hasCommentTokens text text.length (e + 2)
    ⟨ruleFormats highlighter.highlightingRules text ++ [commentRange highlighter (0, e + 2)], 0⟩
    spans terminated h
  simp only [List.append_assoc, List.singleton_append] at hloop
  rw [← hloop]
  exact hstep

/-- The method `highlightBlock` returns on every text and previous state, and the state it
sets is `0` or `1`. -/
theorem highlightBlock_total (text : QString) (previousBlockState : Int) :
    ∃ r, highlightBlock text previousBlockState = some r ∧
      (r.currentBlockState = 0 ∨ r.currentBlockState = 1) := by
  by_cases hp : previousBlockState = 1
  · subst hp
    cases hend : firstToken '*' '/' text 0 with
    | none => exact ⟨_, highlightBlock_inside_open text hend, Or.inr rfl⟩
    | some e =>
      obtain ⟨⟨spans, terminated⟩, hr⟩ := referenceScan_isSome text text.length (e + 2) (by omega)
      refine ⟨_, highlightBlock_inside_closed text e hend spans terminated hr, ?_⟩
      cases terminated <;> simp
  · obtain ⟨⟨spans, terminated⟩, hr⟩ := referenceScan_isSome text (text.length + 1) 0 (by omega)
    refine ⟨_, highlightBlock_of_referenceScan text previousBlockState hp spans terminated hr, ?_⟩
    cases terminated <;> simp

/-! ## Block comments: claims C1 to C4 -/

/-- Claim C1. For every line text `T` highlighted with a previous state other than
`IN_BLOCK_COMMENT`: if the first start token `/*` of `T` is at offset `s` and `T` has no end
token `*/` at or after `s`, then after the rule pass `highlightBlock` applies exactly one
comment span, starting at `s` with length `|T| - s`, and sets the block state to
`IN_BLOCK_COMMENT`. Nothing is assumed about where the start token sits. -/
theorem unterminated_comment_runs_to_line_end (T : QString) (previousBlockState : Int) (s : Nat)
    (hprev : previousBlockState ≠ IN_BLOCK_COMMENT)
    (hstart : tokenAt '/' '*' T s)
    (hfirst : ∀ j, j < s → ¬ tokenAt '/' '*' T j)
    (hnoend : ∀ j, s ≤ j → ¬ tokenAt '*' '/' T j) :
    highlightBlock T previousBlockState =
      some ⟨ruleFormats highlighter.highlightingRules T ++
        [commentRange highlighter (s, T.length - s)], IN_BLOCK_COMMENT⟩ := by
  have hs : firstToken '/' '*' T 0 = some s :=
    (firstToken_eq_some_iff _ _ _ _ _).2 ⟨Nat.zero_le s, hstart, fun j _ hj => hfirst j hj⟩
  have he : firstToken '*' '/' T s = none := (firstToken_eq_none_iff _ _ _ _).2 hnoend
  have href : referenceScan T (T.length + 1) 0 = some ([(s, T.length - s)], false) := by
    unfold referenceScan
    simp only [hs, he]
  exact highlightBlock_of_referenceScan T previousBlockState hprev _ _ href

/-- Witness of claim C1: the line `/* start` gives the comment span `(0, 8)` and state `1`, and
the line `//* note`, whose start token sits inside a `//` comment, gives the span `(1, 7)` and
state `1`. -/
theorem unterminated_comment_runs_to_line_end_witness :
    highlightBlock "/* start".toList NORMAL =
        some ⟨ruleFormats highlighter.highlightingRules "/* start".toList ++
          [commentRange highlighter (0, 8)], IN_BLOCK_COMMENT⟩ ∧
      highlightBlock "//* note".toList NORMAL =
        some ⟨ruleFormats highlighter.highlightingRules "//* note".toList ++
          [commentRange highlighter (1, 7)], IN_BLOCK_COMMENT⟩ :=
  ⟨unterminated_comment_runs_to_line_end "/* start".toList NORMAL 0 (by decide) (by decide)
      (fun j hj => absurd hj (Nat.not_lt_zero j))
      ((firstToken_eq_none_iff _ _ _ _).1 (by decide)),
    unterminated_comment_runs_to_line_end "//* note".toList NORMAL 1 (by decide) (by decide)
      (by decide)
      ((firstToken_eq_none_iff _ _ _ _).1 (by decide))⟩

/-- Claim C2. For every line text `T` highlighted with previous state `NORMAL`, the comment
spans applied by `highlightBlock` after the rule pass are exactly the spans of the reference
scan from offset `0`, in the same order, and the block state is `NORMAL` when every start token
that the scan finds has an end token (and `IN_BLOCK_COMMENT` otherwise). The reference scan
finishes within the fuel it is given. -/
theorem comment_spans_equal_reference_scan (T : QString) :
    ∃ spans terminated,
      referenceScan T (T.length + 1) 0 = some (spans, terminated) ∧
      highlightBlock T NORMAL =
        some ⟨ruleFormats highlighter.highlightingRules T ++ spans.map (commentRange highlighter),
          if terminated then NORMAL else IN_BLOCK_COMMENT⟩ := by
  obtain ⟨⟨spans, terminated⟩, hr⟩ := referenceScan_isSome T (T.length + 1) 0 (by omega)
  exact ⟨spans, terminated, hr,
    highlightBlock_of_referenceScan T NORMAL (by decide) spans terminated hr⟩

/-- The example of claim C2: on `/* a */ x /* b */` the reference scan gives the spans `(0, 7)`
and `(10, 7)` with every comment terminated, and `highlightBlock` applies them and sets state
`NORMAL`. -/
theorem comment_spans_example :
    referenceScan "/* a */ x /* b */".toList 18 0 = some ([(0, 7), (10, 7)], true) ∧
      highlightBlock "/* a */ x /* b */".toList NORMAL =
        some ⟨ruleFormats highlighter.highlightingRules "/* a */ x /* b */".toList ++
          [commentRange highlighter (0, 7), commentRange highlighter (10, 7)], NORMAL⟩ :=
  ⟨by decide,
    highlightBlock_of_referenceScan _ NORMAL (by decide) [(0, 7), (10, 7)] true (by decide)⟩

/-- Claim C3, as the code has it. Highlighting the line `end */` with previous state
`IN_BLOCK_COMMENT` applies, after the rule pass, one comment span that starts at offset `0` and
has length `6`: it covers the offsets `0` through `5` inclusive, which is the whole line through
the end token, and the state reverts to `NORMAL`. -/
theorem end_comment_line_span :
    highlightBlock "end */".toList IN_BLOCK_COMMENT =
        some ⟨ruleFormats highlighter.highlightingRules "end */".toList ++
          [commentRange highlighter (0, 6)], NORMAL⟩ ∧
      "end */".toList.length = 6 ∧
      ∀ i : Int, (commentRange highlighter (0, 6)).covers i ↔ (0 ≤ i ∧ i ≤ 5) := by
  refine ⟨highlightBlock_inside_closed "end */".toList 4 (by decide) [] true (by decide), rfl, ?_⟩
  intro i
  simp only [FormatRange.covers, commentRange]
  constructor
  · rintro ⟨h1, h2⟩
    constructor
    · simpa using h1
    · have : i < 0 + 6 := by simpa using h2
      omega
  · rintro ⟨h1, h2⟩
    constructor
    · simpa using h1
    · have : i < 0 + 6 := by omega
      simpa using this

/-- Counterexample to claim C3 as stated: on the line `end */`, which has the six offsets `0`
to `5`, no span applied by `highlightBlock` covers offset `6`, so no comment span covers the
offsets `0` through `6` inclusive. -/
theorem end_comment_line_counterexample :
    ∃ r, highlightBlock "end */".toList IN_BLOCK_COMMENT = some r ∧
      "end */".toList.length = 6 ∧ ∀ f ∈ r.formats, ¬ f.covers 6 :=
  ⟨⟨ruleFormats highlighter.highlightingRules "end */".toList ++
      [commentRange highlighter (0, 6)], NORMAL⟩,
    highlightBlock_inside_closed "end */".toList 4 (by decide) [] true (by decide), rfl,
    by decide!⟩

/-- Claim C4, as the code has it. For every line text `T` that contains no start token `/*` and
no end token `*/`, highlighting `T` with previous state `IN_BLOCK_COMMENT` makes the entire
line one comment span (offset `0`, length `|T|`) and leaves the state `IN_BLOCK_COMMENT`. -/
theorem comment_continues_without_tokens (T : QString)
    (_hnostart : ∀ j, ¬ tokenAt '/' '*' T j)
    (hnoend : ∀ j, ¬ tokenAt '*' '/' T j) :
    highlightBlock T IN_BLOCK_COMMENT =
      some ⟨ruleFormats highlighter.highlightingRules T ++
        [commentRange highlighter (0, T.length)], IN_BLOCK_COMMENT⟩ :=
  highlightBlock_inside_open T ((firstToken_eq_none_iff _ _ _ _).2 (fun j _ => hnoend j))

/-- Witness of claim C4 as amended: the line `still inside` has neither token, and is one
comment span `(0, 12)` with state `IN_BLOCK_COMMENT`. -/
theorem comment_continues_without_tokens_witness :
    highlightBlock "still inside".toList IN_BLOCK_COMMENT =
      some ⟨ruleFormats highlighter.highlightingRules "still inside".toList ++
        [commentRange highlighter (0, 12)], IN_BLOCK_COMMENT⟩ :=
  comment_continues_without_tokens "still inside".toList
    (fun j => (firstToken_eq_none_iff _ _ _ _).1 (by decide) j (Nat.zero_le j))
    (fun j => (firstToken_eq_none_iff _ _ _ _).1 (by decide) j (Nat.zero_le j))

/-- Counterexample to claim C4 as stated: the line `a */ b` contains no start token, yet with
previous state `IN_BLOCK_COMMENT` its comment span is `(0, 4)`, not the entire line `(0, 6)`,
and the state becomes `NORMAL`. -/
theorem comment_continues_counterexample :
    (∀ j, ¬ tokenAt '/' '*' "a */ b".toList j) ∧
      highlightBlock "a */ b".toList IN_BLOCK_COMMENT =
        some ⟨ruleFormats highlighter.highlightingRules "a */ b".toList ++
          [commentRange highlighter (0, 4)], NORMAL⟩ ∧
      highlightBlock "a */ b".toList IN_BLOCK_COMMENT ≠
        some ⟨ruleFormats highlighter.highlightingRules "a */ b".toList ++
          [commentRange highlighter (0, "a */ b".toList.length)], IN_BLOCK_COMMENT⟩ :=
  ⟨fun j => (firstToken_eq_none_iff _ _ _ _).1 (by decide) j (Nat.zero_le j),
    highlightBlock_inside_closed "a */ b".toList 2 (by decide) [] true (by decide),
    by decide!⟩

/-! ## Documents: claim C5 -/

/-- Each line of a highlighted document has the result of `highlightBlock` on its own text and
on the state carried into it. -/
theorem highlightDocument_getElem (d : List QString) :
    ∀ (p : Int) (r : List BlockResult), highlightDocument p d = some r →
      r.length = d.length ∧
      ∀ j text, d[j]? = some text →
        ∃ c, carriedState p r j = some c ∧ r[j]? = highlightBlock text c := by
  induction d with
  | nil =>
    intro p r h
    simp only [highlightDocument, Option.some.injEq] at h
    subst h
    exact ⟨rfl, fun j text hj => by simp at hj⟩
  | cons t ts ih =>
    intro p r h
    unfold highlightDocument at h
    cases hb : highlightBlock t p with
    | none => rw [hb] at h; simp at h
    | some x =>
      rw [hb] at h
      simp only [Option.map_eq_some'] at h
      obtain ⟨rs, hrs, rfl⟩ := h
      obtain ⟨hlen, hget⟩ := ih x.currentBlockState rs hrs
      refine ⟨by simp [hlen], ?_⟩
      intro j text hj
      cases j with
      | zero =>
        simp only [List.getElem?_cons_zero, Option.some.injEq] at hj
        subst hj
        exact ⟨p, rfl, by simp [hb]⟩
      | succ j =>
        simp only [List.getElem?_cons_succ] at hj
        obtain ⟨c, hc, hres⟩ := hget j text hj
        refine ⟨c, ?_, by simpa using hres⟩
        cases j with
        | zero =>
          simp only [carriedState, Option.some.injEq] at hc
          simp [carriedState, hc]
        | succ j =>
          simpa [carriedState] using hc

/-- Lines after an edited line get the same results when the edited line sets the same
state. -/
theorem highlightDocument_frame (p : Int) (d1 d2 : List QString) (i : Nat)
    (r1 r2 : List BlockResult) (hlen : d1.length = d2.length)
    (hsame : ∀ j, j ≠ i → d1[j]? = d2[j]?)
    (h1 : highlightDocument p d1 = some r1) (h2 : highlightDocument p d2 = some r2)
    (hstate : r1[i]?.map (·.currentBlockState) = r2[i]?.map (·.currentBlockState)) :
    ∀ j, i < j → r1[j]? = r2[j]? := by
  obtain ⟨hl1, hg1⟩ := highlightDocument_getElem d1 p r1 h1
  obtain ⟨hl2, hg2⟩ := highlightDocument_getElem d2 p r2 h2
  intro j
  induction j with
  | zero => intro h; omega
  | succ j ih =>
    intro hij
    have hcarried : carriedState p r1 (j + 1) = carriedState p r2 (j + 1) := by
      simp only [carriedState]
      rcases Nat.lt_or_ge i j with hlt | hge
      · rw [ih hlt]
      · have : i = j := by omega
        subst this
        exact hstate
    cases hd : d1[j + 1]? with
    | none =>
      have hj1 : d1.length ≤ j + 1 := List.getElem?_eq_none_iff.1 hd
      rw [List.getElem?_eq_none (by omega), List.getElem?_eq_none (by omega)]
    | some text =>
      have hd2 : d2[j + 1]? = some text := by rw [← hsame (j + 1) (by omega)]; exact hd
      obtain ⟨c1, hc1, hres1⟩ := hg1 (j + 1) text hd
      obtain ⟨c2, hc2, hres2⟩ := hg2 (j + 1) text hd2
      rw [hcarried, hc2] at hc1
      simp only [Option.some.injEq] at hc1
      subst hc1
      rw [hres1, hres2]

/-- Claim C5. Let two documents of the same length differ only in line `i`, each highlighted
in order from previous state `NORMAL`. If `highlightBlock` gives line `i` the same state in
both, then every line `j > i` has the same spans and the same state in both documents; and in
any case the result of a line is `highlightBlock` of its own text and of the one state value
carried into it. -/
theorem downstream_lines_depend_on_carried_state (d1 d2 : List QString) (i : Nat)
    (r1 r2 : List BlockResult) (hlen : d1.length = d2.length)
    (hsame : ∀ j, j ≠ i → d1[j]? = d2[j]?)
    (h1 : highlightDocument NORMAL d1 = some r1) (h2 : highlightDocument NORMAL d2 = some r2)
    (hstate : r1[i]?.map (·.currentBlockState) = r2[i]?.map (·.currentBlockState)) :
    (∀ j, i < j → r1[j]? = r2[j]?) ∧
      (∀ j text, d1[j]? = some text →
        ∃ c, carriedState NORMAL r1 j = some c ∧ r1[j]? = highlightBlock text c) :=
  ⟨highlightDocument_frame NORMAL d1 d2 i r1 r2 hlen hsame h1 h2 hstate,
    (highlightDocument_getElem d1 NORMAL r1 h1).2⟩

/-- Witness of claim C5: the two example documents differ in line `0` only, both first lines
leave a comment open, and the lines after line `0` have the same results. -/
theorem downstream_lines_depend_on_carried_state_witness :
    highlightDocument NORMAL exampleDocument = some exampleResults ∧
      highlightDocument NORMAL exampleDocumentEdited = some exampleResultsEdited ∧
      ((∀ j, 0 < j → exampleResults[j]? = exampleResultsEdited[j]?) ∧
        (∀ j text, exampleDocument[j]? = some text →
          ∃ c, carriedState NORMAL exampleResults j = some c ∧
            exampleResults[j]? = highlightBlock text c)) :=
  ⟨by decide!, by decide!,
    downstream_lines_depend_on_carried_state exampleDocument exampleDocumentEdited 0
      exampleResults exampleResultsEdited rfl
      (fun j hj => by
        cases j with
        | zero => exact absurd rfl hj
        | succ j => rfl)
      (by decide!) (by decide!) (by decide!)⟩

/-- Every document is highlighted to the end. -/
theorem highlightDocument_total (d : List QString) :
    ∀ p : Int, ∃ r, highlightDocument p d = some r := by
  induction d with
  | nil => intro p; exact ⟨[], rfl⟩
  | cons t ts ih =>
    intro p
    obtain ⟨x, hx, _⟩ := highlightBlock_total t p
    obtain ⟨rs, hrs⟩ := ih x.currentBlockState
    exact ⟨x :: rs, by simp [highlightDocument, hx, hrs]⟩

/-! ## The rule table: claims C6 to C8 -/

/-- Claim C6. The rule list built by the constructor is: the preprocessor directive rules,
then the keyword rules, then one rule each for operators, strings, numbers, function calls,
include targets, function definitions, class declarations, argument names, user-defined types,
namespace declarations, template parameter lists and single-line comments, in this order. And
`highlightBlock` first applies the rules in that list order, each to all its matches on the
whole line text, before the comment spans. -/
theorem rule_table_order :
    highlighter.highlightingRules =
        preprocessorPatterns.map (fun p => ⟨p, keywordFormat⟩) ++
          keywordPatterns.map (fun p => ⟨p, keywordFormat⟩) ++
          [operatorRule, stringRule, numberRule, functionRule, includeRule,
            functionDefinitionRule, classRule, argumentRule, typeRule, namespaceRule,
            templateParameterRule, singleLineCommentRule] ∧
      ∀ (T : QString) (previousBlockState : Int), ∃ (spans : List (Nat × Nat)) (state : Int),
        highlightBlock T previousBlockState =
          some ⟨(highlighter.highlightingRules.flatMap fun rule =>
              (globalMatch rule.pattern T).map fun m =>
                ⟨(m.1 : Int), (m.2 : Int) - (m.1 : Int), rule.format⟩) ++
            spans.map (commentRange highlighter), state⟩ := by
  refine ⟨by decide!, ?_⟩
  intro T p
  by_cases hp : p = 1
  · subst hp
    cases hend : firstToken '*' '/' T 0 with
    | none => exact ⟨[(0, T.length)], _, highlightBlock_inside_open T hend⟩
    | some e =>
      obtain ⟨⟨spans, terminated⟩, hr⟩ := referenceScan_isSome T T.length (e + 2) (by omega)
      exact ⟨(0, e + 2) :: spans, _, highlightBlock_inside_closed T e hend spans terminated hr⟩
  · obtain ⟨⟨spans, terminated⟩, hr⟩ := referenceScan_isSome T (T.length + 1) 0 (by omega)
    exact ⟨spans, _, highlightBlock_of_referenceScan T p hp spans terminated hr⟩

/-- Claim C7, as the code has it. Highlighting the line `  int x = 5;` with previous state
`NORMAL` applies, in this order, a keyword span over `int` (offsets 2 to 4), operator spans
over `=` (offset 8) and `;` (offset 11), a number span over `5` (offset 10) and a user-defined
type span over `int` (offsets 2 to 4), and sets state `NORMAL`. With the style of a character
being the format of the last span painted over it, `int` ends with the type style, `5` with the
number style, `=` and `;` with the operator style, and the other characters keep the default
format. -/
theorem int_declaration_line_spans :
    highlightBlock intDeclarationLine NORMAL = some ⟨intDeclarationFormats, NORMAL⟩ ∧
      formatChanges intDeclarationLine.length intDeclarationFormats =
        [{}, {}, typeFormat, typeFormat, typeFormat, {}, {}, {}, operatorFormat, {},
          numberFormat, operatorFormat] := by
  decide!

/-- Counterexample to claim C7 as stated: after `highlightBlock` on `  int x = 5;` the
characters of `int` (offsets 2 to 4) have the user-defined type style, which is not the keyword
style. -/
theorem int_declaration_line_counterexample :
    finalStyles intDeclarationLine NORMAL 5 = some [{}, {}, typeFormat, typeFormat, typeFormat] ∧
      typeFormat ≠ keywordFormat := by
  decide!

/-- Counterexample to claim C8 as stated: in the line `// while(x)` the keyword `while` is
immediately followed by `(`, yet its characters (offsets 3 to 7) end with the style of the
single-line comment rule, which is painted after the function rules. -/
theorem keyword_call_counterexample :
    "while" ∈ keywordWords ∧ isPlainWord "while" = true ∧
      "// while(x)".toList = "// ".toList ++ callLine "while" ∧
      (finalStyles "// while(x)".toList NORMAL 8).map (List.drop 3) =
        some (List.replicate 5 singleLineCommentFormat) ∧
      singleLineCommentFormat ≠ functionFormat := by
  decide!

/-! ## The line comment toggle: claims C9 and C10 -/

theorem skipSpacesAux_eq (l : QString) (k : Int) :
    skipSpacesAux l k = k + ((l.takeWhile isSpace).length : Int) := by
  induction l generalizing k with
  | nil => simp [skipSpacesAux]
  | cons c rest ih =>
    by_cases hc : isSpace c = true
    · simp only [skipSpacesAux, hc, if_true, List.takeWhile_cons_of_pos, List.length_cons, ih]
      push_cast
      omega
    · simp [skipSpacesAux, hc]

theorem take_length_takeWhile (p : Char → Bool) (l : QString) :
    l.take (l.takeWhile p).length = l.takeWhile p := by
  induction l with
  | nil => rfl
  | cons c rest ih =>
    by_cases hc : p c = true
    · simp [List.takeWhile_cons_of_pos hc, ih]
    · simp [List.takeWhile_cons_of_neg hc]

theorem drop_length_takeWhile (p : Char → Bool) (l : QString) :
    l.drop (l.takeWhile p).length = l.dropWhile p := by
  induction l with
  | nil => rfl
  | cons c rest ih =>
    by_cases hc : p c = true
    · simp [List.takeWhile_cons_of_pos hc, List.dropWhile_cons_of_pos hc, ih]
    · simp [List.takeWhile_cons_of_neg hc, List.dropWhile_cons_of_neg hc]

theorem length_takeWhile_le (p : Char → Bool) (l : QString) :
    (l.takeWhile p).length ≤ l.length := by
  induction l with
  | nil => simp
  | cons c rest ih =>
    by_cases hc : p c = true
    · simp [List.takeWhile_cons_of_pos hc]; omega
    · simp [List.takeWhile_cons_of_neg hc]

theorem selectLine (c : QTextCursor) :
    (c.movePosition .StartOfBlock .MoveAnchor 1).movePosition .EndOfBlock .KeepAnchor 1 =
      ⟨c.text, 0, c.text.length⟩ := rfl

theorem selectedText_line (t : QString) :
    (⟨t, 0, t.length⟩ : QTextCursor).selectedText = t := by
  simp [QTextCursor.selectedText, QTextCursor.selectionStart, QTextCursor.selectionEnd]

theorem setPosition_nat (c : QTextCursor) (n : Nat) (h : n ≤ c.text.length) :
    c.setPosition (n : Int) = ⟨c.text, n, n⟩ := by
  have h2 : (n : Int) ≤ (c.text.length : Int) := by exact_mod_cast h
  simp [QTextCursor.setPosition, h2]

theorem insertText_collapsed (t : QString) (n : Nat) (s : QString) :
    (⟨t, n, n⟩ : QTextCursor).insertText s =
      ⟨t.take n ++ s ++ t.drop n, n + s.length, n + s.length⟩ := by
  simp [QTextCursor.insertText, QTextCursor.removeSelectedText, QTextCursor.selectionStart,
    QTextCursor.selectionEnd]

theorem removeSelectedText_range (t : QString) (a p : Nat) (h : a ≤ p) :
    (⟨t, a, p⟩ : QTextCursor).removeSelectedText = ⟨t.take a ++ t.drop p, a, a⟩ := by
  simp [QTextCursor.removeSelectedText, QTextCursor.selectionStart, QTextCursor.selectionEnd,
    Nat.min_eq_left h, Nat.max_eq_right h]

theorem selectedText_collapsed (t : QString) (n : Nat) :
    (⟨t, n, n⟩ : QTextCursor).selectedText = [] := by
  simp [QTextCursor.selectedText, QTextCursor.selectionStart, QTextCursor.selectionEnd]

/-- The toggle on a line that is not a comment: the marker and one space are inserted after
the leading whitespace, and the cursor stands after them. -/
theorem toggleLineComment_comment (c : QTextCursor)
    (h : startsWith (trimmed c.text) ['/', '/'] = false) :
    toggleLineComment c =
      ⟨leadingWhitespace c.text ++ ['/', '/', ' '] ++ afterWhitespace c.text,
        (leadingWhitespace c.text).length + 3, (leadingWhitespace c.text).length + 3⟩ := by
  unfold toggleLineComment
  simp only [selectLine, selectedText_line, h]
  have hskip : (0 : Int) + skipSpaces c.text 0 = (((c.text.takeWhile isSpace).length : Nat) : Int) := by
    simp [skipSpaces, skipSpacesAux_eq]
  simp only [Bool.false_eq_true, if_false, hskip]
  rw [setPosition_nat _ _ (length_takeWhile_le _ _), insertText_collapsed,
    take_length_takeWhile, drop_length_takeWhile]
  rfl

theorem isSpace_slash : isSpace '/' = false := by decide

theorem dropWhile_append_stop (p : Char → Bool) (xs ys : QString) (y : Char)
    (hy : p y = false) : ∃ zs, (xs ++ y :: ys).dropWhile p = zs ++ y :: ys := by
  induction xs with
  | nil => exact ⟨[], by simp [List.dropWhile_cons, hy]⟩
  | cons x xs ih =>
    by_cases hx : p x = true
    · obtain ⟨zs, hzs⟩ := ih
      exact ⟨zs, by simp [List.dropWhile_cons, hx, hzs]⟩
    · exact ⟨x :: xs, by simp [List.dropWhile_cons, hx]⟩

/-- Trimming does not change whether a line starts with the comment marker. -/
theorem startsWith_trimmed (l : QString) :
    startsWith (trimmed l) ['/', '/'] = startsWith (afterWhitespace l) ['/', '/'] := by
  have hpre : trimmed l <+: afterWhitespace l := by
    unfold trimmed afterWhitespace
    have hsuf := List.dropWhile_suffix isSpace (l := (l.dropWhile isSpace).reverse)
    have := List.reverse_prefix.2 hsuf
    simpa using this
  cases hr : startsWith (afterWhitespace l) ['/', '/'] with
  | false =>
    cases ht : startsWith (trimmed l) ['/', '/'] with
    | false => rfl
    | true =>
      have h1 : ['/', '/'] <+: trimmed l := List.isPrefixOf_iff_prefix.1 ht
      have h2 : ['/', '/'] <+: afterWhitespace l := h1.trans hpre
      have h3 := List.isPrefixOf_iff_prefix.2 h2
      unfold startsWith at hr
      rw [h3] at hr
      cases hr
  | true =>
    obtain ⟨t, ht⟩ := List.isPrefixOf_iff_prefix.1 hr
    have hrev : (l.dropWhile isSpace).reverse = t.reverse ++ '/' :: ['/'] := by
      unfold afterWhitespace at ht
      rw [← ht]
      simp
    obtain ⟨zs, hzs⟩ := dropWhile_append_stop isSpace t.reverse ['/'] '/' isSpace_slash
    unfold trimmed startsWith
    rw [hrev, hzs]
    simp

theorem indexOfStringAux_comment (l : QString) (i : Nat)
    (h : startsWith (l.dropWhile isSpace) ['/', '/'] = true) :
    indexOfStringAux ['/', '/'] l i = ((i + (l.takeWhile isSpace).length : Nat) : Int) := by
  induction l generalizing i with
  | nil => simp [startsWith] at h
  | cons c rest ih =>
    by_cases hc : isSpace c = true
    · have hne : c ≠ '/' := by
        intro hEq
        rw [hEq, isSpace_slash] at hc
        cases hc
      have hpre : List.isPrefixOf ['/', '/'] (c :: rest) = false := by
        simp [List.isPrefixOf, Ne.symm hne]
      rw [List.dropWhile_cons_of_pos hc] at h
      rw [indexOfStringAux, hpre, List.takeWhile_cons_of_pos hc, List.length_cons]
      simp only [Bool.false_eq_true, if_false]
      rw [ih (i + 1) h]
      congr 1
      omega
    · rw [List.dropWhile_cons_of_neg hc] at h
      unfold startsWith at h
      rw [indexOfStringAux, h, List.takeWhile_cons_of_neg hc]
      simp

/-- The toggle on a comment line: the marker and the whole run of whitespace after it are
removed, and the cursor stands where the marker was. -/
theorem toggleLineComment_uncomment (c : QTextCursor)
    (h : startsWith (trimmed c.text) ['/', '/'] = true) :
    toggleLineComment c =
      ⟨leadingWhitespace c.text ++ ((afterWhitespace c.text).drop 2).dropWhile isSpace,
        (leadingWhitespace c.text).length, (leadingWhitespace c.text).length⟩ := by
  have haft : startsWith (afterWhitespace c.text) ['/', '/'] = true := by
    rw [← startsWith_trimmed]; exact h
  obtain ⟨t, ht⟩ := List.isPrefixOf_iff_prefix.1 haft
  have hsplit : c.text = leadingWhitespace c.text ++ ('/' :: '/' :: t) := by
    have := (List.takeWhile_append_dropWhile isSpace c.text).symm
    unfold leadingWhitespace
    unfold afterWhitespace at ht
    rw [← ht] at this
    simpa using this
  have hlenL : c.text.length = (leadingWhitespace c.text).length + (t.length + 2) := by
    have := congrArg List.length hsplit
    simpa using this
  have hdropn : c.text.drop (leadingWhitespace c.text).length = '/' :: '/' :: t := by
    unfold leadingWhitespace
    rw [drop_length_takeWhile]
    exact ht.symm
  have hdrop2 : c.text.drop ((leadingWhitespace c.text).length + 2) = t := by
    rw [← List.drop_drop, hdropn]
    rfl
  have hidx : indexOfString c.text ['/', '/'] = (((leadingWhitespace c.text).length : Nat) : Int) := by
    unfold indexOfString
    rw [indexOfStringAux_comment c.text 0 haft]
    simp [leadingWhitespace]
  have hk : (t.takeWhile isSpace).length ≤ t.length := length_takeWhile_le _ _
  unfold toggleLineComment
  simp only [selectLine, selectedText_line, h, if_true, hidx]
  have h0 : (0 : Int) + (((leadingWhitespace c.text).length : Nat) : Int) =
      (((leadingWhitespace c.text).length : Nat) : Int) := by omega
  have hskip : skipSpaces c.text ((((leadingWhitespace c.text).length : Nat) : Int) + 2) -
      (((leadingWhitespace c.text).length : Nat) : Int) =
      ((2 + (t.takeWhile isSpace).length : Nat) : Int) := by
    have htn : ((((leadingWhitespace c.text).length : Nat) : Int) + 2).toNat =
        (leadingWhitespace c.text).length + 2 := by omega
    rw [skipSpaces, htn, hdrop2, skipSpacesAux_eq]
    push_cast
    omega
  rw [h0, hskip, setPosition_nat _ _ (by simp only []; omega)]
  simp only [QTextCursor.movePosition, Int.toNat_ofNat]
  rw [Nat.min_eq_left (by omega), removeSelectedText_range _ _ _ (by omega),
    selectedText_collapsed]
  simp only [List.cons_ne_self, List.nil_eq, reduceCtorEq, if_false]
  have htake : c.text.take (leadingWhitespace c.text).length = leadingWhitespace c.text := by
    unfold leadingWhitespace
    exact take_length_takeWhile _ _
  have hdrop : c.text.drop ((leadingWhitespace c.text).length + (2 + (t.takeWhile isSpace).length)) =
      ((afterWhitespace c.text).drop 2).dropWhile isSpace := by
    rw [← ht]
    have : (leadingWhitespace c.text).length + (2 + (t.takeWhile isSpace).length) =
        (leadingWhitespace c.text).length + 2 + (t.takeWhile isSpace).length := by omega
    rw [this, ← List.drop_drop, hdrop2, drop_length_takeWhile]
    rfl
  rw [htake, hdrop]

theorem takeWhile_of_noLeadingSpace {r : QString} (h : NoLeadingSpace r) :
    r.takeWhile isSpace = [] := by
  cases r with
  | nil => rfl
  | cons x xs =>
    have hx : isSpace x = false := by
      cases hs : isSpace x with
      | false => rfl
      | true => exact absurd (by simp [hs]) h
    simp [List.takeWhile_cons, hx]

theorem dropWhile_of_noLeadingSpace {r : QString} (h : NoLeadingSpace r) :
    r.dropWhile isSpace = r := by
  have := List.takeWhile_append_dropWhile isSpace r
  rw [takeWhile_of_noLeadingSpace h] at this
  simpa using this

theorem noLeadingSpace_dropWhile (l : QString) : NoLeadingSpace (l.dropWhile isSpace) := by
  induction l with
  | nil => simp [NoLeadingSpace]
  | cons x xs ih =>
    by_cases hx : isSpace x = true
    · rw [List.dropWhile_cons_of_pos hx]; exact ih
    · rw [List.dropWhile_cons_of_neg hx]
      simpa [NoLeadingSpace] using hx

theorem takeWhile_append_stop (w r : QString) (hw : ∀ x ∈ w, isSpace x = true)
    (hr : NoLeadingSpace r) : (w ++ r).takeWhile isSpace = w := by
  induction w with
  | nil => exact takeWhile_of_noLeadingSpace hr
  | cons x xs ih =>
    have hx : isSpace x = true := hw x (List.mem_cons_self _ _)
    rw [List.cons_append, List.takeWhile_cons_of_pos hx,
      ih (fun y hy => hw y (List.mem_cons_of_mem _ hy))]

theorem dropWhile_append_all (w r : QString) (hw : ∀ x ∈ w, isSpace x = true)
    (hr : NoLeadingSpace r) : (w ++ r).dropWhile isSpace = r := by
  induction w with
  | nil => exact dropWhile_of_noLeadingSpace hr
  | cons x xs ih =>
    have hx : isSpace x = true := hw x (List.mem_cons_self _ _)
    rw [List.cons_append, List.dropWhile_cons_of_pos hx,
      ih (fun y hy => hw y (List.mem_cons_of_mem _ hy))]

theorem leadingWhitespace_all (l : QString) : ∀ x ∈ leadingWhitespace l, isSpace x = true :=
  fun _ hx => List.mem_takeWhile_imp hx

theorem leading_append_after (l : QString) : leadingWhitespace l ++ afterWhitespace l = l :=
  List.takeWhile_append_dropWhile isSpace l

theorem noLeadingSpace_marker (t : QString) : NoLeadingSpace ('/' :: t) := by
  simp [NoLeadingSpace, isSpace_slash]

/-- Text of the line after two toggles, when the line is not a comment: the line itself. -/
theorem toggle_twice_of_not_comment (c : QTextCursor)
    (h : startsWith (trimmed c.text) ['/', '/'] = false) :
    (toggleLineComment (toggleLineComment c)).text = c.text := by
  have hw := leadingWhitespace_all c.text
  have hlead : leadingWhitespace (leadingWhitespace c.text ++ ['/', '/', ' '] ++
      afterWhitespace c.text) = leadingWhitespace c.text := by
    rw [List.append_assoc]
    exact takeWhile_append_stop _ _ hw (noLeadingSpace_marker _)
  have hafter : afterWhitespace (leadingWhitespace c.text ++ ['/', '/', ' '] ++
      afterWhitespace c.text) = ['/', '/', ' '] ++ afterWhitespace c.text := by
    rw [List.append_assoc]
    exact dropWhile_append_all _ _ hw (noLeadingSpace_marker _)
  have hstarts : startsWith (trimmed (toggleLineComment c).text) ['/', '/'] = true := by
    rw [toggleLineComment_comment c h, startsWith_trimmed]
    simp only [hafter]
    rfl
  rw [toggleLineComment_uncomment _ hstarts, toggleLineComment_comment c h]
  simp only [hlead, hafter]
  have hdw : List.dropWhile isSpace (List.drop 2 (['/', '/', ' '] ++ afterWhitespace c.text)) =
      afterWhitespace c.text := by
    have h1 : List.drop 2 (['/', '/', ' '] ++ afterWhitespace c.text) =
        ' ' :: afterWhitespace c.text := rfl
    rw [h1, List.dropWhile_cons_of_pos (by decide)]
    exact dropWhile_of_noLeadingSpace (noLeadingSpace_dropWhile c.text)
  rw [hdw]
  exact leading_append_after c.text

/-- Text of the line after two toggles, when the line is a comment: the marker followed by
one space is put back before what followed the marker and its whitespace, unless that rest is
itself a comment, which is uncommented in turn. -/
theorem toggle_twice_of_comment (c : QTextCursor)
    (h : startsWith (trimmed c.text) ['/', '/'] = true) :
    (toggleLineComment (toggleLineComment c)).text =
      if startsWith (((afterWhitespace c.text).drop 2).dropWhile isSpace) ['/', '/'] = true then
        leadingWhitespace c.text ++
          ((((afterWhitespace c.text).drop 2).dropWhile isSpace).drop 2).dropWhile isSpace
      else
        leadingWhitespace c.text ++ ['/', '/', ' '] ++
          ((afterWhitespace c.text).drop 2).dropWhile isSpace := by
  have hw := leadingWhitespace_all c.text
  have hr := noLeadingSpace_dropWhile ((afterWhitespace c.text).drop 2)
  have hlead : leadingWhitespace (leadingWhitespace c.text ++
      ((afterWhitespace c.text).drop 2).dropWhile isSpace) = leadingWhitespace c.text :=
    takeWhile_append_stop _ _ hw hr
  have hafter : afterWhitespace (leadingWhitespace c.text ++
      ((afterWhitespace c.text).drop 2).dropWhile isSpace) =
      ((afterWhitespace c.text).drop 2).dropWhile isSpace :=
    dropWhile_append_all _ _ hw hr
  have h1 : (toggleLineComment c).text = leadingWhitespace c.text ++
      ((afterWhitespace c.text).drop 2).dropWhile isSpace := by
    rw [toggleLineComment_uncomment c h]
  cases h2 : startsWith (((afterWhitespace c.text).drop 2).dropWhile isSpace) ['/', '/'] with
  | true =>
    have hst : startsWith (trimmed (toggleLineComment c).text) ['/', '/'] = true := by
      rw [startsWith_trimmed, h1, hafter]; exact h2
    rw [toggleLineComment_uncomment _ hst]
    simp only [h1, hlead, hafter, if_true]
  | false =>
    have hst : startsWith (trimmed (toggleLineComment c).text) ['/', '/'] = false := by
      rw [startsWith_trimmed, h1, hafter]; exact h2
    rw [toggleLineComment_comment _ hst]
    simp only [h1, hlead, hafter, Bool.false_eq_true, if_false]


/-- Claim C9, as the code has it. For every line `L`, toggling the line comment twice returns
the line to exactly its original text if and only if either the whitespace-trimmed text of `L`
does not start with `//`, or `L` is a comment whose marker is followed by exactly one space
character and then by text that starts neither with whitespace nor with another `//`. -/
theorem double_toggle_restores_iff (c : QTextCursor) :
    (toggleLineComment (toggleLineComment c)).text = c.text ↔
      (startsWith (trimmed c.text) ['/', '/'] = false ∨
        ∃ r, afterWhitespace c.text = '/' :: '/' :: ' ' :: r ∧ NoLeadingSpace r ∧
          startsWith r ['/', '/'] = false) := by
  constructor
  · intro heq
    cases h : startsWith (trimmed c.text) ['/', '/'] with
    | false => exact Or.inl rfl
    | true =>
      right
      have haft : startsWith (afterWhitespace c.text) ['/', '/'] = true := by
        rw [← startsWith_trimmed]; exact h
      obtain ⟨t, ht⟩ := List.isPrefixOf_iff_prefix.1 haft
      rw [toggle_twice_of_comment c h] at heq
      have hsplit := leading_append_after c.text
      cases h2 : startsWith (((afterWhitespace c.text).drop 2).dropWhile isSpace) ['/', '/'] with
      | true =>
        rw [h2] at heq
        simp only [if_true] at heq
        have hlen := congrArg List.length heq
        have hlen2 := congrArg List.length hsplit
        have hrest : (afterWhitespace c.text).length = t.length + 2 := by
          rw [← ht]; simp
        have hd1 : (((((afterWhitespace c.text).drop 2).dropWhile isSpace).drop 2).dropWhile
            isSpace).length ≤ (afterWhitespace c.text).length - 2 := by
          have s1 := (List.dropWhile_suffix isSpace
            (l := (((afterWhitespace c.text).drop 2).dropWhile isSpace).drop 2)).length_le
          have s2 := (List.dropWhile_suffix isSpace
            (l := (afterWhitespace c.text).drop 2)).length_le
          simp only [List.length_drop] at s1 s2
          omega
        simp only [List.length_append] at hlen hlen2
        omega
      | false =>
        rw [h2] at heq
        simp only [Bool.false_eq_true, if_false] at heq
        refine ⟨((afterWhitespace c.text).drop 2).dropWhile isSpace, ?_,
          noLeadingSpace_dropWhile _, h2⟩
        have h3 : leadingWhitespace c.text ++ (['/', '/', ' '] ++
            ((afterWhitespace c.text).drop 2).dropWhile isSpace) =
            leadingWhitespace c.text ++ afterWhitespace c.text := by
          rw [← List.append_assoc, heq, hsplit]
        exact (List.append_cancel_left h3).symm
  · rintro (h | ⟨r, hr, hns, hnc⟩)
    · exact toggle_twice_of_not_comment c h
    · have h : startsWith (trimmed c.text) ['/', '/'] = true := by
        rw [startsWith_trimmed, hr]; rfl
      have hr1 : ((afterWhitespace c.text).drop 2).dropWhile isSpace = r := by
        rw [hr]
        have h1 : List.drop 2 ('/' :: '/' :: ' ' :: r) = ' ' :: r := rfl
        rw [h1, List.dropWhile_cons_of_pos (by decide)]
        exact dropWhile_of_noLeadingSpace hns
      rw [toggle_twice_of_comment c h, hr1, hnc]
      simp only [Bool.false_eq_true, if_false]
      have := leading_append_after c.text
      rw [hr] at this
      simpa using this

/-- Counterexample to claim C9 as stated: the line `//x` becomes `x` at the first toggle and
`// x` at the second, which is not the original text. -/
theorem double_toggle_counterexample :
    toggledLine "//x".toList = "x".toList ∧
      toggledLine (toggledLine "//x".toList) = "// x".toList ∧
      toggledLine (toggledLine "//x".toList) ≠ "//x".toList := by
  decide

/-- Claim C10. For every line `L` whose whitespace-trimmed text does not start with `//`, the
toggle yields `w ++ "// " ++ r`, where `w` is the maximal leading whitespace run of `L` and `r`
is the rest of `L`. -/
theorem comment_inserted_after_leading_whitespace (c : QTextCursor)
    (h : startsWith (trimmed c.text) ['/', '/'] = false) :
    (toggleLineComment c).text =
      leadingWhitespace c.text ++ "// ".toList ++ afterWhitespace c.text := by
  rw [toggleLineComment_comment c h]
  rfl

/-- Witness of claim C10: `x = 1; // note` becomes `// x = 1; // note`. -/
theorem comment_inserted_after_leading_whitespace_witness :
    startsWith (trimmed "x = 1; // note".toList) ['/', '/'] = false ∧
      (toggleLineComment ⟨"x = 1; // note".toList, 3, 3⟩).text = "// x = 1; // note".toList :=
  ⟨by decide, comment_inserted_after_leading_whitespace ⟨"x = 1; // note".toList, 3, 3⟩
    (by decide)⟩

/-- Claim C11, as the code has it. For every line `L` whose whitespace-trimmed text starts with
`//`, the toggle removes the first `//` and the whole run of whitespace characters that
follows it, up to the first character that is not whitespace, and removes nothing else: the
result is the leading whitespace of `L` followed by what stands after that run. -/
theorem uncomment_removes_marker_and_whitespace_run (c : QTextCursor)
    (h : startsWith (trimmed c.text) ['/', '/'] = true) :
    (toggleLineComment c).text =
        leadingWhitespace c.text ++ ((afterWhitespace c.text).drop 2).dropWhile isSpace ∧
      c.text = leadingWhitespace c.text ++ "//".toList ++
        ((afterWhitespace c.text).drop 2).takeWhile isSpace ++
        ((afterWhitespace c.text).drop 2).dropWhile isSpace := by
  refine ⟨by rw [toggleLineComment_uncomment c h], ?_⟩
  have haft : startsWith (afterWhitespace c.text) ['/', '/'] = true := by
    rw [← startsWith_trimmed]; exact h
  obtain ⟨t, ht⟩ := List.isPrefixOf_iff_prefix.1 haft
  have hsplit := (leading_append_after c.text).symm
  rw [← ht] at hsplit ⊢
  have h1 : List.drop 2 (['/', '/'] ++ t) = t := rfl
  rw [h1, List.append_assoc, List.append_assoc, List.takeWhile_append_dropWhile]
  simpa using hsplit

/-- Witness of claim C11 as amended: `  //   x` becomes `  x`. -/
theorem uncomment_removes_marker_and_whitespace_run_witness :
    (toggleLineComment ⟨"  //   x".toList, 0, 0⟩).text = "  x".toList ∧
      "  //   x".toList = "  ".toList ++ "//".toList ++ "   ".toList ++ "x".toList :=
  uncomment_removes_marker_and_whitespace_run ⟨"  //   x".toList, 0, 0⟩ (by decide)

/-- Counterexample to claim C11 as stated: on the line `//  x`, with two spaces after the
marker, removing the marker and exactly one space would leave ` x`, but the toggle leaves
`x`. -/
theorem uncomment_counterexample :
    startsWith (trimmed "//  x".toList) ['/', '/'] = true ∧
      removeMarkerAndOneSpace "//  x".toList = " x".toList ∧
      toggledLine "//  x".toList = "x".toList ∧
      toggledLine "//  x".toList ≠ removeMarkerAndOneSpace "//  x".toList := by
  decide

/-- Claim C12. For every line `L` whose whitespace-trimmed text does not start with `//`,
toggling the line comment, which comments the line, and toggling again, which uncomments it,
restores exactly `L`. -/
theorem comment_then_uncomment_restores (c : QTextCursor)
    (h : startsWith (trimmed c.text) ['/', '/'] = false) :
    startsWith (trimmed (toggleLineComment c).text) ['/', '/'] = true ∧
      (toggleLineComment (toggleLineComment c)).text = c.text := by
  refine ⟨?_, toggle_twice_of_not_comment c h⟩
  rw [toggleLineComment_comment c h, startsWith_trimmed]
  have hafter : afterWhitespace (leadingWhitespace c.text ++ ['/', '/', ' '] ++
      afterWhitespace c.text) = ['/', '/', ' '] ++ afterWhitespace c.text := by
    rw [List.append_assoc]
    exact dropWhile_append_all _ _ (leadingWhitespace_all c.text) (noLeadingSpace_marker _)
  simp only [hafter]
  rfl

/-- Witness of claim C12: `x = 1; // note` becomes `// x = 1; // note` and then
`x = 1; // note` again. -/
theorem comment_then_uncomment_restores_witness :
    toggledLine "x = 1; // note".toList = "// x = 1; // note".toList ∧
      (startsWith (trimmed (toggleLineComment ⟨"x = 1; // note".toList, 0, 0⟩).text)
          ['/', '/'] = true ∧
        (toggleLineComment (toggleLineComment ⟨"x = 1; // note".toList, 0, 0⟩)).text =
          "x = 1; // note".toList) :=
  ⟨by decide, comment_then_uncomment_restores ⟨"x = 1; // note".toList, 0, 0⟩ (by decide)⟩

/-! ## Matches of the function definition rule -/

theorem ends_set (cs : CharSet) (text : QString) (pos : Nat) :
    (Regex.set cs).ends text pos = if setAt cs text pos = true then [pos + 1] else [] := by
  unfold setAt
  simp only [Regex.ends]
  cases text[pos]? with
  | none => simp
  | some c => cases cs.contains c <;> simp

theorem wordAt_eq_setAt (text : QString) (i : Nat) : wordAt text i = setAt wordSet text i := rfl

/-- The greedy repetition of a character set tries the end of the run first. -/
theorem starEnds_head (cs : CharSet) (text : QString) :
    ∀ (fuel pos e : Nat), pos ≤ e →
      (∀ j, pos ≤ j → j < e → setAt cs text j = true) → setAt cs text e = false →
      e - pos ≤ fuel →
      ∃ tl, starEnds ((Regex.set cs).ends text) fuel pos = e :: tl := by
  intro fuel
  induction fuel with
  | zero =>
    intro pos e hle _ _ hfuel
    have : pos = e := by omega
    subst this
    exact ⟨[], rfl⟩
  | succ fuel ih =>
    intro pos e hle hrun hstop hfuel
    rcases Nat.eq_or_lt_of_le hle with heq | hlt
    · subst heq
      refine ⟨[], ?_⟩
      simp [starEnds, ends_set, hstop]
    · obtain ⟨tl, htl⟩ := ih (pos + 1) e hlt (fun j h1 h2 => hrun j (by omega) h2) hstop
        (by omega)
      refine ⟨tl ++ [pos], ?_⟩
      simp [starEnds, ends_set, hrun pos (Nat.le_refl _) hlt, htl]

/-- Every end offered by the repetition of a character set lies after a run of the set. -/
theorem starEnds_mem (cs : CharSet) (text : QString) :
    ∀ (fuel pos x : Nat), x ∈ starEnds ((Regex.set cs).ends text) fuel pos →
      pos ≤ x ∧ ∀ j, pos ≤ j → j < x → setAt cs text j = true := by
  intro fuel
  induction fuel with
  | zero =>
    intro pos x hx
    simp only [starEnds, List.mem_singleton] at hx
    subst hx
    exact ⟨Nat.le_refl _, fun j h1 h2 => by omega⟩
  | succ fuel ih =>
    intro pos x hx
    simp only [starEnds, List.mem_append, List.mem_flatMap, List.mem_filter,
      List.mem_singleton, decide_eq_true_eq] at hx
    rcases hx with ⟨e, ⟨he, _⟩, hxe⟩ | hx
    · rw [ends_set] at he
      by_cases hs : setAt cs text pos = true
      · simp only [hs, if_true, List.mem_singleton] at he
        subst he
        obtain ⟨h1, h2⟩ := ih (pos + 1) x hxe
        refine ⟨by omega, fun j hj1 hj2 => ?_⟩
        rcases Nat.eq_or_lt_of_le hj1 with heq | hlt
        · rw [← heq]; exact hs
        · exact h2 j hlt hj2
      · simp [hs] at he
    · subst hx
      exact ⟨Nat.le_refl _, fun j h1 h2 => by omega⟩

theorem ends_seq_head (a b : Regex) (text : QString) (pos e x : Nat) (tl tl2 : List Nat)
    (ha : a.ends text pos = e :: tl) (hb : b.ends text e = x :: tl2) :
    (Regex.seq a b).matchAt text pos = some x := by
  simp [Regex.matchAt, Regex.ends, ha, hb]

theorem ends_seq_cons (a b : Regex) (text : QString) (pos e x : Nat) (tl tl2 : List Nat)
    (ha : a.ends text pos = e :: tl) (hb : b.ends text e = x :: tl2) :
    ∃ tl3, (Regex.seq a b).ends text pos = x :: tl3 := by
  exact ⟨tl2 ++ tl.flatMap (b.ends text), by simp [Regex.ends, ha, hb]⟩

theorem mem_ends_seq (a b : Regex) (text : QString) (pos x : Nat) :
    x ∈ (Regex.seq a b).ends text pos ↔ ∃ e ∈ a.ends text pos, x ∈ b.ends text e := by
  simp [Regex.ends, List.mem_flatMap]

theorem functionDefinitionPattern_eq :
    functionDefinitionPattern =
      .seq .wordBoundary (.seq (.seq (.set wordSet) (.star (.set wordSet)))
        (.seq (.star (.set spaceSet)) (.lookahead (.chr '(')))) := rfl

theorem setAt_space_paren (text : QString) (e : Nat) (h : text[e]? = some '(') :
    setAt spaceSet text e = false := by
  unfold setAt
  rw [h]
  decide

theorem setAt_word_paren (text : QString) (e : Nat) (h : text[e]? = some '(') :
    setAt wordSet text e = false := by
  unfold setAt
  rw [h]
  decide

/-- A run of word characters that starts at a word boundary and ends before `(` is matched
as a whole by the function definition pattern. -/
theorem functionDefinition_matchAt (text : QString) (a e : Nat) (hae : a < e)
    (hb : atWordBoundary text a = true)
    (hrun : ∀ j, a ≤ j → j < e → wordAt text j = true)
    (hparen : text[e]? = some '(') :
    functionDefinitionPattern.matchAt text a = some e := by
  have hlen : e < text.length := by
    rcases Nat.lt_or_ge e text.length with h | h
    · exact h
    · rw [List.getElem?_eq_none h] at hparen; cases hparen
  obtain ⟨tl1, h1⟩ := starEnds_head wordSet text text.length (a + 1) e hae
    (fun j h1 h2 => hrun j (by omega) h2) (setAt_word_paren text e hparen) (by omega)
  have hplus : ∃ tl, (Regex.seq (.set wordSet) (.star (.set wordSet))).ends text a = e :: tl := by
    refine ⟨tl1 ++ [], ?_⟩
    have ha : setAt wordSet text a = true := hrun a (Nat.le_refl _) hae
    have hstar : (Regex.star (.set wordSet)).ends text (a + 1) = e :: tl1 := by
      simp only [Regex.ends]; exact h1
    have hset : (Regex.set wordSet).ends text a = [a + 1] := by
      rw [ends_set, ha]; rfl
    rw [Regex.ends, hset]
    simp [hstar]
  obtain ⟨tlp, hp⟩ := hplus
  obtain ⟨tl2, h2⟩ := starEnds_head spaceSet text text.length e e (Nat.le_refl _)
    (fun j h1 h2 => by omega) (setAt_space_paren text e hparen) (by omega)
  have hlook : (Regex.lookahead (.chr '(')).ends text e = [e] := by
    simp [Regex.ends, hparen]
  have htail : ∃ tl, (Regex.seq (.star (.set spaceSet)) (.lookahead (.chr '('))).ends text e =
      e :: tl :=
    ends_seq_cons _ _ text e e e tl2 [] (by simp only [Regex.ends]; exact h2) hlook
  obtain ⟨tlt, ht⟩ := htail
  obtain ⟨tl3, h3⟩ := ends_seq_cons _ _ text a e e tlp tlt hp ht
  rw [functionDefinitionPattern_eq]
  have hwb : Regex.wordBoundary.ends text a = [a] := by simp [Regex.ends, hb]
  exact ends_seq_head _ _ text a a e [] tl3 hwb h3

theorem space_not_word (c : Char) (h : spaceSet.contains c = true) :
    wordSet.contains c = false := by
  simp only [CharSet.contains, spaceSet, wordSet, List.any_cons, List.any_nil, Bool.or_false,
    bne_iff_ne, ne_eq, Bool.not_eq_false, Bool.or_eq_true, Bool.and_eq_true,
    decide_eq_true_eq] at h
  have h9 : (Char.ofNat 9).toNat = 9 := by decide
  have h13 : (Char.ofNat 13).toNat = 13 := by decide
  have h32 : (' ' : Char).toNat = 32 := by decide
  have hA : ('A' : Char).toNat = 65 := by decide
  have hZ : ('Z' : Char).toNat = 90 := by decide
  have ha : ('a' : Char).toNat = 97 := by decide
  have hz : ('z' : Char).toNat = 122 := by decide
  have h0 : ('0' : Char).toNat = 48 := by decide
  have h9' : ('9' : Char).toNat = 57 := by decide
  have hu : ('_' : Char).toNat = 95 := by decide
  rw [h9, h13, h32] at h
  simp only [CharSet.contains, wordSet, List.any_cons, List.any_nil, Bool.or_false, hA, hZ, ha,
    hz, h0, h9', hu]
  rcases h with ⟨h1, h2⟩ | ⟨h1, h2⟩
  · have e1 : decide (65 ≤ c.toNat) = false := by simp; omega
    have e2 : decide (97 ≤ c.toNat) = false := by simp; omega
    have e3 : decide (48 ≤ c.toNat) = false := by simp; omega
    have e4 : decide (95 ≤ c.toNat) = false := by simp; omega
    simp [e1, e2, e3, e4]
  · have e1 : decide (65 ≤ c.toNat) = false := by simp; omega
    have e2 : decide (97 ≤ c.toNat) = false := by simp; omega
    have e3 : decide (c.toNat ≤ 57) = true := by simp; omega
    have e3' : decide (48 ≤ c.toNat) = false := by simp; omega
    have e4 : decide (95 ≤ c.toNat) = false := by simp; omega
    simp [e1, e2, e3', e4]

theorem setAt_space_not_word (text : QString) (j : Nat) (h : setAt spaceSet text j = true) :
    wordAt text j = false := by
  unfold setAt at h
  unfold wordAt
  cases hc : text[j]? with
  | none => rfl
  | some c =>
    rw [hc] at h
    exact space_not_word c h

/-- Shape of every match of the function definition pattern: it starts at a word boundary and
consists of a run of word characters followed by a run of whitespace. -/
theorem functionDefinition_mem_ends (text : QString) (s x : Nat)
    (hx : x ∈ functionDefinitionPattern.ends text s) :
    atWordBoundary text s = true ∧
      ∃ e1, s < e1 ∧ e1 ≤ x ∧ (∀ j, s ≤ j → j < e1 → wordAt text j = true) ∧
        (∀ j, e1 ≤ j → j < x → setAt spaceSet text j = true) := by
  rw [functionDefinitionPattern_eq, mem_ends_seq] at hx
  obtain ⟨p0, hp0, hx⟩ := hx
  have hwb : atWordBoundary text s = true ∧ p0 = s := by
    simp only [Regex.ends] at hp0
    by_cases hb : atWordBoundary text s = true
    · simp only [hb, if_true, List.mem_singleton] at hp0
      exact ⟨hb, hp0⟩
    · simp [hb] at hp0
  obtain ⟨hb, rfl⟩ := hwb
  refine ⟨hb, ?_⟩
  rw [mem_ends_seq] at hx
  obtain ⟨e1, he1, hx⟩ := hx
  rw [mem_ends_seq] at he1
  obtain ⟨q, hq, he1⟩ := he1
  rw [ends_set] at hq
  by_cases hs : setAt wordSet text p0 = true
  · simp only [hs, if_true, List.mem_singleton] at hq
    subst hq
    simp only [Regex.ends] at he1
    obtain ⟨h1, h2⟩ := starEnds_mem wordSet text _ _ _ he1
    rw [mem_ends_seq] at hx
    obtain ⟨e2, he2, hx⟩ := hx
    simp only [Regex.ends] at he2
    obtain ⟨h3, h4⟩ := starEnds_mem spaceSet text _ _ _ he2
    have hxe : x = e2 := by
      simp only [Regex.ends] at hx
      split at hx <;> first | (simp at hx; done) | (simp at hx; exact hx)
    subst hxe
    refine ⟨e1, by omega, h3, ?_, h4⟩
    intro j hj1 hj2
    rcases Nat.eq_or_lt_of_le hj1 with heq | hlt
    · rw [← heq]; exact hs
    · exact h2 j hlt hj2
  · simp [hs] at hq

theorem matchAt_mem_ends (re : Regex) (text : QString) (s e : Nat)
    (h : re.matchAt text s = some e) : e ∈ re.ends text s := by
  unfold Regex.matchAt at h
  exact List.mem_of_mem_head? h

/-- A match of the function definition pattern that starts before the start `a` of a word
ends at or before `a`. -/
theorem functionDefinition_match_before (text : QString) (s e a : Nat)
    (hm : functionDefinitionPattern.matchAt text s = some e) (hsa : s < a)
    (hb : atWordBoundary text a = true) (hw : wordAt text a = true) : e ≤ a := by
  obtain ⟨_, e1, h1, h2, hword, hspace⟩ :=
    functionDefinition_mem_ends text s e (matchAt_mem_ends _ _ _ _ hm)
  rcases Nat.lt_or_ge a e with hlt | hge
  · exfalso
    rcases Nat.lt_or_ge a e1 with ha1 | ha1
    · have hprev : wordAt text (a - 1) = true := hword (a - 1) (by omega) (by omega)
      have hne : a ≠ 0 := by omega
      simp [atWordBoundary, hne, hprev, hw] at hb
    · have := setAt_space_not_word text a (hspace a ha1 hlt)
      rw [hw] at this
      cases this
  · exact hge

/-- The leftmost search finds a match at or before any offset where the pattern matches. -/
theorem searchAux_finds (re : Regex) (text : QString) (a ea : Nat)
    (ha : re.matchAt text a = some ea) :
    ∀ (n s0 : Nat), s0 ≤ a → a < s0 + n →
      ∃ s e, searchAux re text n s0 = some (s, e) ∧ s0 ≤ s ∧ s ≤ a ∧
        re.matchAt text s = some e := by
  intro n
  induction n with
  | zero => intro s0 h1 h2; omega
  | succ n ih =>
    intro s0 h1 h2
    rw [searchAux]
    cases hm : re.matchAt text s0 with
    | some e => exact ⟨s0, e, rfl, Nat.le_refl _, h1, hm⟩
    | none =>
      have hne : s0 ≠ a := by
        intro heq
        rw [heq, ha] at hm
        cases hm
      obtain ⟨s, e, hs, hs1, hs2, hs3⟩ := ih (s0 + 1) (by omega) (by omega)
      exact ⟨s, e, hs, by omega, hs2, hs3⟩

/-- The iteration of `globalMatch` reaches the word that starts at `a`. -/
theorem functionDefinition_globalMatch (text : QString) (a e : Nat)
    (hb : atWordBoundary text a = true) (hw : wordAt text a = true)
    (hm : functionDefinitionPattern.matchAt text a = some e) :
    ∀ (fuel offset : Nat), offset ≤ a → a < offset + fuel → a < text.length + 1 →
      (a, e) ∈ globalMatchAux functionDefinitionPattern text fuel offset := by
  intro fuel
  induction fuel with
  | zero => intro offset h1 h2 _; omega
  | succ fuel ih =>
    intro offset h1 h2 h3
    rw [globalMatchAux]
    obtain ⟨s, e', hs, hs1, hs2, hs3⟩ :=
      searchAux_finds functionDefinitionPattern text a e hm
        (text.length + 1 - offset) offset h1 (by omega)
    have hmf : functionDefinitionPattern.matchFrom text (offset : Int) = some (s, e') := by
      simp only [Regex.matchFrom, Int.toNat_ofNat]
      exact hs
    rw [hmf]
    simp only [List.mem_cons]
    rcases Nat.eq_or_lt_of_le hs2 with heq | hlt
    · left
      subst heq
      rw [hm] at hs3
      cases hs3
      rfl
    · right
      have hle := functionDefinition_match_before text s e' a hs3 hlt hb hw
      apply ih
      · split <;> omega
      · split <;> omega
      · exact h3

theorem word_run_start (text : QString) :
    ∀ i, wordAt text i = true →
      ∃ a, a ≤ i ∧ atWordBoundary text a = true ∧ ∀ j, a ≤ j → j ≤ i → wordAt text j = true := by
  intro i
  induction i with
  | zero =>
    intro h
    refine ⟨0, Nat.le_refl _, by simp [atWordBoundary, h], ?_⟩
    intro j _ hj
    have : j = 0 := by omega
    rw [this]; exact h
  | succ i ih =>
    intro h
    by_cases hp : wordAt text i = true
    · obtain ⟨a, ha1, ha2, ha3⟩ := ih hp
      refine ⟨a, by omega, ha2, ?_⟩
      intro j hj1 hj2
      rcases Nat.eq_or_lt_of_le hj2 with heq | hlt
      · rw [heq]; exact h
      · exact ha3 j hj1 (by omega)
    · refine ⟨i + 1, Nat.le_refl _, by simp [atWordBoundary, hp, h], ?_⟩
      intro j hj1 hj2
      have : j = i + 1 := by omega
      rw [this]; exact h

/-! ## Painting -/

theorem paintFrom_getElem (r : FormatRange) :
    ∀ (v : List QTextCharFormat) (k j : Nat),
      (paintFrom r k v)[j]? = (v[j]?).map fun f =>
        if r.start ≤ ((k + j : Nat) : Int) ∧ ((k + j : Nat) : Int) < r.start + r.count
        then r.format else f := by
  intro v
  induction v with
  | nil => intro k j; simp [paintFrom]
  | cons f fs ih =>
    intro k j
    cases j with
    | zero => simp [paintFrom]
    | succ j =>
      simp only [paintFrom, List.getElem?_cons_succ, ih]
      have : k + 1 + j = k + (j + 1) := by omega
      rw [this]

theorem length_paintFrom (r : FormatRange) :
    ∀ (v : List QTextCharFormat) (k : Nat), (paintFrom r k v).length = v.length := by
  intro v
  induction v with
  | nil => intro k; rfl
  | cons f fs ih => intro k; simp [paintFrom, ih]

theorem length_paint (v : List QTextCharFormat) (r : FormatRange) :
    (paint v r).length = v.length := by
  unfold paint
  split
  · rfl
  · exact length_paintFrom r v 0

theorem length_foldl_paint (calls : List FormatRange) :
    ∀ v : List QTextCharFormat, (calls.foldl paint v).length = v.length := by
  induction calls with
  | nil => intro v; rfl
  | cons r rs ih => intro v; rw [List.foldl_cons, ih, length_paint]

/-- A call of `setFormat` gives its format to the characters it covers and leaves the others
as they are. -/
theorem paint_getElem (v : List QTextCharFormat) (r : FormatRange) (j : Nat) :
    (paint v r)[j]? = (v[j]?).map fun f =>
      if 0 ≤ r.start ∧ r.covers (j : Int) then r.format else f := by
  unfold paint
  by_cases hout : r.start < 0 ∨ r.start ≥ (v.length : Int)
  · rw [if_pos hout]
    cases hv : v[j]? with
    | none => rfl
    | some f =>
      have hj : j < v.length := by
        rcases Nat.lt_or_ge j v.length with h | h
        · exact h
        · rw [List.getElem?_eq_none h] at hv; cases hv
      have : ¬ (0 ≤ r.start ∧ r.covers (j : Int)) := by
        unfold FormatRange.covers
        omega
      simp [this]
  · rw [if_neg hout, paintFrom_getElem]
    have h0 : 0 ≤ r.start := by omega
    cases v[j]? with
    | none => rfl
    | some f =>
      simp only [Option.map_some', FormatRange.covers, Nat.zero_add, h0, true_and]

/-- The style of a character is the format of the last call that covers it: if some call in
the last part `ys` of the calls covers offset `j`, and all calls of `ys` that cover `j` have the
format `F`, the character ends with `F`. -/
theorem foldl_paint_last (F : QTextCharFormat) (j : Nat) :
    ∀ (ys : List FormatRange) (v : List QTextCharFormat), j < v.length →
      (v[j]? = some F ∨ ∃ r ∈ ys, 0 ≤ r.start ∧ r.covers (j : Int)) →
      (∀ r ∈ ys, r.covers (j : Int) → r.format = F) →
      (ys.foldl paint v)[j]? = some F := by
  intro ys
  induction ys with
  | nil =>
    intro v _ h _
    rcases h with h | ⟨r, hr, _⟩
    · exact h
    · cases hr
  | cons r rs ih =>
    intro v hj h hall
    rw [List.foldl_cons]
    apply ih (paint v r) (by rw [length_paint]; exact hj)
    · by_cases hc : 0 ≤ r.start ∧ r.covers (j : Int)
      · left
        rw [paint_getElem, List.getElem?_eq_getElem hj]
        simp [hc, hall r (List.mem_cons_self _ _) hc.2]
      · rcases h with h | ⟨r', hr', hc'⟩
        · left
          rw [paint_getElem, h]
          simp [hc]
        · rcases List.mem_cons.1 hr' with heq | hmem
          · subst heq; exact absurd hc' hc
          · exact Or.inr ⟨r', hmem, hc'⟩
    · intro r' hr' hc'
      exact hall r' (List.mem_cons_of_mem _ hr') hc'

theorem ruleFormats_append (a b : List HighlightingRule) (text : QString) :
    ruleFormats (a ++ b) text = ruleFormats a text ++ ruleFormats b text := by
  simp [ruleFormats, List.flatMap_append]

theorem ruleFormats_singleton (rule : HighlightingRule) (text : QString) :
    ruleFormats [rule] text =
      (globalMatch rule.pattern text).map fun m =>
        ⟨(m.1 : Int), (m.2 : Int) - (m.1 : Int), rule.format⟩ := by
  simp [ruleFormats]

/-- The rule list of the installed highlighter, as built by the constructor. -/
theorem highlightingRules_eq :
    highlighter.highlightingRules =
      preprocessorPatterns.map (fun p => ⟨p, keywordFormat⟩) ++
        keywordPatterns.map (fun p => ⟨p, keywordFormat⟩) ++
        [operatorRule, stringRule, numberRule, functionRule, includeRule,
          functionDefinitionRule, classRule, argumentRule, typeRule, namespaceRule,
          templateParameterRule, singleLineCommentRule] := by
  decide!

theorem highlightingRules_split :
    highlighter.highlightingRules =
      rulesBeforeFunctionDefinition ++
        ([functionDefinitionRule] ++ rulesAfterFunctionDefinition) := by
  rw [highlightingRules_eq]
  simp [rulesAfterFunctionDefinition, rulesBeforeFunctionDefinition]

/-- A run of word characters that ends immediately before `(` ends with the function style,
unless a rule after the function definition rule or a later call covers it. -/
theorem word_before_paren_style (T : QString) (i n j : Nat)
    (hrun : ∀ k, i ≤ k → k < i + n → wordAt T k = true)
    (hparen : T[i + n]? = some '(')
    (hj1 : i ≤ j) (hj2 : j < i + n) (later : List FormatRange)
    (hlater : ∀ f ∈ ruleFormats rulesAfterFunctionDefinition T ++ later, ¬ f.covers (j : Int)) :
    styleAt T.length (ruleFormats highlighter.highlightingRules T ++ later) j =
      some functionFormat := by
  have hlen : i + n < T.length := by
    rcases Nat.lt_or_ge (i + n) T.length with h | h
    · exact h
    · rw [List.getElem?_eq_none h] at hparen; cases hparen
  obtain ⟨a, ha1, ha2, ha3⟩ := word_run_start T i (hrun i (Nat.le_refl _) (by omega))
  have hm : functionDefinitionPattern.matchAt T a = some (i + n) :=
    functionDefinition_matchAt T a (i + n) (by omega) ha2
      (fun k hk1 hk2 => by
        rcases Nat.lt_or_ge i k with h | h
        · exact hrun k (by omega) hk2
        · exact ha3 k hk1 h)
      hparen
  have hmem : (a, i + n) ∈ globalMatch functionDefinitionPattern T :=
    functionDefinition_globalMatch T a (i + n) ha2 (ha3 a (Nat.le_refl _) ha1) hm
      (T.length + 1) 0 (Nat.zero_le _) (by omega) (by omega)
  have hsplit : ruleFormats highlighter.highlightingRules T ++ later =
      ruleFormats rulesBeforeFunctionDefinition T ++
        (ruleFormats [functionDefinitionRule] T ++
          (ruleFormats rulesAfterFunctionDefinition T ++ later)) := by
    rw [highlightingRules_split,
      ruleFormats_append rulesBeforeFunctionDefinition
        ([functionDefinitionRule] ++ rulesAfterFunctionDefinition) T,
      ruleFormats_append [functionDefinitionRule] rulesAfterFunctionDefinition T,
      List.append_assoc, List.append_assoc]
  unfold styleAt formatChanges
  rw [hsplit, List.foldl_append]
  apply foldl_paint_last
  · rw [length_foldl_paint, List.length_replicate]; omega
  · right
    refine ⟨⟨(a : Int), ((i + n : Nat) : Int) - (a : Int), functionDefinitionFormat⟩, ?_, ?_, ?_⟩
    · apply List.mem_append_left
      rw [ruleFormats_singleton]
      exact List.mem_map.2 ⟨(a, i + n), hmem, rfl⟩
    · exact Int.natCast_nonneg a
    · unfold FormatRange.covers
      constructor
      · show (a : Int) ≤ (j : Int)
        omega
      · show (j : Int) < (a : Int) + (((i + n : Nat) : Int) - (a : Int))
        omega
  · intro r hr hc
    rcases List.mem_append.1 hr with h1 | h2
    · rw [ruleFormats_singleton] at h1
      obtain ⟨m, _, rfl⟩ := List.mem_map.1 h1
      rfl
    · exact absurd hc (hlater r h2)


/-- Claim C8, as the code has it. For every keyword `K` of the keyword rules that consists only
of letters, digits and underscores, and every line in which `K` is immediately followed by `(`,
highlighting the line with previous state `NORMAL` paints the span of the function definition
rule over the characters of `K` after all keyword spans: every character of `K` that no later
span covers (no span of the class, argument, type, namespace, template or single-line comment
rule and no block comment span) ends with the function style, which is not the keyword
style. -/
theorem keyword_before_paren_styled_as_function (K : String) (_hK : K ∈ keywordWords)
    (hplain : isPlainWord K = true) (T : QString) (i : Nat)
    (hocc : ∀ m, m < K.toList.length → T[i + m]? = K.toList[m]?)
    (hparen : T[i + K.toList.length]? = some '(')
    (comments : List FormatRange) (state : Int)
    (_hr : highlightBlock T NORMAL =
      some ⟨ruleFormats highlighter.highlightingRules T ++ comments, state⟩) :
    (∀ j, i ≤ j → j < i + K.toList.length →
      (∀ f ∈ ruleFormats rulesAfterFunctionDefinition T ++ comments, ¬ f.covers (j : Int)) →
      styleAt T.length (ruleFormats highlighter.highlightingRules T ++ comments) j =
        some functionFormat) ∧
      functionFormat ≠ keywordFormat := by
  refine ⟨?_, by decide⟩
  intro j hj1 hj2 hlater
  apply word_before_paren_style T i K.toList.length j ?_ hparen hj1 hj2 comments hlater
  intro k hk1 hk2
  have hm := hocc (k - i) (by omega)
  have hik : i + (k - i) = k := by omega
  rw [hik] at hm
  have hb : k - i < K.toList.length := by omega
  have hget : K.toList[k - i]? = some K.toList[k - i] := List.getElem?_eq_getElem hb
  unfold wordAt
  rw [hm, hget]
  unfold isPlainWord at hplain
  rw [List.all_eq_true] at hplain
  exact hplain _ (List.getElem_mem _)

/-- Witness of claim C8 as amended: on the line `while(x)` no later span covers the five
characters of `while`, and they end with the function style. -/
theorem keyword_before_paren_styled_as_function_witness :
    highlightBlock "while(x)".toList NORMAL =
        some ⟨ruleFormats highlighter.highlightingRules "while(x)".toList ++ [], 0⟩ ∧
      (∀ j, j < 5 →
        styleAt 8 (ruleFormats highlighter.highlightingRules "while(x)".toList ++ []) j =
          some functionFormat) ∧
      functionFormat ≠ keywordFormat :=
  have hlater : ∀ j : Nat, j < 5 →
      ∀ f ∈ ruleFormats rulesAfterFunctionDefinition "while(x)".toList ++ [],
        ¬ f.covers (j : Int) := by decide!
  ⟨by decide!,
    fun j hj =>
      (keyword_before_paren_styled_as_function "while" (by decide) (by decide)
        "while(x)".toList 0 (by decide) (by decide) [] 0 (by decide!)).1 j (Nat.zero_le j)
        (by simpa using hj) (hlater j hj),
    by decide⟩

/-! ## Key events: claims C13 to C17 -/

theorem firstRefresh_document (host : Host) (w : AutoIndentTextEdit) (event : QKeyEvent) :
    (firstRefresh host w event).document = w.document ∧
      (firstRefresh host w event).anchor = w.anchor ∧
      (firstRefresh host w event).position = w.position := by
  unfold firstRefresh
  dsimp only
  split_ifs <;> simp [setCompletionPrefix, complete, popupSelectFirst, popupHide]

theorem secondRefresh_document (host : Host) (w : AutoIndentTextEdit) (event : QKeyEvent) :
    (secondRefresh host w event).document = w.document ∧
      (secondRefresh host w event).anchor = w.anchor ∧
      (secondRefresh host w event).position = w.position := by
  unfold secondRefresh
  dsimp only
  split_ifs <;> simp [setCompletionPrefix, complete, popupSelectFirst, popupHide]

/-- When the popup does not take the key, the document and the cursor after `keyPressEvent`
are those after the structural handling. -/
theorem keyPressEvent_document (host : Host) (w : AutoIndentTextEdit) (event : QKeyEvent)
    (h : ¬ (w.popupVisible = true ∧ isPopupKey event.key = true)) :
    (keyPressEvent host w event).1.document = (structuralHandling host w event).document ∧
      (keyPressEvent host w event).1.anchor = (structuralHandling host w event).anchor ∧
      (keyPressEvent host w event).1.position = (structuralHandling host w event).position := by
  unfold keyPressEvent
  rw [if_neg h]
  simp only []
  obtain ⟨a1, a2, a3⟩ := firstRefresh_document host (structuralHandling host w event) event
  obtain ⟨b1, b2, b3⟩ := secondRefresh_document host
    (firstRefresh host (structuralHandling host w event) event) event
  exact ⟨b1.trans a1, b2.trans a2, b3.trans a3⟩

theorem insertText_caret (w : AutoIndentTextEdit) (k : Nat) (s : QString)
    (ha : w.anchor = k) (hp : w.position = k) :
    (w.insertText s).document = w.document.take k ++ s ++ w.document.drop k ∧
      (w.insertText s).anchor = k + s.length ∧ (w.insertText s).position = k + s.length := by
  simp [AutoIndentTextEdit.insertText, ha, hp]

/-- The Return and Enter branch at a caret without selection. -/
theorem enterBranch_caret (host : Host) (w : AutoIndentTextEdit) (event : QKeyEvent) (k : Nat)
    (hkey : event.key = Key.Key_Return ∨ event.key = Key.Key_Enter)
    (ha : w.anchor = k) (hp : w.position = k) (hk : k ≤ w.document.length) :
    (enterBranch host w event).document =
        w.document.take k ++ [newline] ++
          leadingWhitespace (blockText w.document (previousBlock w.document k)) ++
          w.document.drop k ∧
      (enterBranch host w event).position =
        k + 1 + (leadingWhitespace (blockText w.document (previousBlock w.document k))).length := by
  have hws : ∀ l : QString, l.take (skipSpaces l 0).toNat = leadingWhitespace l := by
    intro l
    have : (skipSpaces l 0).toNat = (l.takeWhile isSpace).length := by
      simp [skipSpaces, skipSpacesAux_eq]
    rw [this]
    exact take_length_takeWhile _ _
  unfold enterBranch
  simp only [hws, hp]
  have hbase : baseKeyPressEvent host w event = w.insertText [newline] := by
    unfold baseKeyPressEvent
    rw [if_pos hkey]
  rw [hbase]
  obtain ⟨d1, a1, p1⟩ := insertText_caret w k [newline] ha hp
  obtain ⟨d2, _, p2⟩ := insertText_caret (w.insertText [newline]) (k + 1)
    (leadingWhitespace (blockText w.document (previousBlock w.document k)))
    (by simpa using a1) (by simpa using p1)
  rw [d2, p2, d1]
  have hlen : (w.document.take k).length = k := List.length_take_of_le hk
  have htake : (w.document.take k ++ [newline] ++ w.document.drop k).take (k + 1) =
      w.document.take k ++ [newline] := by
    rw [List.take_append_eq_append_take]
    simp [hlen]
  have hdrop : (w.document.take k ++ [newline] ++ w.document.drop k).drop (k + 1) =
      w.document.drop k := by
    rw [List.drop_append_eq_append_drop]
    simp [hlen]
  rw [htake, hdrop]
  exact ⟨rfl, rfl⟩

/-- The Return and Enter keys as the code handles them, at a caret `k` without selection and
with the popup hidden: a line break is inserted at the caret and, behind it, a copy of the
leading whitespace of the block that `movePosition(PreviousBlock)` reaches from the caret: the
block above the one of the caret, or the block of the caret itself when it is the first. -/
theorem enterKey_document (host : Host) (w : AutoIndentTextEdit)
    (event : QKeyEvent) (k : Nat)
    (hpopup : w.popupVisible = false)
    (hkey : event.key = Key.Key_Return ∨ event.key = Key.Key_Enter)
    (ha : w.anchor = k) (hp : w.position = k) (hk : k ≤ w.document.length) :
    (keyPressEvent host w event).1.document =
        w.document.take k ++ [newline] ++
          leadingWhitespace (blockText w.document (previousBlock w.document k)) ++
          w.document.drop k ∧
      (keyPressEvent host w event).1.position =
        k + 1 + (leadingWhitespace (blockText w.document (previousBlock w.document k))).length ∧
      (blockStart w.document k = 0 → previousBlock w.document k = k) ∧
      (blockStart w.document k ≠ 0 →
        previousBlock w.document k = blockStart w.document (blockStart w.document k - 1)) := by
  have hnot : ¬ (w.popupVisible = true ∧ isPopupKey event.key = true) := by
    rw [hpopup]; simp
  obtain ⟨h1, _, h3⟩ := keyPressEvent_document host w event hnot
  have hs : structuralHandling host w event = enterBranch host w event := by
    unfold structuralHandling
    rw [if_pos hkey]
  obtain ⟨e1, e2⟩ := enterBranch_caret host w event k hkey ha hp hk
  refine ⟨by rw [h1, hs, e1], by rw [h3, hs, e2], ?_, ?_⟩
  · intro h0
    unfold previousBlock
    rw [if_pos h0]
  · intro h0
    unfold previousBlock
    rw [if_neg h0]

/-- On the first block the move to the previous block fails and the line of the caret itself is
read: the Return key at the end of the only line `    foo();` gives a new line of four
spaces. -/
theorem enterKey_on_first_block :
    (keyPressEvent exampleHost oneLineEditor returnEvent).1.document =
      "    foo();\n    ".toList :=
  (enterKey_document exampleHost oneLineEditor returnEvent 10
    rfl (Or.inl rfl) rfl rfl (by decide)).1.trans (by decide)

/-- Claim C13, on the document `a`, line break, `    foo();` with the caret at offset 12, the
end of the second line, no selection and the popup hidden. The line of the caret is
`    foo();`, whose leading whitespace is four spaces, so the new line should start with four
spaces. The code reads the whitespace after `movePosition(PreviousBlock)`, which takes the
cursor to the line `a`: the Return key gives `a`, `    foo();` and an empty third line. -/
theorem enter_below_unindented_line :
    twoLineEditor.popupVisible = false ∧
      twoLineEditor.anchor = twoLineEditor.position ∧
      blockText twoLineEditor.document twoLineEditor.position = "    foo();".toList ∧
      leadingWhitespace (blockText twoLineEditor.document twoLineEditor.position) =
        "    ".toList ∧
      blockText twoLineEditor.document
        (previousBlock twoLineEditor.document twoLineEditor.position) = "a".toList ∧
      (keyPressEvent exampleHost twoLineEditor returnEvent).1.document =
        "a\n    foo();\n".toList ∧
      (keyPressEvent exampleHost twoLineEditor returnEvent).1.document ≠
        "a\n    foo();\n    ".toList := by
  decide

/-- Claim C14, as the code has it. For every buffer and every cursor, with the completion
popup not visible, a Tab key event replaces the selected text, which is empty when the cursor
has no selection, by exactly the two characters space, space: the buffer becomes the text
before the selection, two spaces, and the text after the selection, and the cursor stands
behind the two spaces without selection. No tab character is inserted and no character outside
the selection changes; for a cursor without selection the two spaces are inserted at the caret
and no other character changes. -/
theorem tab_replaces_selection_by_two_spaces (host : Host) (w : AutoIndentTextEdit)
    (event : QKeyEvent) (hpopup : w.popupVisible = false) (hkey : event.key = Key.Key_Tab) :
    (keyPressEvent host w event).1.document =
        w.document.take (min w.anchor w.position) ++ [' ', ' '] ++
          w.document.drop (max w.anchor w.position) ∧
      (keyPressEvent host w event).1.anchor = min w.anchor w.position + 2 ∧
      (keyPressEvent host w event).1.position = min w.anchor w.position + 2 ∧
      (w.anchor = w.position →
        (keyPressEvent host w event).1.document =
          w.document.take w.position ++ [' ', ' '] ++ w.document.drop w.position) ∧
      Char.ofNat 9 ∉ [' ', ' '] := by
  have hnot : ¬ (w.popupVisible = true ∧ isPopupKey event.key = true) := by
    rw [hpopup]; simp
  obtain ⟨h1, h2, h3⟩ := keyPressEvent_document host w event hnot
  have hs : structuralHandling host w event = tabBranch w := by
    unfold structuralHandling
    rw [hkey]
    simp
  have hd : (keyPressEvent host w event).1.document =
      w.document.take (min w.anchor w.position) ++ [' ', ' '] ++
        w.document.drop (max w.anchor w.position) := by
    rw [h1, hs]; rfl
  refine ⟨hd, ?_, ?_, ?_, by decide⟩
  · rw [h2, hs]; rfl
  · rw [h3, hs]; rfl
  · intro heq
    rw [hd, heq, Nat.min_self, Nat.max_self]

/-- Witness of claim C14 as amended: Tab with `b c` selected in `ab cd` gives `a`, two spaces,
`d` with the cursor at offset 3; Tab at offset 2 of `ab cd` without selection gives `ab`, two
spaces, ` cd`. -/
theorem tab_replaces_selection_by_two_spaces_witness :
    (keyPressEvent exampleHost ⟨"ab cd".toList, 1, 4, [], false, none, 12⟩ tabEvent).1.document =
        "a  d".toList ∧
      (keyPressEvent exampleHost ⟨"ab cd".toList, 1, 4, [], false, none, 12⟩ tabEvent).1.position =
        3 ∧
      (keyPressEvent exampleHost ⟨"ab cd".toList, 2, 2, [], false, none, 12⟩ tabEvent).1.document =
        "ab   cd".toList :=
  ⟨(tab_replaces_selection_by_two_spaces exampleHost ⟨"ab cd".toList, 1, 4, [], false, none, 12⟩
      tabEvent rfl rfl).1.trans (by decide),
    (tab_replaces_selection_by_two_spaces exampleHost ⟨"ab cd".toList, 1, 4, [], false, none, 12⟩
      tabEvent rfl rfl).2.2.1.trans (by decide),
    ((tab_replaces_selection_by_two_spaces exampleHost ⟨"ab cd".toList, 2, 2, [], false, none, 12⟩
      tabEvent rfl rfl).2.2.2.1 rfl).trans (by decide)⟩

/-- Counterexample to claim C14 as stated: with the whole buffer `ab cd` selected (anchor 0,
caret at offset 5) and the popup hidden, the Tab key leaves a buffer of two spaces. The five
characters of the buffer are gone, where the claim has the two spaces inserted at the caret and
no other character changed, which would give `ab cd` followed by two spaces. -/
theorem tab_counterexample :
    (keyPressEvent exampleHost ⟨"ab cd".toList, 0, 5, [], false, none, 12⟩ tabEvent).1.document =
        "  ".toList ∧
      (keyPressEvent exampleHost ⟨"ab cd".toList, 0, 5, [], false, none, 12⟩ tabEvent).1.document ≠
        "ab cd".toList.take 5 ++ [' ', ' '] ++ "ab cd".toList.drop 5 := by
  decide

/-- Claim C15. While the completion popup is visible, a key event whose key is Enter, Return,
Escape, Tab or Backtab leaves the whole state of the widget unchanged (buffer, cursor, prefix,
popup) and marks the event ignored. -/
theorem popup_keys_are_ignored (host : Host) (w : AutoIndentTextEdit) (event : QKeyEvent)
    (hpopup : w.popupVisible = true)
    (hkey : event.key = Key.Key_Enter ∨ event.key = Key.Key_Return ∨
      event.key = Key.Key_Escape ∨ event.key = Key.Key_Tab ∨ event.key = Key.Key_Backtab) :
    keyPressEvent host w event = (w, false) := by
  have hk : isPopupKey event.key = true := by
    rcases hkey with h | h | h | h | h <;> rw [h] <;> rfl
  unfold keyPressEvent
  rw [if_pos ⟨hpopup, hk⟩]

/-- Witness of claim C15: with the popup visible on `vo`, the Tab key changes nothing and the
event is ignored. -/
theorem popup_keys_are_ignored_witness :
    keyPressEvent exampleHost typingEditor tabEvent = (typingEditor, false) :=
  popup_keys_are_ignored exampleHost typingEditor tabEvent rfl (Or.inr (Or.inr (Or.inr (Or.inl rfl))))


/-! ## The completion refresh: claim C16 -/

theorem wordUnderCursor_congr (host : Host) (w v : AutoIndentTextEdit)
    (hd : v.document = w.document) (hp : v.position = w.position) :
    wordUnderCursor host v = wordUnderCursor host w := by
  unfold wordUnderCursor
  rw [hd, hp]

theorem isEmpty_eq_false_of_ne {l : QString} (h : l ≠ []) : l.isEmpty = false := by
  cases l with
  | nil => exact absurd rfl h
  | cons x xs => rfl

theorem length_pos_of_ne {l : QString} (h : l ≠ []) : l.length ≥ 1 := by
  cases l with
  | nil => exact absurd rfl h
  | cons x xs => simp

/-- The two completion sections on an event without text: the popup is hidden. -/
theorem refresh_no_text (host : Host) (w : AutoIndentTextEdit) (event : QKeyEvent)
    (ht : event.text = []) :
    secondRefresh host (firstRefresh host w event) event = popupHide w := by
  unfold secondRefresh firstRefresh
  simp [ht]

/-- The two completion sections when the word under the cursor is empty: the popup is
hidden. -/
theorem refresh_no_word (host : Host) (w : AutoIndentTextEdit) (event : QKeyEvent)
    (ht : event.text ≠ []) (hw : wordUnderCursor host w = []) :
    secondRefresh host (firstRefresh host w event) event = popupHide w := by
  have h1 : firstRefresh host w event = w := by
    unfold firstRefresh
    simp [hw, length_pos_of_ne ht]
  rw [h1]
  unfold secondRefresh
  simp [hw, isEmpty_eq_false_of_ne ht]

/-- The two completion sections on an event with text and a word under the cursor. -/
theorem refresh_word (host : Host) (w : AutoIndentTextEdit) (event : QKeyEvent)
    (ht : event.text ≠ []) (hw : wordUnderCursor host w ≠ []) :
    secondRefresh host (firstRefresh host w event) event =
      { w with
        completionPrefix := wordUnderCursor host w,
        popupVisible := decide (0 < completionCount (wordUnderCursor host w)),
        popupCurrentIndex :=
          if completionCount (wordUnderCursor host w) = 1 then some 0 else none } := by
  have hdoc := firstRefresh_document host w event
  have hword : wordUnderCursor host (firstRefresh host w event) = wordUnderCursor host w :=
    wordUnderCursor_congr host w _ hdoc.1 hdoc.2.2
  have hfirst : firstRefresh host w event =
      (let wA := setCompletionPrefix w (wordUnderCursor host w)
       let wB := if ¬ wA.popupVisible then complete wA else wA
       if completionCount wB.completionPrefix = 1 then popupSelectFirst wB else wB) := by
    unfold firstRefresh
    simp [isEmpty_eq_false_of_ne hw, length_pos_of_ne ht]
  have hprefix : (firstRefresh host w event).completionPrefix = wordUnderCursor host w := by
    rw [hfirst]
    dsimp only
    split_ifs <;> simp [setCompletionPrefix, complete, popupSelectFirst]
  unfold secondRefresh
  rw [hword, hprefix]
  simp only [isEmpty_eq_false_of_ne ht, isEmpty_eq_false_of_ne hw, Bool.false_eq_true,
    if_false, or_self, ne_eq, not_true_eq_false]
  rw [hfirst]
  dsimp only
  by_cases hc : completionCount (wordUnderCursor host w) = 1
  · split_ifs <;>
      simp_all [setCompletionPrefix, complete, popupSelectFirst]
  · split_ifs <;>
      simp_all [setCompletionPrefix, complete, popupSelectFirst]

/-- Claim C16, as the code has it. After every key event that `keyPressEvent` handles (the
popup does not take it), with `word` the word under the caret computed after the structural
handling: if the event carries text and `word` is nonempty, the prefix of the completer is
`word`, the suggestion list is shown when at least one candidate matches `word` and hidden
when none does, and the sole match is selected when exactly one candidate matches; if the
event carries no text or `word` is empty, the suggestion list is hidden. -/
theorem completion_refresh_after_key (host : Host) (w : AutoIndentTextEdit) (event : QKeyEvent)
    (hnot : ¬ (w.popupVisible = true ∧ isPopupKey event.key = true)) :
    (event.text ≠ [] → wordUnderCursor host (structuralHandling host w event) ≠ [] →
      (keyPressEvent host w event).1.completionPrefix =
          wordUnderCursor host (structuralHandling host w event) ∧
        (keyPressEvent host w event).1.popupVisible =
          decide (0 < completionCount (wordUnderCursor host (structuralHandling host w event))) ∧
        (completionCount (wordUnderCursor host (structuralHandling host w event)) = 1 →
          (keyPressEvent host w event).1.popupVisible = true ∧
            (keyPressEvent host w event).1.popupCurrentIndex = some 0)) ∧
      ((event.text = [] ∨ wordUnderCursor host (structuralHandling host w event) = []) →
        (keyPressEvent host w event).1.popupVisible = false) := by
  have hkp : (keyPressEvent host w event).1 =
      secondRefresh host (firstRefresh host (structuralHandling host w event) event) event := by
    unfold keyPressEvent
    rw [if_neg hnot]
  rw [hkp]
  constructor
  · intro ht hw
    rw [refresh_word host _ event ht hw]
    refine ⟨rfl, rfl, ?_⟩
    intro hc
    simp [hc]
  · intro h
    by_cases ht : event.text = []
    · rw [refresh_no_text host _ event ht]; rfl
    · rcases h with h | h
      · exact absurd h ht
      · rw [refresh_no_word host _ event ht h]; rfl

/-- Witness of claim C16 as amended: typing `o` after `v` makes `vo` the prefix, with the list
shown. -/
theorem completion_refresh_after_key_witness :
    (keyPressEvent exampleHost ⟨"v".toList, 1, 1, "v".toList, true, none, 12⟩
        ⟨Key.other 79, NoModifier, "o".toList⟩).1.completionPrefix = "vo".toList ∧
      (keyPressEvent exampleHost ⟨"v".toList, 1, 1, "v".toList, true, none, 12⟩
        ⟨Key.other 79, NoModifier, "o".toList⟩).1.popupVisible = true :=
  have h := (completion_refresh_after_key exampleHost ⟨"v".toList, 1, 1, "v".toList, true, none, 12⟩
    ⟨Key.other 79, NoModifier, "o".toList⟩ (by decide)).1 (by decide) (by decide)
  ⟨h.1.trans (by decide), h.2.1.trans (by decide)⟩

/-- Counterexample to claim C16 as stated: with `vo` in the buffer and the caret after it, a
press of the left arrow key, which carries no text, is handled by `keyPressEvent`; the word
under the caret is `vo`, which is nonempty, but the suggestion list is hidden. -/
theorem completion_refresh_counterexample :
    ¬ (typingEditor.popupVisible = true ∧ isPopupKey leftArrowEvent.key = true) ∧
      wordUnderCursor exampleHost (structuralHandling exampleHost typingEditor leftArrowEvent) =
        "vo".toList ∧
      (keyPressEvent exampleHost typingEditor leftArrowEvent).1.popupVisible = false := by
  decide


/-- In the range of positive `int` values below `INT_MAX` the sum `s + 1` does not wrap. -/
theorem wrapInt_succ (s : Int) (h1 : 1 ≤ s) (h2 : s < INT_MAX) : wrapInt (s + 1) = s + 1 := by
  unfold INT_MAX at h2
  unfold wrapInt
  omega

/-- The sum `INT_MAX + 1` wraps to the least `int`. -/
theorem wrapInt_max : wrapInt (INT_MAX + 1) = -2147483648 := by
  decide

/-- For a positive `int` the difference `s - 1` does not wrap. -/
theorem wrapInt_pred (s : Int) (h1 : 1 ≤ s) (h2 : s ≤ INT_MAX) : wrapInt (s - 1) = s - 1 := by
  unfold INT_MAX at h2
  unfold wrapInt
  omega

/-- Claim C19, as the code has it. For every current font point size `s` of type `int` with
`s ≥ 1` and every wheel event: when the modifiers are exactly Ctrl, a scroll up gives the size
`s + 1`, except that the size `INT_MAX` stays as it is; a scroll down, and also an event
without vertical delta, gives `s - 1`, except that a size of `1` stays `1`; the resulting size
is at least `1` and at most `INT_MAX`, and the event is not passed on for scrolling. When the
modifiers are not exactly Ctrl, the widget is unchanged and the event is handled as ordinary
scrolling. -/
theorem wheel_zoom_changes_size_by_one (w : AutoIndentTextEdit) (event : QWheelEvent)
    (hs : 1 ≤ w.fontPointSize) (hmax : w.fontPointSize ≤ INT_MAX) :
    (event.modifiers = ControlModifier → event.angleDeltaY > 0 →
      (wheelEvent w event).1.fontPointSize =
        if w.fontPointSize < INT_MAX then w.fontPointSize + 1 else w.fontPointSize) ∧
    (event.modifiers = ControlModifier → event.angleDeltaY ≤ 0 →
      (wheelEvent w event).1.fontPointSize = max 1 (w.fontPointSize - 1)) ∧
    (event.modifiers = ControlModifier →
      1 ≤ (wheelEvent w event).1.fontPointSize ∧
        (wheelEvent w event).1.fontPointSize ≤ INT_MAX ∧ (wheelEvent w event).2 = false) ∧
    (event.modifiers ≠ ControlModifier → wheelEvent w event = (w, true)) := by
  have hup : ∀ hd : event.angleDeltaY > 0, event.modifiers = ControlModifier →
      (wheelEvent w event).1.fontPointSize =
        if w.fontPointSize < INT_MAX then w.fontPointSize + 1 else w.fontPointSize := by
    intro hd hm
    by_cases hlt : w.fontPointSize < INT_MAX
    · have h1 : ¬ (w.fontPointSize + 1 ≤ 0) := by omega
      simp only [wheelEvent, hm, hd, if_true, wrapInt_succ _ hs hlt, setPointSize, h1, if_false,
        hlt]
    · have heq : w.fontPointSize = INT_MAX := by omega
      simp only [wheelEvent, hm, hd, if_true, heq, wrapInt_max, setPointSize, hlt]
      decide
  have hdown : ∀ hd : ¬ (event.angleDeltaY > 0), event.modifiers = ControlModifier →
      (wheelEvent w event).1.fontPointSize = max 1 (w.fontPointSize - 1) := by
    intro hd hm
    by_cases h1 : w.fontPointSize > 1
    · have h2 : ¬ (w.fontPointSize - 1 ≤ 0) := by omega
      have h3 : max 1 (w.fontPointSize - 1) = w.fontPointSize - 1 := by omega
      simp only [wheelEvent, hm, hd, h1, if_true, if_false, wrapInt_pred _ hs hmax,
        setPointSize, h2, h3]
    · have h3 : max 1 (w.fontPointSize - 1) = w.fontPointSize := by omega
      simp only [wheelEvent, hm, hd, h1, if_true, if_false, h3]
  refine ⟨fun hm hd => hup hd hm, fun hm hd => hdown (by omega) hm, ?_, ?_⟩
  · intro hm
    have hpass : (wheelEvent w event).2 = false := by
      unfold wheelEvent
      rw [if_pos hm]
      split <;> rfl
    by_cases hd : event.angleDeltaY > 0
    · rw [hup hd hm]
      refine ⟨?_, ?_, hpass⟩
      · split <;> omega
      · split <;> omega
    · rw [hdown hd hm]
      exact ⟨by omega, by omega, hpass⟩
  · intro hm
    simp [wheelEvent, hm]

/-- Witness of claim C19 as amended: at size `1` a Ctrl scroll down leaves the size `1`, and at
size `12` a Ctrl scroll up gives `13`. -/
theorem wheel_zoom_changes_size_by_one_witness :
    (wheelEvent ⟨[], 0, 0, [], false, none, 1⟩ ⟨ControlModifier, -120⟩).1.fontPointSize = 1 ∧
      (wheelEvent ⟨[], 0, 0, [], false, none, 12⟩ ⟨ControlModifier, 120⟩).1.fontPointSize = 13 :=
  ⟨((wheel_zoom_changes_size_by_one ⟨[], 0, 0, [], false, none, 1⟩ ⟨ControlModifier, -120⟩
      (by decide) (by decide)).2.1 rfl (by decide)).trans (by decide),
    ((wheel_zoom_changes_size_by_one ⟨[], 0, 0, [], false, none, 12⟩ ⟨ControlModifier, 120⟩
      (by decide) (by decide)).1 rfl (by decide)).trans (by decide)⟩

/-- Counterexample to claim C19 as stated: at the point size `2147483647`, the largest `int`,
a Ctrl scroll up leaves the size as it is: the sum `font.pointSize() + 1` wraps to a negative
`int`, which `setPointSize` refuses. The claim has the size `s + 1`. -/
theorem wheel_zoom_counterexample :
    (1 : Int) ≤ 2147483647 ∧
      (wheelEvent ⟨[], 0, 0, [], false, none, 2147483647⟩
        ⟨ControlModifier, 120⟩).1.fontPointSize = 2147483647 ∧
      (wheelEvent ⟨[], 0, 0, [], false, none, 2147483647⟩
        ⟨ControlModifier, 120⟩).1.fontPointSize ≠ 2147483647 + 1 := by
  decide


/-! ## The candidate word list: claim C18 -/

theorem char_eq_of_toNat_eq {a b : Char} (h : a.toNat = b.toNat) : a = b := by
  have := congrArg Char.ofNat h
  simpa using this

/-- Between two texts that start with `p`, in lexicographic order, every text starts with
`p`. -/
theorem isPrefixOf_convex (p : QString) :
    ∀ a b c : QString, lexLt a b = true → lexLt b c = true →
      p.isPrefixOf a = true → p.isPrefixOf c = true → p.isPrefixOf b = true := by
  induction p with
  | nil => intro a b c _ _ _ _; simp
  | cons x p ih =>
    intro a b c hab hbc hpa hpc
    cases a with
    | nil => simp at hpa
    | cons xa a =>
      cases c with
      | nil => simp at hpc
      | cons xc c =>
        cases b with
        | nil => simp [lexLt] at hab
        | cons y b =>
          simp only [List.isPrefixOf_cons₂, Bool.and_eq_true, beq_iff_eq] at hpa hpc
          obtain ⟨hxa, hpa⟩ := hpa
          obtain ⟨hxc, hpc⟩ := hpc
          subst hxa; subst hxc
          simp only [lexLt, Bool.or_eq_true, Bool.and_eq_true, decide_eq_true_eq] at hab hbc
          have hxy : x.toNat = y.toNat := by
            rcases hab with h1 | ⟨h1, _⟩ <;> rcases hbc with h2 | ⟨h2, _⟩ <;> omega
          have hxy' : x = y := char_eq_of_toNat_eq hxy
          subst hxy'
          have hab' : lexLt a b = true := by
            rcases hab with h1 | ⟨_, h1⟩
            · omega
            · exact h1
          have hbc' : lexLt b c = true := by
            rcases hbc with h1 | ⟨_, h1⟩
            · omega
            · exact h1
          simp only [List.isPrefixOf_cons₂, Bool.and_eq_true, beq_iff_eq, true_and]
          exact ih a b c hab' hbc' hpa hpc

/-- In a list that is ascending for an order, the elements that satisfy a predicate which is
convex for the order stand next to each other. -/
theorem filter_contiguous {α : Type} (lt : α → α → Prop) (m : α → Bool)
    (hconv : ∀ a b c, lt a b → lt b c → m a = true → m c = true → m b = true) :
    ∀ l : List α, l.Pairwise lt →
      ∃ pre post, l = pre ++ l.filter m ++ post ∧
        (∀ x ∈ pre, m x = false) ∧ (∀ x ∈ post, m x = false) := by
  intro l
  induction l with
  | nil => intro _; exact ⟨[], [], rfl, by simp, by simp⟩
  | cons x xs ih =>
    intro hp
    rw [List.pairwise_cons] at hp
    obtain ⟨hx, hxs⟩ := hp
    obtain ⟨pre, post, heq, hpre, hpost⟩ := ih hxs
    cases hm : m x with
    | false =>
      refine ⟨x :: pre, post, ?_, ?_, hpost⟩
      · rw [List.filter_cons_of_neg (by simp [hm])]
        simp only [List.cons_append]
        rw [← heq]
      · intro y hy
        rcases List.mem_cons.1 hy with h | h
        · rw [h]; exact hm
        · exact hpre y h
    | true =>
      rw [List.filter_cons_of_pos hm]
      cases hf : xs.filter m with
      | nil =>
        refine ⟨[], pre ++ post, ?_, by simp, ?_⟩
        · rw [hf] at heq
          simp only [List.append_nil] at heq
          simp [← heq]
        · intro y hy
          rcases List.mem_append.1 hy with h | h
          · exact hpre y h
          · exact hpost y h
      | cons z zs =>
        cases pre with
        | nil =>
          refine ⟨[], post, ?_, by simp, hpost⟩
          rw [hf] at heq
          simp only [List.nil_append] at heq ⊢
          rw [List.cons_append, ← heq]
        | cons y ys =>
          exfalso
          have hy : m y = false := hpre y (List.mem_cons_self _ _)
          have hzmem : z ∈ xs.filter m := by rw [hf]; exact List.mem_cons_self _ _
          have hz : m z = true := (List.mem_filter.1 hzmem).2
          have hxy : lt x y := hx y (by rw [heq]; simp)
          have hyz : lt y z := by
            rw [heq, hf] at hxs
            have h1 := (List.pairwise_append.1 hxs).1
            have h2 := (List.pairwise_append.1 h1).2.2
            exact h2 y (List.mem_cons_self _ _) z (List.mem_cons_self _ _)
          have := hconv x y z hxy hyz hm hz
          rw [hy] at this
          cases this

theorem wordList_sorted :
    wordList.Pairwise (fun a b => lessCaseInsensitive a b = true) := by
  decide!

/-- The candidates for a prefix stand next to each other in the word list, in sorted order. -/
theorem completions_contiguous (p : QString) :
    ∃ pre post, wordList = pre ++ completions p ++ post ∧
      (∀ w ∈ pre, matchesPrefix p w = false) ∧ (∀ w ∈ post, matchesPrefix p w = false) ∧
      (completions p).Pairwise (fun a b => lessCaseInsensitive a b = true) := by
  obtain ⟨pre, post, h1, h2, h3⟩ :=
    filter_contiguous (fun a b => lessCaseInsensitive a b = true) (matchesPrefix p)
      (fun a b c hab hbc ha hc =>
        isPrefixOf_convex (foldCase p) _ _ _ hab hbc ha hc)
      wordList wordList_sorted
  exact ⟨pre, post, h1, h2, h3, wordList_sorted.filter _⟩

/-- Claim C18. The fixed candidate word list installed in the completer is strictly ascending
under case-insensitive comparison; hence for every prefix `p` the candidates that start with
`p` case-insensitively form a contiguous, case-insensitively sorted part of the list; and for
the prefix `vo` in any letter case that part is exactly `void`, `volatile`. -/
theorem word_list_sorted_case_insensitively :
    wordList.Pairwise (fun a b => lessCaseInsensitive a b = true) ∧
      (∀ p : QString, ∃ pre post, wordList = pre ++ completions p ++ post ∧
        (∀ w ∈ pre, matchesPrefix p w = false) ∧ (∀ w ∈ post, matchesPrefix p w = false) ∧
        (completions p).Pairwise (fun a b => lessCaseInsensitive a b = true)) ∧
      (∀ p ∈ ["vo", "vO", "Vo", "VO"], completions p.toList = ["void", "volatile"]) :=
  ⟨wordList_sorted, completions_contiguous, by decide⟩


/-! ## Determinism: claim C20 -/

/-- Claim C20. The method `highlightBlock` is deterministic: for all line texts `T` and
previous states `S`, two runs on `(T, S)`, whatever state earlier runs left on the block, apply
the same ordered list of spans and set the same state; the result is the one of `highlightBlock`
on `(T, S)` with the rule table of the constructor, and every run returns. -/
theorem highlightBlock_deterministic (T : QString) (S : Int) (old1 old2 : Int) :
    highlighter.highlightBlockFrom old1 T S = highlighter.highlightBlockFrom old2 T S ∧
      highlighter.highlightBlockFrom old1 T S = highlightBlock T S ∧
      ∃ r, highlightBlock T S = some r := by
  obtain ⟨r, hr, _⟩ := highlightBlock_total T S
  refine ⟨?_, ?_, r, hr⟩
  · rw [highlightBlockFrom_unfold, highlightBlockFrom_unfold]
  · unfold highlightBlock
    rw [highlightBlockFrom_unfold, highlightBlock_unfold]

/-! ## Shape of the block comment spans -/

/-- The spans of the reference scan from offset `k` start at or after `k`, have a length of
at least two, end within the text, and each ends before the next starts, so that the starts
increase strictly. -/
theorem referenceScan_bounds (text : QString) :
    ∀ (fuel k : Nat) (spans : List (Nat × Nat)) (terminated : Bool),
      referenceScan text fuel k = some (spans, terminated) →
      (∀ sp ∈ spans, k ≤ sp.1 ∧ 2 ≤ sp.2 ∧ sp.1 + sp.2 ≤ text.length) ∧
        spans.Pairwise (fun a b => a.1 + a.2 ≤ b.1 ∧ a.1 < b.1) := by
  intro fuel
  induction fuel with
  | zero =>
    intro k spans terminated h
    unfold referenceScan at h
    cases hs : firstToken '/' '*' text k with
    | none =>
      rw [hs] at h
      simp only [Option.some.injEq, Prod.mk.injEq] at h
      obtain ⟨h1, _⟩ := h
      subst h1
      exact ⟨fun sp hsp => (by cases hsp), List.Pairwise.nil⟩
    | some s =>
      rw [hs] at h
      simp at h
  | succ fuel ih =>
    intro k spans terminated h
    unfold referenceScan at h
    cases hs : firstToken '/' '*' text k with
    | none =>
      rw [hs] at h
      simp only [Option.some.injEq, Prod.mk.injEq] at h
      obtain ⟨h1, _⟩ := h
      subst h1
      exact ⟨fun sp hsp => (by cases hsp), List.Pairwise.nil⟩
    | some s =>
      rw [hs] at h
      simp only at h
      obtain ⟨hks, htok, _⟩ := (firstToken_eq_some_iff _ _ _ _ _).1 hs
      have hlen := tokenAt_lt_length htok
      cases he : firstToken '*' '/' text s with
      | none =>
        rw [he] at h
        simp only [Option.some.injEq, Prod.mk.injEq] at h
        obtain ⟨h1, _⟩ := h
        subst h1
        refine ⟨?_, List.pairwise_singleton _ _⟩
        intro sp hsp
        simp only [List.mem_singleton] at hsp
        subst hsp
        exact ⟨hks, (by simp only []; omega), (by simp only []; omega)⟩
      | some e =>
        rw [he] at h
        simp only [Option.map_eq_some'] at h
        obtain ⟨⟨spans0, term0⟩, hr, heq⟩ := h
        simp only [Prod.mk.injEq] at heq
        obtain ⟨h1, _⟩ := heq
        subst h1
        obtain ⟨hse, hetok, _⟩ := (firstToken_eq_some_iff _ _ _ _ _).1 he
        have helen := tokenAt_lt_length hetok
        obtain ⟨hb, hp⟩ := ih (e + 2) spans0 term0 hr
        refine ⟨?_, ?_⟩
        · intro sp hsp
          rcases List.mem_cons.1 hsp with h1 | h1
          · subst h1
            exact ⟨hks, (by simp only []; omega), (by simp only []; omega)⟩
          · obtain ⟨b1, b2, b3⟩ := hb sp h1
            exact ⟨(by omega), b2, b3⟩
        · rw [List.pairwise_cons]
          refine ⟨?_, hp⟩
          intro sp hsp
          obtain ⟨b1, _, _⟩ := hb sp hsp
          constructor
          · simp only []
            omega
          · simp only []
            omega

/-- The reference scan reports an unterminated comment exactly when its last span has no end
token; all spans before the last have one. -/
theorem referenceScan_terminated (text : QString) :
    ∀ (fuel k : Nat) (spans : List (Nat × Nat)) (terminated : Bool),
      referenceScan text fuel k = some (spans, terminated) →
      (terminated = true → ∀ sp ∈ spans, firstToken '*' '/' text sp.1 ≠ none) ∧
        (terminated = false → ∃ init sp, spans = init ++ [sp] ∧
          firstToken '*' '/' text sp.1 = none ∧
          ∀ x ∈ init, firstToken '*' '/' text x.1 ≠ none) := by
  intro fuel
  induction fuel with
  | zero =>
    intro k spans terminated h
    unfold referenceScan at h
    cases hs : firstToken '/' '*' text k with
    | none =>
      rw [hs] at h
      simp only [Option.some.injEq, Prod.mk.injEq] at h
      obtain ⟨h1, h2⟩ := h
      subst h1; subst h2
      exact ⟨fun _ sp hsp => (by cases hsp), fun hf => (by cases hf)⟩
    | some s =>
      rw [hs] at h
      simp at h
  | succ fuel ih =>
    intro k spans terminated h
    unfold referenceScan at h
    cases hs : firstToken '/' '*' text k with
    | none =>
      rw [hs] at h
      simp only [Option.some.injEq, Prod.mk.injEq] at h
      obtain ⟨h1, h2⟩ := h
      subst h1; subst h2
      exact ⟨fun _ sp hsp => (by cases hsp), fun hf => (by cases hf)⟩
    | some s =>
      rw [hs] at h
      simp only at h
      cases he : firstToken '*' '/' text s with
      | none =>
        rw [he] at h
        simp only [Option.some.injEq, Prod.mk.injEq] at h
        obtain ⟨h1, h2⟩ := h
        subst h1; subst h2
        refine ⟨fun hf => (by cases hf), fun _ => ⟨[], (s, text.length - s), rfl, he, ?_⟩⟩
        intro x hx
        cases hx
      | some e =>
        rw [he] at h
        simp only [Option.map_eq_some'] at h
        obtain ⟨⟨spans0, term0⟩, hr, heq⟩ := h
        simp only [Prod.mk.injEq] at heq
        obtain ⟨h1, h2⟩ := heq
        subst h1; subst h2
        obtain ⟨ht, hf⟩ := ih (e + 2) spans0 term0 hr
        have hhead : firstToken '*' '/' text s ≠ none := by rw [he]; simp
        refine ⟨?_, ?_⟩
        · intro htrue sp hsp
          rcases List.mem_cons.1 hsp with h1 | h1
          · subst h1; exact hhead
          · exact ht htrue sp h1
        · intro hfalse
          obtain ⟨init, sp, h1, h2, h3⟩ := hf hfalse
          refine ⟨(s, e + 2 - s) :: init, sp, (by rw [h1]; rfl), h2, ?_⟩
          intro x hx
          rcases List.mem_cons.1 hx with h4 | h4
          · subst h4; exact hhead
          · exact h3 x h4

/-- The block comment spans of one line, for every previous state: `highlightBlock` returns, its
calls of `setFormat` are those of the rule pass followed by one call per comment span, every span
ends within the text and is empty only on the empty line with previous state `1`, the spans lie
one after the other, the state is `0` when every span has an end token, and otherwise the state
is `1` and the last span is the only one without an end token. -/
theorem highlightBlock_comment_spans (text : QString) (p : Int) :
    ∃ (spans : List (Nat × Nat)) (terminated : Bool),
      highlightBlock text p =
        some ⟨ruleFormats highlighter.highlightingRules text ++
          spans.map (commentRange highlighter), if terminated then 0 else 1⟩ ∧
      (∀ sp ∈ spans, sp.1 + sp.2 ≤ text.length ∧ (sp.2 = 0 → text = [] ∧ p = 1)) ∧
      spans.Pairwise (fun a b => a.1 + a.2 ≤ b.1 ∧ a.1 < b.1) ∧
      (terminated = true → ∀ sp ∈ spans, firstToken '*' '/' text sp.1 ≠ none) ∧
      (terminated = false → ∃ init sp, spans = init ++ [sp] ∧
        firstToken '*' '/' text sp.1 = none ∧
        ∀ x ∈ init, firstToken '*' '/' text x.1 ≠ none) := by
  by_cases hp : p = 1
  · subst hp
    cases hend : firstToken '*' '/' text 0 with
    | none =>
      refine ⟨[(0, text.length)], false, highlightBlock_inside_open text hend, ?_,
        List.pairwise_singleton _ _, fun h => (by cases h),
        fun _ => ⟨[], (0, text.length), rfl, hend, fun x hx => (by cases hx)⟩⟩
      intro sp hsp
      simp only [List.mem_singleton] at hsp
      subst hsp
      refine ⟨by simp, fun h0 => ⟨List.length_eq_zero.1 h0, rfl⟩⟩
    | some e =>
      obtain ⟨⟨spans, terminated⟩, hr⟩ := referenceScan_isSome text text.length (e + 2) (by omega)
      obtain ⟨hb, hpw⟩ := referenceScan_bounds text _ _ spans terminated hr
      obtain ⟨ht, hf⟩ := referenceScan_terminated text _ _ spans terminated hr
      obtain ⟨_, hetok, _⟩ := (firstToken_eq_some_iff _ _ _ _ _).1 hend
      have helen := tokenAt_lt_length hetok
      have hhead : firstToken '*' '/' text 0 ≠ none := by rw [hend]; simp
      refine ⟨(0, e + 2) :: spans, terminated,
        highlightBlock_inside_closed text e hend spans terminated hr, ?_, ?_, ?_, ?_⟩
      · intro sp hsp
        rcases List.mem_cons.1 hsp with h1 | h1
        · subst h1
          exact ⟨(by simp only []; omega), fun h0 => (by simp only [] at h0; omega)⟩
        · obtain ⟨_, b2, b3⟩ := hb sp h1
          exact ⟨b3, fun h0 => (by omega)⟩
      · rw [List.pairwise_cons]
        refine ⟨?_, hpw⟩
        intro sp hsp
        obtain ⟨b1, _, _⟩ := hb sp hsp
        constructor
        · simp only []
          omega
        · simp only []
          omega
      · intro htrue sp hsp
        rcases List.mem_cons.1 hsp with h1 | h1
        · subst h1; exact hhead
        · exact ht htrue sp h1
      · intro hfalse
        obtain ⟨init, sp, h1, h2, h3⟩ := hf hfalse
        refine ⟨(0, e + 2) :: init, sp, (by rw [h1]; rfl), h2, ?_⟩
        intro x hx
        rcases List.mem_cons.1 hx with h4 | h4
        · subst h4; exact hhead
        · exact h3 x h4
  · obtain ⟨⟨spans, terminated⟩, hr⟩ := referenceScan_isSome text (text.length + 1) 0 (by omega)
    obtain ⟨hb, hpw⟩ := referenceScan_bounds text _ _ spans terminated hr
    obtain ⟨ht, hf⟩ := referenceScan_terminated text _ _ spans terminated hr
    refine ⟨spans, terminated, highlightBlock_of_referenceScan text p hp spans terminated hr,
      ?_, hpw, ht, hf⟩
    intro sp hsp
    obtain ⟨_, b2, b3⟩ := hb sp hsp
    exact ⟨b3, fun h0 => (by omega)⟩

/-- One more unit of fuel does not change a result of the comment loop. -/
theorem commentLoop_succ (self : DraculaCppSyntaxHighlighter) (text : QString) :
    ∀ (fuel : Nat) (startIndex : Int) (st r : BlockResult),
      commentLoop self text fuel startIndex st = some r →
      commentLoop self text (fuel + 1) startIndex st = some r := by
  intro fuel
  induction fuel with
  | zero =>
    intro startIndex st r h
    unfold commentLoop at h
    by_cases hs : startIndex ≥ 0
    · rw [if_pos hs] at h; cases h
    · rw [if_neg hs] at h
      unfold commentLoop
      rw [if_neg hs]
      exact h
  | succ fuel ih =>
    intro startIndex st r h
    rw [commentLoop] at h
    rw [commentLoop]
    by_cases hs : startIndex ≥ 0
    · rw [if_pos hs] at h
      rw [if_pos hs]
      exact ih _ _ _ h
    · rw [if_neg hs] at h
      rw [if_neg hs]
      exact h

/-- More fuel does not change a result of the comment loop. -/
theorem commentLoop_mono (self : DraculaCppSyntaxHighlighter) (text : QString)
    (fuel extra : Nat) (startIndex : Int) (st r : BlockResult)
    (h : commentLoop self text fuel startIndex st = some r) :
    commentLoop self text (fuel + extra) startIndex st = some r := by
  induction extra with
  | zero => exact h
  | succ extra ih => exact commentLoop_succ self text (fuel + extra) startIndex st r ih

/-- The comment loop of the installed highlighter gives the result of `highlightBlock` on every
amount of fuel above the length of the text. -/
theorem commentLoop_enough_fuel (text : QString) (p : Int) (r : BlockResult)
    (h : highlightBlock text p = some r) (fuel : Nat) (hfuel : text.length < fuel) :
    commentLoop highlighter text fuel
      (if p ≠ 1 then indexOf text highlighter.commentStartExpression 0 else 0)
      ⟨ruleFormats highlighter.highlightingRules text, 0⟩ = some r := by
  unfold highlightBlock at h
  rw [highlightBlock_unfold] at h
  have hm := commentLoop_mono highlighter text (text.length + 1) (fuel - (text.length + 1)) _ _ r h
  have hf : text.length + 1 + (fuel - (text.length + 1)) = fuel := by omega
  rw [hf] at hm
  exact hm

/-- When `/*` at offset `s` is followed at once by `/`, the first end token at or after `s` is
at `s + 1`: it shares the `*` of the start token. -/
theorem firstToken_shared_star (text : QString) (s : Nat)
    (hstart : tokenAt '/' '*' text s) (hslash : text[s + 2]? = some '/') :
    firstToken '*' '/' text s = some (s + 1) := by
  rw [firstToken_eq_some_iff]
  refine ⟨Nat.le_succ s, ⟨hstart.2, hslash⟩, ?_⟩
  intro j h1 h2 htok
  have hj : j = s := by omega
  subst hj
  have h3 := htok.1
  rw [hstart.1] at h3
  exact absurd h3 (by decide)

/-- One run of the loop body at a start token that is followed at once by `/`: the span has
length three and the state is kept. -/
theorem commentLoop_shared_star {self : DraculaCppSyntaxHighlighter}
    (hself : HasCommentTokens self) (text : QString) (fuel s : Nat) (st : BlockResult)
    (hstart : tokenAt '/' '*' text s) (hslash : text[s + 2]? = some '/') :
    commentLoop self text (fuel + 1) (s : Int) st =
      commentLoop self text fuel
        (indexOf text self.commentStartExpression ((s + 3 : Nat) : Int))
        ⟨st.formats ++ [commentRange self (s, 3)], st.currentBlockState⟩ := by
  have h := commentLoop_closed hself text fuel s (s + 1) st
    (firstToken_shared_star text s hstart hslash)
  have h3 : s + 1 + 2 - s = 3 := by omega
  rw [h3] at h
  exact h

/-- A line whose first start token is followed at once by `/`, highlighted with a previous
state other than `1`: the first comment span has length three and the scan goes on behind
it. -/
theorem highlightBlock_shared_star (text : QString) (p : Int) (s : Nat) (hp : p ≠ 1)
    (hstart : tokenAt '/' '*' text s) (hslash : text[s + 2]? = some '/')
    (hfirst : ∀ j, j < s → ¬ tokenAt '/' '*' text j) :
    ∃ (spans : List (Nat × Nat)) (terminated : Bool),
      referenceScan text text.length (s + 3) = some (spans, terminated) ∧
      highlightBlock text p =
        some ⟨ruleFormats highlighter.highlightingRules text ++
          (commentRange highlighter (s, 3) :: spans.map (commentRange highlighter)),
          if terminated then 0 else 1⟩ := by
  obtain ⟨⟨spans, terminated⟩, hr⟩ := referenceScan_isSome text text.length (s + 3) (by omega)
  refine ⟨spans, terminated, hr, ?_⟩
  have hs0 : firstToken '/' '*' text 0 = some s :=
    (firstToken_eq_some_iff _ _ _ _ _).2 ⟨Nat.zero_le s, hstart, fun j _ hj => hfirst j hj⟩
  have hidx : indexOf text highlighter.commentStartExpression 0 = (s : Int) := by
    have h := indexOf_commentStart highlighter_hasCommentTokens text 0
    rw [hs0] at h
    exact h
  unfold highlightBlock
  rw [highlightBlock_unfold, if_pos hp, hidx,
    commentLoop_shared_star highlighter_hasCommentTokens text text.length s _ hstart hslash]
  have hloop := commentLoop_reference highlighter_hasCommentTokens text text.length (s + 3)
    ⟨ruleFormats highlighter.highlightingRules text ++ [commentRange highlighter (s, 3)], 0⟩
    spans terminated hr
  simp only [List.append_assoc, List.singleton_append] at hloop
  exact hloop

/-! ## Block comments: claims C22 and C24 to C27 -/

/-- Claim C22. For every line text `T` highlighted with previous state `IN_BLOCK_COMMENT`: when
`T` has no end token, the only comment span is `(0, |T|)` and the state stays
`IN_BLOCK_COMMENT`; when the first end token at or after offset `0` is at `e`, the first span
is `(0, e + 2)`, running through the end token inclusive, and the other spans are those of the
reference scan from offset `e + 2`, all starting at or after `e + 2`: a start token before the
first end token begins no span of its own, and a start token found behind the first span is a
new comment start. On `x */ y /* z` the spans are `(0, 4)` and `(7, 4)` and the next state is
`IN_BLOCK_COMMENT`. -/
theorem continuation_line_comment_spans (T : QString) :
    (firstToken '*' '/' T 0 = none →
      highlightBlock T IN_BLOCK_COMMENT =
        some ⟨ruleFormats highlighter.highlightingRules T ++
          [commentRange highlighter (0, T.length)], IN_BLOCK_COMMENT⟩) ∧
    (∀ e, firstToken '*' '/' T 0 = some e →
      ∃ (spans : List (Nat × Nat)) (terminated : Bool),
        referenceScan T T.length (e + 2) = some (spans, terminated) ∧
        (∀ sp ∈ spans, e + 2 ≤ sp.1) ∧
        highlightBlock T IN_BLOCK_COMMENT =
          some ⟨ruleFormats highlighter.highlightingRules T ++
            (commentRange highlighter (0, e + 2) :: spans.map (commentRange highlighter)),
            if terminated then NORMAL else IN_BLOCK_COMMENT⟩) ∧
    highlightBlock "x */ y /* z".toList IN_BLOCK_COMMENT =
      some ⟨ruleFormats highlighter.highlightingRules "x */ y /* z".toList ++
        [commentRange highlighter (0, 4), commentRange highlighter (7, 4)],
        IN_BLOCK_COMMENT⟩ := by
  refine ⟨fun hend => highlightBlock_inside_open T hend, ?_,
    highlightBlock_inside_closed _ 2 (by decide) [(7, 4)] false (by decide)⟩
  intro e hend
  obtain ⟨⟨spans, terminated⟩, hr⟩ := referenceScan_isSome T T.length (e + 2) (by omega)
  exact ⟨spans, terminated, hr,
    fun sp hsp => ((referenceScan_bounds T _ _ spans terminated hr).1 sp hsp).1,
    highlightBlock_inside_closed T e hend spans terminated hr⟩

/-- Witness of claim C22: on `a /* b */ c /* d` the first end token is at offset `7`, so the
first span is `(0, 9)`, and the start token at offset `2` begins no span. -/
theorem continuation_line_comment_spans_witness :
    firstToken '*' '/' "a /* b */ c /* d".toList 0 = some 7 ∧
      ∃ (spans : List (Nat × Nat)) (terminated : Bool),
        referenceScan "a /* b */ c /* d".toList 16 9 = some (spans, terminated) ∧
        (∀ sp ∈ spans, 9 ≤ sp.1) ∧
        highlightBlock "a /* b */ c /* d".toList IN_BLOCK_COMMENT =
          some ⟨ruleFormats highlighter.highlightingRules "a /* b */ c /* d".toList ++
            (commentRange highlighter (0, 9) :: spans.map (commentRange highlighter)),
            if terminated then NORMAL else IN_BLOCK_COMMENT⟩ :=
  ⟨by decide, (continuation_line_comment_spans "a /* b */ c /* d".toList).2.1 7 (by decide)⟩

/-- Claim C24. For every line text `T` and every integer `s` other than `1`, in particular `-1`
and `0`, `highlightBlock(T, s)` gives the same calls of `setFormat` and the same block state as
`highlightBlock(T, 0)`; and on every input `highlightBlock` returns with the block state `0`
or `1`. -/
theorem previous_state_only_one_is_distinguished (T : QString) (s : Int) (hs : s ≠ 1) :
    highlightBlock T s = highlightBlock T 0 ∧
      ∀ p : Int, ∃ r, highlightBlock T p = some r ∧
        (r.currentBlockState = NORMAL ∨ r.currentBlockState = IN_BLOCK_COMMENT) := by
  constructor
  · unfold highlightBlock
    rw [highlightBlock_unfold, highlightBlock_unfold, if_pos hs, if_pos (by decide)]
  · intro p
    exact highlightBlock_total T p

/-- Witness of claim C24: the line `a /* b` gets the same result with previous state `-1`, the
state reported for the first block of a document, as with previous state `0`. -/
theorem previous_state_only_one_is_distinguished_witness :
    (-1 : Int) ≠ 1 ∧ highlightBlock "a /* b".toList (-1) = highlightBlock "a /* b".toList 0 :=
  ⟨by decide, (previous_state_only_one_is_distinguished "a /* b".toList (-1) (by decide)).1⟩

/-- Claim C25. The search for the end token starts at the offset of the start token, so the
end token may share the `*` of the start token. For every line `T` with `/*` at offset `s`
followed at once by `/`: whenever the loop body runs with `startIndex = s`, it applies the span
`(s, 3)`, keeps the block state (the comment is terminated) and searches the next start token
from offset `s + 3`; when this start token is the first of the line and the previous state is
not `IN_BLOCK_COMMENT`, the first span of the line is `(s, 3)`. The line `/*/` with previous
state `NORMAL` gets the single span `(0, 3)` and the state `NORMAL`. -/
theorem end_token_may_share_star (T : QString) (s : Nat)
    (hstart : tokenAt '/' '*' T s) (hslash : T[s + 2]? = some '/') :
    (∀ (fuel : Nat) (st : BlockResult),
      commentLoop highlighter T (fuel + 1) (s : Int) st =
        commentLoop highlighter T fuel
          (indexOf T highlighter.commentStartExpression ((s + 3 : Nat) : Int))
          ⟨st.formats ++ [commentRange highlighter (s, 3)], st.currentBlockState⟩) ∧
    (∀ p : Int, p ≠ IN_BLOCK_COMMENT → (∀ j, j < s → ¬ tokenAt '/' '*' T j) →
      ∃ (spans : List (Nat × Nat)) (terminated : Bool),
        referenceScan T T.length (s + 3) = some (spans, terminated) ∧
        highlightBlock T p =
          some ⟨ruleFormats highlighter.highlightingRules T ++
            (commentRange highlighter (s, 3) :: spans.map (commentRange highlighter)),
            if terminated then NORMAL else IN_BLOCK_COMMENT⟩) ∧
    highlightBlock "/*/".toList NORMAL =
      some ⟨ruleFormats highlighter.highlightingRules "/*/".toList ++
        [commentRange highlighter (0, 3)], NORMAL⟩ :=
  ⟨fun fuel st =>
      commentLoop_shared_star highlighter_hasCommentTokens T fuel s st hstart hslash,
    fun p hp hfirst => highlightBlock_shared_star T p s hp hstart hslash hfirst,
    highlightBlock_of_referenceScan _ NORMAL (by decide) [(0, 3)] true (by decide)⟩

/-- Witness of claim C25: in `a /*/ b` the start token at offset `2` is followed by `/`; the
line gets the span `(2, 3)`, no further span, and the state `NORMAL`. -/
theorem end_token_may_share_star_witness :
    tokenAt '/' '*' "a /*/ b".toList 2 ∧ "a /*/ b".toList[2 + 2]? = some '/' ∧
      ∃ (spans : List (Nat × Nat)) (terminated : Bool),
        referenceScan "a /*/ b".toList 7 5 = some (spans, terminated) ∧
        highlightBlock "a /*/ b".toList NORMAL =
          some ⟨ruleFormats highlighter.highlightingRules "a /*/ b".toList ++
            (commentRange highlighter (2, 3) :: spans.map (commentRange highlighter)),
            if terminated then NORMAL else IN_BLOCK_COMMENT⟩ :=
  ⟨by decide, by decide,
    (end_token_may_share_star "a /*/ b".toList 2 (by decide) (by decide)).2.1 NORMAL
      (by decide) (by decide)⟩

/-- Claim C26. For every line text `T` and previous state, `highlightBlock` returns, and the
calls of `setFormat` it makes after the rule pass, one per block comment span, all carry the
member `multiLineCommentFormat` and satisfy `0 ≤ start`, `0 ≤ length` and
`start + length ≤ |T|`; each span ends at or before the start of every later one and the start
offsets increase strictly in call order; a span of length `0` occurs only for the empty line
with previous state `IN_BLOCK_COMMENT`, where it does occur. -/
theorem comment_spans_in_bounds_and_disjoint (T : QString) (p : Int) :
    (∃ (r : BlockResult) (comments : List FormatRange),
      highlightBlock T p = some r ∧
      r.formats = ruleFormats highlighter.highlightingRules T ++ comments ∧
      (∀ c ∈ comments, c.format = highlighter.multiLineCommentFormat ∧
        0 ≤ c.start ∧ 0 ≤ c.count ∧ c.start + c.count ≤ (T.length : Int) ∧
        (c.count = 0 → T = [] ∧ p = IN_BLOCK_COMMENT)) ∧
      comments.Pairwise (fun a b => a.start + a.count ≤ b.start ∧ a.start < b.start)) ∧
    highlightBlock [] IN_BLOCK_COMMENT =
      some ⟨ruleFormats highlighter.highlightingRules [] ++ [commentRange highlighter (0, 0)],
        IN_BLOCK_COMMENT⟩ := by
  refine ⟨?_, highlightBlock_inside_open [] rfl⟩
  obtain ⟨spans, terminated, hr, hb, hpw, _, _⟩ := highlightBlock_comment_spans T p
  refine ⟨_, spans.map (commentRange highlighter), hr, rfl, ?_, ?_⟩
  · intro c hc
    obtain ⟨sp, hsp, rfl⟩ := List.mem_map.1 hc
    obtain ⟨b1, b2⟩ := hb sp hsp
    refine ⟨rfl, Int.natCast_nonneg _, Int.natCast_nonneg _, ?_, ?_⟩
    · simp only [commentRange]
      omega
    · intro h0
      simp only [commentRange] at h0
      exact b2 (by omega)
  · rw [List.pairwise_map]
    refine hpw.imp ?_
    intro a b hab
    simp only [commentRange]
    omega

/-- Claim C27. The block comment loop of `highlightBlock` ends on every line text `T` and every
previous state: `highlightBlock` returns a result, and the loop gives that same result on every
amount of fuel above `|T|`, so it runs its body at most `|T| + 1` times. Each run of the loop
body applies one span `(startIndex, commentLength)`; the next search offset
`startIndex + commentLength` never exceeds `|T|` and is strictly greater than `startIndex`
unless `T` is empty; a span without end token is the last span applied; and the state is
`IN_BLOCK_COMMENT` exactly when the last span applied has no end token. -/
theorem comment_loop_terminates (T : QString) (p : Int) :
    ∃ (r : BlockResult) (spans : List (Nat × Nat)),
      highlightBlock T p = some r ∧
      (∀ fuel, T.length < fuel →
        commentLoop highlighter T fuel
          (if p ≠ 1 then indexOf T highlighter.commentStartExpression 0 else 0)
          ⟨ruleFormats highlighter.highlightingRules T, 0⟩ = some r) ∧
      r.formats = ruleFormats highlighter.highlightingRules T ++
        spans.map (commentRange highlighter) ∧
      (∀ sp ∈ spans, sp.1 + sp.2 ≤ T.length ∧ (T ≠ [] → sp.1 < sp.1 + sp.2)) ∧
      (∀ (init : List (Nat × Nat)) (sp : Nat × Nat) (rest : List (Nat × Nat)),
        spans = init ++ sp :: rest → firstToken '*' '/' T sp.1 = none → rest = []) ∧
      (r.currentBlockState = IN_BLOCK_COMMENT ↔
        ∃ sp, spans.getLast? = some sp ∧ firstToken '*' '/' T sp.1 = none) := by
  obtain ⟨spans, terminated, hr, hb, _, ht, hf⟩ := highlightBlock_comment_spans T p
  refine ⟨_, spans, hr, fun fuel hfuel => commentLoop_enough_fuel T p _ hr fuel hfuel, rfl,
    ?_, ?_, ?_⟩
  · intro sp hsp
    obtain ⟨b1, b2⟩ := hb sp hsp
    refine ⟨b1, fun hT => ?_⟩
    rcases Nat.eq_zero_or_pos sp.2 with h0 | h0
    · exact absurd (b2 h0).1 hT
    · omega
  · intro init sp rest hspans hnone
    cases terminated with
    | true =>
      exact absurd hnone (ht rfl sp (by rw [hspans]; simp))
    | false =>
      obtain ⟨init2, last, h1, _, h3⟩ := hf rfl
      rcases List.eq_nil_or_concat rest with hnil | ⟨rs, l, hrest⟩
      · exact hnil
      · exfalso
        have heq : (init ++ sp :: rs) ++ [l] = init2 ++ [last] := by
          rw [← h1, hspans, hrest]
          simp
        have hinit := (List.append_inj' heq rfl).1
        exact h3 sp (by rw [← hinit]; simp) hnone
  · cases terminated with
    | true =>
      constructor
      · intro h
        simp [IN_BLOCK_COMMENT] at h
      · rintro ⟨sp, hlast, hnone⟩
        exact absurd hnone (ht rfl sp (List.mem_of_getLast?_eq_some hlast))
    | false =>
      constructor
      · intro _
        obtain ⟨init2, last, h1, h2, _⟩ := hf rfl
        exact ⟨last, by rw [h1, List.getLast?_concat], h2⟩
      · intro _
        rfl

/-! ## The style of block comments: claim C21 -/

/-- The member `multiLineCommentFormat` of the installed highlighter is the default format: the
constructor does not assign it. -/
theorem highlighter_multiLineCommentFormat : highlighter.multiLineCommentFormat = {} := by
  unfold highlighter
  rfl

/-- Block comment spans are applied last and win: a character covered by a call of `setFormat`
of the comment loop ends with the member `multiLineCommentFormat`, whatever the rule pass
painted on it. -/
theorem comment_span_style (text : QString) (p : Int) (r : BlockResult)
    (h : highlightBlock text p = some r) (c : FormatRange)
    (hc : c ∈ r.formats.drop (ruleFormats highlighter.highlightingRules text).length)
    (j : Nat) (hj : c.covers (j : Int)) :
    styleAt text.length r.formats j = some highlighter.multiLineCommentFormat := by
  obtain ⟨spans, terminated, hr, hb, _, _, _⟩ := highlightBlock_comment_spans text p
  rw [hr] at h
  simp only [Option.some.injEq] at h
  subst h
  simp only [List.drop_left] at hc
  obtain ⟨sp, hsp, hcsp⟩ := List.mem_map.1 hc
  have hlen := (hb sp hsp).1
  have hcov : (sp.1 : Int) ≤ (j : Int) ∧ (j : Int) < (sp.1 : Int) + (sp.2 : Int) := by
    rw [← hcsp] at hj
    exact hj
  unfold styleAt formatChanges
  rw [List.foldl_append]
  apply foldl_paint_last
  · rw [length_foldl_paint, List.length_replicate]
    omega
  · right
    refine ⟨c, hc, ?_, hj⟩
    rw [← hcsp]
    exact Int.natCast_nonneg _
  · intro x hx _
    obtain ⟨y, _, hy⟩ := List.mem_map.1 hx
    rw [← hy]
    rfl

/-- Claim C21, on the line `/* a */` with previous state `NORMAL`. The comment loop applies the
span `(0, 7)` after the rule pass, and all seven characters end with the format of that call,
the member `multiLineCommentFormat`: the span wins over what the rule table painted. But the
member is the default format, without foreground colour: the constructor sets the gray
foreground on a local of the same name. So no character of the comment ends with the gray
format. -/
theorem block_comment_style_is_not_gray :
    ∃ r, highlightBlock "/* a */".toList NORMAL = some r ∧
      r.formats = ruleFormats highlighter.highlightingRules "/* a */".toList ++
        [commentRange highlighter (0, 7)] ∧
      highlighter.multiLineCommentFormat = {} ∧
      multiLineCommentFormat.foreground = some "gray" ∧
      (∀ j : Nat, j < 7 → styleAt 7 r.formats j = some {}) ∧
      ∀ j : Nat, j < 7 → styleAt 7 r.formats j ≠ some multiLineCommentFormat := by
  have hr : highlightBlock "/* a */".toList NORMAL =
      some ⟨ruleFormats highlighter.highlightingRules "/* a */".toList ++
        [commentRange highlighter (0, 7)], NORMAL⟩ :=
    highlightBlock_of_referenceScan _ NORMAL (by decide) [(0, 7)] true (by decide)
  have hstyle : ∀ j : Nat, j < 7 →
      styleAt 7 (ruleFormats highlighter.highlightingRules "/* a */".toList ++
        [commentRange highlighter (0, 7)]) j = some {} := by
    intro j hj
    have h := comment_span_style "/* a */".toList NORMAL _ hr (commentRange highlighter (0, 7))
      (by simp) j ⟨Int.natCast_nonneg _, (by simp only [commentRange]; omega)⟩
    rw [highlighter_multiLineCommentFormat] at h
    exact h
  refine ⟨_, hr, rfl, highlighter_multiLineCommentFormat, rfl, hstyle, ?_⟩
  intro j hj
  rw [hstyle j hj]
  decide

/-! ## The two completion sections: claim C23 -/

/-- The first completion section alone, on an event with text over an empty word: nothing
changes. -/
theorem firstRefresh_no_word (host : Host) (w : AutoIndentTextEdit) (event : QKeyEvent)
    (ht : event.text ≠ []) (hw : wordUnderCursor host w = []) :
    firstRefresh host w event = w := by
  unfold firstRefresh
  simp [hw, length_pos_of_ne ht]

/-- The first completion section alone, on an event without text: the popup is hidden. -/
theorem firstRefresh_no_text (host : Host) (w : AutoIndentTextEdit) (event : QKeyEvent)
    (ht : event.text = []) :
    firstRefresh host w event = popupHide w := by
  unfold firstRefresh
  simp [ht]

/-- The first completion section alone, on an event with text over a nonempty word: the prefix
and the selected row are set, and a popup that is visible stays so. -/
theorem firstRefresh_word (host : Host) (w : AutoIndentTextEdit) (event : QKeyEvent)
    (ht : event.text ≠ []) (hw : wordUnderCursor host w ≠ []) :
    firstRefresh host w event =
      { w with
        completionPrefix := wordUnderCursor host w,
        popupVisible := w.popupVisible || decide (0 < completionCount (wordUnderCursor host w)),
        popupCurrentIndex :=
          if completionCount (wordUnderCursor host w) = 1 then some 0 else none } := by
  unfold firstRefresh
  simp only [isEmpty_eq_false_of_ne hw, length_pos_of_ne ht]
  by_cases hc : completionCount (wordUnderCursor host w) = 1 <;>
    cases hv : w.popupVisible <;>
    simp [setCompletionPrefix, complete, popupSelectFirst, hc, hv]

/-- The two completion sections in sequence differ from the first alone at most in the
visibility of the popup, which they set from the event text and the word under the cursor. -/
theorem refresh_both_sections (host : Host) (w : AutoIndentTextEdit) (event : QKeyEvent) :
    secondRefresh host (firstRefresh host w event) event =
      { firstRefresh host w event with
        popupVisible := decide (event.text ≠ [] ∧ wordUnderCursor host w ≠ [] ∧
          0 < completionCount (wordUnderCursor host w)) } := by
  by_cases ht : event.text = []
  · rw [refresh_no_text host w event ht, firstRefresh_no_text host w event ht]
    simp [ht, popupHide]
  · by_cases hw : wordUnderCursor host w = []
    · rw [refresh_no_word host w event ht hw, firstRefresh_no_word host w event ht hw]
      simp [hw, popupHide]
    · rw [refresh_word host w event ht hw, firstRefresh_word host w event ht hw]
      simp [ht, hw]

/-- Claim C23, as the code has it. For every buffer, caret, key event and prior completion
state, running both completion sections in sequence gives the state that the first section
alone gives, but for the visibility of the suggestion list: after both sections the list is
visible exactly when the event carries text, the word under the caret is nonempty and at least
one candidate matches it. So the second section changes nothing exactly when the first section
alone leaves the list in that state. -/
theorem second_section_sets_only_visibility (host : Host) (w : AutoIndentTextEdit)
    (event : QKeyEvent) :
    secondRefresh host (firstRefresh host w event) event =
        { firstRefresh host w event with
          popupVisible := decide (event.text ≠ [] ∧ wordUnderCursor host w ≠ [] ∧
            0 < completionCount (wordUnderCursor host w)) } ∧
      (secondRefresh host (firstRefresh host w event) event = firstRefresh host w event ↔
        (firstRefresh host w event).popupVisible =
          decide (event.text ≠ [] ∧ wordUnderCursor host w ≠ [] ∧
            0 < completionCount (wordUnderCursor host w))) := by
  refine ⟨refresh_both_sections host w event, ?_⟩
  rw [refresh_both_sections host w event]
  constructor
  · intro h
    have h2 := congrArg AutoIndentTextEdit.popupVisible h
    exact h2.symm
  · intro h
    rw [← h]

/-- Counterexample to claim C23 as stated: with `vo` in the buffer, the prefix `vo` and the
suggestion list visible, a press of the space bar is handled by `keyPressEvent` and inserts a
blank, after which the word under the caret is empty. The first completion section leaves the
list visible; the second section hides it. -/
theorem second_section_counterexample :
    keyPressEvent exampleHost typingEditor spaceEvent =
        (secondRefresh exampleHost
          (firstRefresh exampleHost (structuralHandling exampleHost typingEditor spaceEvent)
            spaceEvent) spaceEvent, true) ∧
      (firstRefresh exampleHost (structuralHandling exampleHost typingEditor spaceEvent)
        spaceEvent).popupVisible = true ∧
      (secondRefresh exampleHost
        (firstRefresh exampleHost (structuralHandling exampleHost typingEditor spaceEvent)
          spaceEvent) spaceEvent).popupVisible = false := by
  decide

end Edit
